import Mathlib

/-!
# SimpleSampler: sampler sound, sampler voice and processor glue

A shallow embedding of `Source/PluginProcessor.h` and `Source/PluginProcessor.cpp`.

Conventions of the embedding:

* `float` and `double` values are exact rationals (`ℚ`).  Rounding is modelled
  in one place, the sum `sourceSamplePosition += pitchRatio` that decides how
  many frames a voice renders: `renderNextBlockRounded` takes the rounding of
  that sum as an argument, `roundDouble` is the rounding of `double` additions,
  and `renderNextBlock` is the variant with the exact sum.
* `int` values are mathematical integers; the narrowing conversions in the
  sound's constructor (`(int) source.lengthInSamples` and the `(int)` of the
  length cap) are written with their 32-bit range.
* A computation that would read or write outside a buffer, or dereference a
  null buffer, yields `none`.
* The envelope (`juce::ADSR`), `std::pow` and the JUCE containers are library
  code.  The envelope is an interface (`Envelope`), `std::pow` is a function
  argument, and the few container operations the processor calls are written
  out with a note on the behaviour they stand for.
-/

namespace SimpleSampler

/-! ## Scalars and buffers -/

/-- Conversion `(int) x` of a floating-point value: truncation toward zero. -/
def toInt (x : ℚ) : Int :=
  if 0 ≤ x then ⌊x⌋ else ⌈x⌉

/-- Conversion `(int) x` of a `double` that may leave the `int` range: truncation
toward zero inside the range.  Outside the range C++ leaves the conversion
undefined; the value here is the one the x86-64 conversion yields, `-2 ^ 31`. -/
def toInt32 (x : ℚ) : Int :=
  if -(2 ^ 31 : ℚ) - 1 < x ∧ x < 2 ^ 31 then toInt x else -(2 ^ 31)

/-- Conversion `(int) v` of a 64-bit integer: reduction into the signed 32-bit range. -/
def wrapInt32 (v : Int) : Int :=
  (v + 2 ^ 31) % 2 ^ 32 - 2 ^ 31

/-- Planar audio data (`juce::AudioBuffer<float>`): one list of frames per channel. -/
abbrev AudioBuffer := List (List ℚ)

/-- Element `p[i]` of a channel; `none` when `i` is outside the channel. -/
def readAt (xs : List ℚ) (i : Int) : Option ℚ :=
  if 0 ≤ i then xs[i.toNat]? else none

/-- The statement `*p += x` on frame `i` of channel `ch`; `none` when the frame
or the channel does not exist. -/
def addToSample (b : AudioBuffer) (ch : Nat) (i : Int) (x : ℚ) : Option AudioBuffer :=
  match b[ch]? with
  | none => none
  | some c =>
    match readAt c i with
    | none => none
    | some y => some (b.set ch (c.set i.toNat (y + x)))

/-! ## Envelope interface (`juce::ADSR`) -/

/-- The record `juce::ADSR::Parameters` with its default member values. -/
structure ADSRParameters where
  attack : ℚ := 1 / 10
  decay : ℚ := 1 / 10
  sustain : ℚ := 1
  release : ℚ := 1 / 10
  deriving DecidableEq, Repr

/-- The operations of `juce::ADSR` that the voice calls. -/
class Envelope (E : Type) where
  setSampleRate : E → ℚ → E
  setParameters : E → ADSRParameters → E
  noteOn : E → E
  noteOff : E → E
  reset : E → E
  getNextSample : E → ℚ × E

/-! ## SamplerSound -/

/-- What the sound's constructor sees of a `juce::AudioFormatReader`. -/
structure AudioFormatReader where
  sampleRate : ℚ
  lengthInSamples : Int
  numChannels : Nat
  samples : List (List ℚ)
  deriving DecidableEq, Repr

/-- The call `source.read (buffer, 0, n, 0, true, true)` into a buffer of `chans`
channels: the first `n` frames of each channel, zero past the end of the stream. -/
def AudioFormatReader.read (source : AudioFormatReader) (chans n : Nat) : AudioBuffer :=
  (List.range chans).map fun c =>
    (List.range n).map fun i => ((source.samples.getD c []).getD i 0)

/-- The members of class `SamplerSound`. -/
structure SamplerSound where
  sourceSampleRate : ℚ
  midiNotes : Nat
  midiRootNote : Int
  length : Int
  data : Option AudioBuffer
  params : ADSRParameters
  deriving DecidableEq, Repr

/-- Constructor `SamplerSound::SamplerSound`.  The argument `indeterminate` is the
value found in the member `length`, which has no initialiser, when the guard
fails.  Both operands of `jmin` are converted to `int` first: the 64-bit frame
count by `wrapInt32`, the `double` cap by `toInt32`. -/
def SamplerSound.ctor (source : AudioFormatReader) (midiNotes : Nat)
    (midiNoteForNormalPitch : Int) (attackTimeSecs releaseTimeSecs maxSampleLengthSeconds : ℚ)
    (indeterminate : Int) : SamplerSound :=
  if 0 < source.sampleRate ∧ 0 < source.lengthInSamples then
    let length := min (wrapInt32 source.lengthInSamples)
      (toInt32 (maxSampleLengthSeconds * source.sampleRate))
    { sourceSampleRate := source.sampleRate
      midiNotes := midiNotes
      midiRootNote := midiNoteForNormalPitch
      length := length
      data := some (source.read (min 2 source.numChannels) (length + 4).toNat)
      params := { attack := attackTimeSecs, release := releaseTimeSecs } }
  else
    { sourceSampleRate := source.sampleRate
      midiNotes := midiNotes
      midiRootNote := midiNoteForNormalPitch
      length := indeterminate
      data := none
      params := {} }

/-- Method `SamplerSound::appliesToNote`: bit `midiNoteNumber` of the note set. -/
def SamplerSound.appliesToNote (s : SamplerSound) (midiNoteNumber : Nat) : Bool :=
  s.midiNotes.testBit midiNoteNumber

/-! ## SamplerVoice -/

/-- The members of `SamplerVoice`, with those of its base `juce::SynthesiserVoice`
that the sampler reads: the playback rate behind `getSampleRate()`, the current
note (`-1` when there is none) and the currently playing sound; `noteOnTime` is
the base member that orders the voices by the time of their note-on. -/
structure SamplerVoice (E : Type) where
  currentSampleRate : ℚ
  currentlyPlayingNote : Int
  currentlyPlayingSound : Option SamplerSound
  pitchRatio : ℚ
  sourceSamplePosition : ℚ
  lgain : ℚ
  rgain : ℚ
  adsr : E
  noteOnTime : Nat := 0

section Voice

variable {E : Type} [Envelope E]

/-- Method `SamplerVoice::startNote`.  The sound is `none` when the
`dynamic_cast` to `SamplerSound` fails; `pow` is `std::pow`. -/
def SamplerVoice.startNote (pow : ℚ → ℚ → ℚ) (v : SamplerVoice E) (midiNoteNumber : Int)
    (velocity : ℚ) (s : Option SamplerSound) : SamplerVoice E :=
  match s with
  | some sound =>
    { v with
      pitchRatio := pow 2 (((midiNoteNumber - sound.midiRootNote : Int) : ℚ) / 12)
        * sound.sourceSampleRate / v.currentSampleRate
      sourceSamplePosition := 0
      lgain := velocity
      rgain := velocity
      adsr := Envelope.noteOn
        (Envelope.setParameters (Envelope.setSampleRate v.adsr sound.sourceSampleRate)
          sound.params) }
  | none => v

/-- Base-class method `juce::SynthesiserVoice::clearCurrentNote`: the voice
forgets its note and its sound. -/
def SamplerVoice.clearCurrentNote (v : SamplerVoice E) : SamplerVoice E :=
  { v with currentlyPlayingNote := -1, currentlyPlayingSound := none }

/-- Method `SamplerVoice::stopNote`. -/
def SamplerVoice.stopNote (v : SamplerVoice E) (_velocity : ℚ) (allowTailOff : Bool) :
    SamplerVoice E :=
  if allowTailOff then
    { v with adsr := Envelope.noteOff v.adsr }
  else
    let v1 := v.clearCurrentNote
    { v1 with adsr := Envelope.reset v1.adsr }

/-- The expression `in[pos] * invAlpha + in[pos + 1] * alpha` on one channel of
the sound; `none` when a read leaves the channel. -/
def interpolate (chan : List ℚ) (pos : Int) (alpha invAlpha : ℚ) : Option ℚ :=
  match readAt chan pos, readAt chan (pos + 1) with
  | some x0, some x1 => some (x0 * invAlpha + x1 * alpha)
  | _, _ => none

/-- The right value of the loop body: interpolated on the right channel when the
sound has one (`inR != nullptr`), the left value otherwise. -/
def rightValue (inR : Option (List ℚ)) (pos : Int) (alpha invAlpha l : ℚ) : Option ℚ :=
  match inR with
  | some chR => interpolate chR pos alpha invAlpha
  | none => some l

/-- The output statements of the loop body: both channels of a stereo output,
or the half sum on a mono output. -/
def writeFrame (outputBuffer : AudioBuffer) (idx : Int) (l r : ℚ) : Option AudioBuffer :=
  if outputBuffer.length > 1 then
    match addToSample outputBuffer 0 idx l with
    | some o => addToSample o 1 idx r
    | none => none
  else
    addToSample outputBuffer 0 idx ((l + r) * (1 / 2))

/-- One pass through the body of the `while` loop of `renderNextBlock`, writing
output frame `idx`.  The result carries the voice, the output buffer and whether
the loop was left through `break`.  The sum `sourceSamplePosition + pitchRatio`
is exact here; `renderFrameRounded` is the pass with the sum rounded. -/
def SamplerVoice.renderFrame (playingSound : SamplerSound) (inL : List ℚ)
    (inR : Option (List ℚ)) (v : SamplerVoice E) (outputBuffer : AudioBuffer) (idx : Int) :
    Option (SamplerVoice E × AudioBuffer × Bool) :=
  let pos := toInt v.sourceSamplePosition
  let alpha := v.sourceSamplePosition - pos
  let invAlpha := 1 - alpha
  match interpolate inL pos alpha invAlpha with
  | none => none
  | some l =>
    match rightValue inR pos alpha invAlpha l with
    | none => none
    | some r =>
      let envelopeValue := (Envelope.getNextSample v.adsr).1
      let adsr := (Envelope.getNextSample v.adsr).2
      let l := l * (v.lgain * envelopeValue)
      let r := r * (v.rgain * envelopeValue)
      match writeFrame outputBuffer idx l r with
      | none => none
      | some out =>
        let v1 : SamplerVoice E :=
          { v with adsr := adsr, sourceSamplePosition := v.sourceSamplePosition + v.pitchRatio }
        if v1.sourceSamplePosition > playingSound.length then
          some (v1.stopNote 0 false, out, true)
        else
          some (v1, out, false)

/-- The loop `while (--numSamples >= 0)` of `renderNextBlock`: `n` is the number
of passes still allowed, `idx` the output frame of the next pass. -/
def SamplerVoice.renderLoop (playingSound : SamplerSound) (inL : List ℚ)
    (inR : Option (List ℚ)) :
    Nat → Int → SamplerVoice E → AudioBuffer → Option (SamplerVoice E × AudioBuffer)
  | 0, _, v, out => some (v, out)
  | n + 1, idx, v, out =>
    match SamplerVoice.renderFrame playingSound inL inR v out idx with
    | none => none
    | some (v1, out1, true) => some (v1, out1)
    | some (v1, out1, false) => SamplerVoice.renderLoop playingSound inL inR n (idx + 1) v1 out1

/-- Method `SamplerVoice::renderNextBlock`.  A voice without a playing sound
leaves the buffer alone; a sound without audio data cannot be read. -/
def SamplerVoice.renderNextBlock (v : SamplerVoice E) (outputBuffer : AudioBuffer)
    (startSample numSamples : Int) : Option (SamplerVoice E × AudioBuffer) :=
  match v.currentlyPlayingSound with
  | none => some (v, outputBuffer)
  | some playingSound =>
    match playingSound.data with
    | none => none
    | some data =>
      let inL := data.getD 0 []
      let inR := if data.length > 1 then data[1]? else none
      SamplerVoice.renderLoop playingSound inL inR numSamples.toNat startSample v outputBuffer

end Voice

/-! ## A concrete envelope -/

/-- The stages of the envelope generator. -/
inductive ADSRState
  | idle
  | attack
  | sustain
  | release
  deriving DecidableEq, Repr

/-- Modelled from the spec: `juce::ADSR` is library code outside the sources.
The envelope generator holds a stage, a level, its sample rate and its
parameters. -/
structure ADSR where
  state : ADSRState := ADSRState.idle
  envelopeVal : ℚ := 0
  sampleRate : ℚ := 44100
  parameters : ADSRParameters := {}
  releaseRate : ℚ := 0
  deriving DecidableEq, Repr

/-- Modelled from the spec: the per-frame step of a ramp lasting
`seconds * sampleRate` frames over a distance `dist`; a ramp of no duration is
covered in one frame. -/
def ADSR.rampStep (dist seconds sampleRate : ℚ) : ℚ :=
  if 0 < seconds * sampleRate then dist / (seconds * sampleRate) else dist

/-- Modelled from the spec: `noteOn()` resets the level to 0 and the stage to Attack. -/
def ADSR.noteOn (e : ADSR) : ADSR :=
  { e with state := ADSRState.attack, envelopeVal := 0 }

/-- Modelled from the spec: `noteOff()` moves Attack and Sustain to Release and
does nothing in Release and Idle. -/
def ADSR.noteOff (e : ADSR) : ADSR :=
  match e.state with
  | ADSRState.attack | ADSRState.sustain =>
    { e with state := ADSRState.release
             releaseRate := ADSR.rampStep e.envelopeVal e.parameters.release e.sampleRate }
  | _ => e

/-- Modelled from the spec: the forced stop sets the stage to Idle and the level to 0. -/
def ADSR.reset (e : ADSR) : ADSR :=
  { e with state := ADSRState.idle, envelopeVal := 0 }

/-- Modelled from the spec: `nextSample()` advances the envelope by one frame and
returns the level: a linear attack up to 1, a held sustain at 1, a release
down to 0 that ends in Idle. -/
def ADSR.getNextSample (e : ADSR) : ℚ × ADSR :=
  match e.state with
  | ADSRState.idle => (0, e)
  | ADSRState.attack =>
    let x := e.envelopeVal + ADSR.rampStep 1 e.parameters.attack e.sampleRate
    if 1 ≤ x then (1, { e with envelopeVal := 1, state := ADSRState.sustain })
    else (x, { e with envelopeVal := x })
  | ADSRState.sustain => (1, { e with envelopeVal := 1 })
  | ADSRState.release =>
    let x := e.envelopeVal - e.releaseRate
    if x ≤ 0 then (0, { e with envelopeVal := 0, state := ADSRState.idle })
    else (x, { e with envelopeVal := x })

instance : Envelope ADSR where
  setSampleRate e r := { e with sampleRate := r }
  setParameters e p := { e with parameters := p }
  noteOn := ADSR.noteOn
  noteOff := ADSR.noteOff
  reset := ADSR.reset
  getNextSample := ADSR.getNextSample

/-! ## MIDI buffers (`juce::MidiBuffer`) -/

/-- A MIDI message as the processor builds or receives it: the results of
`juce::MidiMessage::noteOn` and `juce::MidiMessage::noteOff`, or any other
message of the host. -/
inductive MidiMessage
  | noteOn (channel : Int) (noteNumber : Int) (velocity : ℚ)
  | noteOff (channel : Int) (noteNumber : Int)
  | other (bytes : List Nat)
  deriving DecidableEq, Repr

/-- The content of a `juce::MidiBuffer`: events in storage order, each with its
sample position. -/
abbrev MidiBuffer := List (Int × MidiMessage)

/-- Library method `juce::MidiBuffer::addEvent`: the event is stored behind the
stored events whose position is not greater than `sampleNumber`. -/
def MidiBuffer.addEvent (b : MidiBuffer) (m : MidiMessage) (sampleNumber : Int) : MidiBuffer :=
  b.takeWhile (fun e => decide (e.1 ≤ sampleNumber)) ++ (sampleNumber, m) ::
    b.dropWhile (fun e => decide (e.1 ≤ sampleNumber))

/-- Library method `juce::MidiBuffer::addEvents`: starting at the first event of
`other` at or after `startSample`, events are added until one lies at or after
`startSample + numSamples` (no such limit when `numSamples` is negative). -/
def MidiBuffer.addEvents (b other : MidiBuffer) (startSample numSamples sampleDeltaToAdd : Int) :
    MidiBuffer :=
  ((other.dropWhile (fun e => decide (e.1 < startSample))).takeWhile
      (fun e => !(decide (e.1 ≥ startSample + numSamples) && decide (numSamples ≥ 0)))).foldl
    (fun acc e => MidiBuffer.addEvent acc e.2 (e.1 + sampleDeltaToAdd)) b

/-! ## SimpleSamplerAudioProcessor -/

/-- The state of the `juce::Synthesiser` member that the processor touches: the
list of sounds and the list of voices, with its playback rate and its note-on
counter. -/
structure Synthesiser (E : Type) where
  sounds : List SamplerSound
  voices : List (SamplerVoice E)
  sampleRate : ℚ := 0
  lastNoteOnCounter : Nat := 0

/-- The record `juce::Reverb::Parameters` as `processBlock` fills it. -/
structure ReverbParameters where
  roomSize : ℚ
  damping : ℚ
  wetLevel : ℚ
  dryLevel : ℚ
  width : ℚ
  freezeMode : ℚ
  deriving DecidableEq, Repr

/-- The members of `SimpleSamplerAudioProcessor`: the synthesiser, the reverb
(state of type `R`), the two parameter values, the virtual keyboard buffer and
the loaded file name, with the channel counts of the bus layout. -/
structure SimpleSamplerAudioProcessor (E R : Type) where
  synth : Synthesiser E
  reverb : R
  volumeParameter : ℚ
  reverbParameter : ℚ
  virtualKeyboardMidi : MidiBuffer
  loadedFileName : String
  totalNumInputChannels : Nat
  totalNumOutputChannels : Nat

/-- What `loadSample` asks of a `juce::File`: whether it exists as a file, the
reader that `formatManager.createReaderFor` returns for it (`none` when no
registered format opens it) and its file name. -/
structure File where
  existsAsFile : Bool
  createReaderFor : Option AudioFormatReader
  getFileName : String
  deriving DecidableEq, Repr

/-- The note set built by `allNotes.setRange (0, 128, true)`: bits 0 to 127. -/
def allNotes : Nat := 2 ^ 128 - 1

section Processor

variable {E R : Type}

/-- Library method `juce::Synthesiser::clearSounds`: the list of sounds is emptied. -/
def Synthesiser.clearSounds (s : Synthesiser E) : Synthesiser E :=
  { s with sounds := [] }

/-- Library method `juce::Synthesiser::addSound`: the sound is appended to the list. -/
def Synthesiser.addSound (s : Synthesiser E) (sound : SamplerSound) : Synthesiser E :=
  { s with sounds := s.sounds ++ [sound] }

/-- Method `SimpleSamplerAudioProcessor::loadSample`: the returned flag and the
processor afterwards.  `indeterminate` is passed on to the sound's constructor. -/
def SimpleSamplerAudioProcessor.loadSample (p : SimpleSamplerAudioProcessor E R) (file : File)
    (indeterminate : Int) : Bool × SimpleSamplerAudioProcessor E R :=
  if !file.existsAsFile then
    (false, p)
  else
    match file.createReaderFor with
    | some reader =>
      let synth1 := p.synth.clearSounds
      let synth2 := synth1.addSound
        (SamplerSound.ctor reader allNotes 60 (1 / 100) (1 / 10) 10 indeterminate)
      (true, { p with synth := synth2, loadedFileName := file.getFileName })
    | none => (false, p)

/-- Method `SimpleSamplerAudioProcessor::addNoteOn`. -/
def SimpleSamplerAudioProcessor.addNoteOn (p : SimpleSamplerAudioProcessor E R) (midiNote : Int)
    (velocity : ℚ) : SimpleSamplerAudioProcessor E R :=
  let message := MidiMessage.noteOn 1 midiNote velocity
  { p with virtualKeyboardMidi := MidiBuffer.addEvent p.virtualKeyboardMidi message 0 }

/-- Method `SimpleSamplerAudioProcessor::addNoteOff`. -/
def SimpleSamplerAudioProcessor.addNoteOff (p : SimpleSamplerAudioProcessor E R)
    (midiNote : Int) : SimpleSamplerAudioProcessor E R :=
  let message := MidiMessage.noteOff 1 midiNote
  { p with virtualKeyboardMidi := MidiBuffer.addEvent p.virtualKeyboardMidi message 0 }

/-- Method `AudioBuffer::getNumSamples`, read off the first channel. -/
def getNumSamples (b : AudioBuffer) : Int :=
  ((b.headD []).length : Int)

/-- Method `AudioBuffer::clear (channel, 0, getNumSamples())`. -/
def clearChannel (b : AudioBuffer) (channel : Nat) : AudioBuffer :=
  b.modify (fun c => c.map fun _ => 0) channel

/-- Method `AudioBuffer::applyGain (gain)`. -/
def applyGain (b : AudioBuffer) (gain : ℚ) : AudioBuffer :=
  b.map fun c => c.map fun x => x * gain

/-- The block of `processBlock` under "Merge virtual keyboard MIDI with incoming
MIDI": the host's event stream and the virtual keyboard buffer afterwards. -/
def mergeVirtualKeyboardMidi (virtualKeyboardMidi midiMessages : MidiBuffer) (numSamples : Int) :
    MidiBuffer × MidiBuffer :=
  if !virtualKeyboardMidi.isEmpty then
    (MidiBuffer.addEvents midiMessages virtualKeyboardMidi 0 numSamples 0, [])
  else
    (midiMessages, virtualKeyboardMidi)

/-- Method `SimpleSamplerAudioProcessor::processBlock`.  The library calls
`synth.renderNextBlock` and `reverb.process` are the arguments `synthRender` and
`reverbProcess`.  The result is the processor, the audio buffer and the event
stream `midiMessages` (passed by reference, as handed to the synthesiser). -/
def SimpleSamplerAudioProcessor.processBlock
    (synthRender : Synthesiser E → AudioBuffer → MidiBuffer → Int → Int →
      Option (Synthesiser E × AudioBuffer))
    (reverbProcess : R → ReverbParameters → AudioBuffer → R × AudioBuffer)
    (p : SimpleSamplerAudioProcessor E R) (buffer : AudioBuffer) (midiMessages : MidiBuffer) :
    Option (SimpleSamplerAudioProcessor E R × AudioBuffer × MidiBuffer) :=
  let buffer1 := ((List.range p.totalNumOutputChannels).filter
    (fun i => decide (p.totalNumInputChannels ≤ i))).foldl clearChannel buffer
  let merged := mergeVirtualKeyboardMidi p.virtualKeyboardMidi midiMessages (getNumSamples buffer)
  match synthRender p.synth buffer1 merged.1 0 (getNumSamples buffer) with
  | none => none
  | some (synth1, buffer2) =>
    let volume := p.volumeParameter
    let buffer3 := applyGain buffer2 volume
    let reverbMix := p.reverbParameter
    let p1 := { p with synth := synth1, virtualKeyboardMidi := merged.2 }
    if reverbMix > 1 / 100 then
      let reverbParams : ReverbParameters :=
        { roomSize := 1 / 2, damping := 1 / 2, wetLevel := reverbMix,
          dryLevel := 1 - reverbMix, width := 1, freezeMode := 0 }
      let processed := reverbProcess p1.reverb reverbParams buffer3
      some ({ p1 with reverb := processed.1 }, processed.2, merged.1)
    else
      some (p1, buffer3, merged.1)

end Processor

/-! ## Sequences of calls -/

/-- A call of the virtual keyboard into the processor. -/
inductive KeyboardCall
  | noteOn (midiNote : Int) (velocity : ℚ)
  | noteOff (midiNote : Int)
  deriving DecidableEq, Repr

/-- The message that a keyboard call enqueues. -/
def KeyboardCall.message : KeyboardCall → MidiMessage
  | KeyboardCall.noteOn n vel => MidiMessage.noteOn 1 n vel
  | KeyboardCall.noteOff n => MidiMessage.noteOff 1 n

/-- The processor after one keyboard call. -/
def SimpleSamplerAudioProcessor.keyboardCall {E R : Type} (p : SimpleSamplerAudioProcessor E R) :
    KeyboardCall → SimpleSamplerAudioProcessor E R
  | KeyboardCall.noteOn n vel => p.addNoteOn n vel
  | KeyboardCall.noteOff n => p.addNoteOff n

/-- A call of the synthesiser into a voice after the note was started. -/
inductive VoiceCall
  | render (outputBuffer : AudioBuffer) (startSample numSamples : Int)
  | stop (velocity : ℚ) (allowTailOff : Bool)

/-- The voice after one call; `none` when a render leaves a buffer. -/
def SamplerVoice.call {E : Type} [Envelope E] (v : SamplerVoice E) :
    VoiceCall → Option (SamplerVoice E)
  | VoiceCall.render out s n => (v.renderNextBlock out s n).map Prod.fst
  | VoiceCall.stop vel tail => some (v.stopNote vel tail)

/-- The voice after a sequence of calls. -/
def SamplerVoice.calls {E : Type} [Envelope E] (v : SamplerVoice E) :
    List VoiceCall → Option (SamplerVoice E)
  | [] => some v
  | c :: cs => (v.call c).bind fun v1 => SamplerVoice.calls v1 cs

/-- Frame `i` of channel `c` of a buffer; `none` when it does not exist. -/
def sampleAt (b : AudioBuffer) (c : Nat) (i : Int) : Option ℚ :=
  (b[c]?).bind fun ch => readAt ch i

/-- The voice after the envelope read and the position update of one pass of
the loop. -/
def SamplerVoice.advance {E : Type} [Envelope E] (v : SamplerVoice E) : SamplerVoice E :=
  { v with adsr := (Envelope.getNextSample v.adsr).2
           sourceSamplePosition := v.sourceSamplePosition + v.pitchRatio }

/-- The envelope after `i` calls of `getNextSample`. -/
def envelopeAfter {E : Type} [Envelope E] (e : E) : Nat → E
  | 0 => e
  | i + 1 => envelopeAfter (Envelope.getNextSample e).2 i

/-- The value that call number `i` (from 0) of `getNextSample` returns. -/
def envelopeValue {E : Type} [Envelope E] (e : E) (i : Nat) : ℚ :=
  (Envelope.getNextSample (envelopeAfter e i)).1

/-- A sound as the constructor leaves it when its guard holds and the lengths fit:
a positive source rate, a length that is not negative, and audio data of at
least one channel with `length + 4` frames in each channel. -/
def SamplerSound.WellFormed (s : SamplerSound) : Prop :=
  0 < s.sourceSampleRate ∧ 0 ≤ s.length ∧
    ∃ data, s.data = some data ∧ 0 < data.length ∧
      ∀ ch ∈ data, (ch.length : Int) = s.length + 4

/-- The output range of a render call lies in the buffer: the buffer has a first
channel, and frames `startSample .. startSample + numSamples - 1` exist in the
first channel and, for a buffer of more channels, in the second. -/
def ValidRange (out : AudioBuffer) (startSample numSamples : Int) : Prop :=
  0 < out.length ∧ ∀ k : Int, startSample ≤ k → k < startSample + numSamples →
    (sampleAt out 0 k).isSome ∧ (out.length > 1 → (sampleAt out 1 k).isSome)

/-- The voice is either stopped (no sound, no note) or plays `ps` at a position
between 0 and the length of `ps`; its pitch ratio is not negative. -/
def SamplerVoice.Tracks {E : Type} (v : SamplerVoice E) (ps : SamplerSound) : Prop :=
  0 ≤ v.pitchRatio ∧
    ((v.currentlyPlayingSound = none ∧ v.currentlyPlayingNote = -1)
      ∨ (v.currentlyPlayingSound = some ps ∧ 0 ≤ v.sourceSamplePosition
          ∧ v.sourceSamplePosition ≤ ps.length))

/-- A call whose output range, if it has one, lies in its buffer. -/
def VoiceCall.Valid : VoiceCall → Prop
  | VoiceCall.render out s n => ValidRange out s n
  | VoiceCall.stop _ _ => True

/-- A stand-in for `std::pow` on rationals: the power with the exponent rounded down. -/
def floorPow (b e : ℚ) : ℚ :=
  b ^ (⌊e⌋ : Int)

/-- A voice as `SamplerVoice()` leaves it, at a playback rate of 48000. -/
def idleVoice : SamplerVoice ADSR :=
  { currentSampleRate := 48000, currentlyPlayingNote := -1, currentlyPlayingSound := none,
    pitchRatio := 0, sourceSamplePosition := 0, lgain := 0, rgain := 0, adsr := {} }

/-- A mono sound of three frames at 48000, root note 60, with its four extra frames. -/
def demoSound : SamplerSound :=
  { sourceSampleRate := 48000, midiNotes := allNotes, midiRootNote := 60, length := 3,
    data := some [[1, 2, 3, 0, 0, 0, 0]], params := { attack := 1 / 100, release := 1 / 10 } }

/-- A voice in the middle of the demo sound: position 3/2, ratio 1/2, gain 1/2,
envelope held at 1. -/
def demoVoice : SamplerVoice ADSR :=
  { currentSampleRate := 48000, currentlyPlayingNote := 48, currentlyPlayingSound := some demoSound,
    pitchRatio := 1 / 2, sourceSamplePosition := 3 / 2, lgain := 1 / 2, rgain := 1 / 2,
    adsr := { state := ADSRState.sustain, envelopeVal := 1, sampleRate := 48000 } }

/-- The idle voice once the synthesiser has assigned it note 60 and the demo
sound, before it calls `startNote`. -/
def demoAssigned : SamplerVoice ADSR :=
  { idleVoice with currentlyPlayingNote := 60, currentlyPlayingSound := some demoSound }

/-- A reader for a stream that decodes to no frames at all. -/
def emptyReader : AudioFormatReader :=
  { sampleRate := 48000, lengthInSamples := 0, numChannels := 1, samples := [[]] }

/-- The sound that the constructor builds from the empty reader with the
arguments of `loadSample`, the member `length` happening to hold 0. -/
def emptySound : SamplerSound :=
  SamplerSound.ctor emptyReader allNotes 60 (1 / 100) (1 / 10) 10 0

/-- A reader of three mono frames that reports the sample rate `rate`. -/
def reader3 (rate : ℚ) : AudioFormatReader :=
  { sampleRate := rate, lengthInSamples := 3, numChannels := 1, samples := [[1, 2, 3]] }

/-- A sound whose source reports a sample rate of 0. -/
def zeroRateSound : SamplerSound :=
  SamplerSound.ctor (reader3 0) allNotes 60 (1 / 100) (1 / 10) 10 0

/-- A sound whose source reports a negative sample rate. -/
def negativeRateSound : SamplerSound :=
  SamplerSound.ctor (reader3 (-48000)) allNotes 60 (1 / 100) (1 / 10) 10 0

/-- A processor with the demo sound installed, one voice playing it, an empty
virtual keyboard buffer and a stereo output. -/
def demoProcessor : SimpleSamplerAudioProcessor ADSR Unit :=
  { synth := { sounds := [demoSound], voices := [demoVoice] }
    reverb := ()
    volumeParameter := 7 / 10
    reverbParameter := 0
    virtualKeyboardMidi := []
    loadedFileName := "demo.wav"
    totalNumInputChannels := 0
    totalNumOutputChannels := 2 }

/-- A path at which there is no file. -/
def missingFile : File :=
  { existsAsFile := false, createReaderFor := none, getFileName := "missing.wav" }

/-- A file that exists and that no registered format opens. -/
def unreadableFile : File :=
  { existsAsFile := true, createReaderFor := none, getFileName := "notes.txt" }

/-- A file that a format opens and that holds no frames. -/
def emptyFile : File :=
  { existsAsFile := true, createReaderFor := some emptyReader, getFileName := "empty.wav" }

/-- The idle voice once the synthesiser has assigned it note 60 and the sound
without frames. -/
def emptyAssigned : SamplerVoice ADSR :=
  { idleVoice with currentlyPlayingNote := 60, currentlyPlayingSound := some emptySound }

/-- The processor after a sequence of keyboard calls. -/
def SimpleSamplerAudioProcessor.keyboardCalls {E R : Type} (p : SimpleSamplerAudioProcessor E R)
    (cs : List KeyboardCall) : SimpleSamplerAudioProcessor E R :=
  cs.foldl SimpleSamplerAudioProcessor.keyboardCall p

/-! ## Construction and the voice pool -/

/-- Base-class method `juce::SynthesiserVoice::isVoiceActive`: the voice has a note. -/
def SamplerVoice.isVoiceActive {E : Type} (v : SamplerVoice E) : Bool :=
  decide (0 ≤ v.currentlyPlayingNote)

/-- Constructor `SamplerVoice()`: the member initialisers of the class, on a base
voice without note and sound at the base's initial rate of 44100; `adsr` is the
default-constructed envelope. -/
def SamplerVoice.ctor {E : Type} (adsr : E) : SamplerVoice E :=
  { currentSampleRate := 44100, currentlyPlayingNote := -1, currentlyPlayingSound := none,
    pitchRatio := 0, sourceSamplePosition := 0, lgain := 0, rgain := 0, adsr := adsr }

/-- Library method `juce::Synthesiser::addVoice`: the voice is appended to the list. -/
def Synthesiser.addVoice {E : Type} (s : Synthesiser E) (v : SamplerVoice E) : Synthesiser E :=
  { s with voices := s.voices ++ [v] }

/-- Constructor `SimpleSamplerAudioProcessor::SimpleSamplerAudioProcessor`: a
stereo output and no input, volume 0.7, reverb 0, and the loop that adds eight
voices.  `adsr` and `reverb` are the default-constructed envelope and reverb. -/
def SimpleSamplerAudioProcessor.ctor {E R : Type} (adsr : E) (reverb : R) :
    SimpleSamplerAudioProcessor E R :=
  { synth := (List.range 8).foldl (fun s _ => s.addVoice (SamplerVoice.ctor adsr))
      { sounds := [], voices := [] }
    reverb := reverb
    volumeParameter := 7 / 10
    reverbParameter := 0
    virtualKeyboardMidi := []
    loadedFileName := ""
    totalNumInputChannels := 0
    totalNumOutputChannels := 2 }

/-- Modelled from the spec: `juce::Synthesiser` is library code outside the
sources.  The pool "selects any voice with no active note": the index of the
first voice without a note. -/
def firstFree {E : Type} : List (SamplerVoice E) → Option Nat
  | [] => none
  | v :: vs => if v.isVoiceActive then (firstFree vs).map (fun j => j + 1) else some 0

/-- Modelled from the spec: the voice stealing of `juce::Synthesiser`.  "The voice
with the oldest noteOnTimestamp (tie-break: lowest pool index)": its index and
its time stamp. -/
def oldestVoice {E : Type} : List (SamplerVoice E) → Option (Nat × Nat)
  | [] => none
  | v :: vs =>
    match oldestVoice vs with
    | none => some (0, v.noteOnTime)
    | some (j, t) => if v.noteOnTime ≤ t then some (0, v.noteOnTime) else some (j + 1, t)

/-- Modelled from the spec: the voice that a note-on of `juce::Synthesiser` takes:
a free voice, and "if none free" the oldest one. -/
def Synthesiser.findFreeVoice {E : Type} (s : Synthesiser E) : Option Nat :=
  match firstFree s.voices with
  | some i => some i
  | none => (oldestVoice s.voices).map Prod.fst

/-- Modelled from the spec: `juce::Synthesiser::startVoice` on the voice at index
`i`.  A voice that still plays is hard-stopped first; the voice then takes the
note, the sound and the next time stamp and is started. -/
def Synthesiser.startVoice {E : Type} [Envelope E] (pow : ℚ → ℚ → ℚ) (s : Synthesiser E)
    (i : Nat) (sound : SamplerSound) (midiNoteNumber : Int) (velocity : ℚ) : Synthesiser E :=
  match s.voices[i]? with
  | none => s
  | some v =>
    let v0 := if v.currentlyPlayingSound.isSome then v.stopNote 0 false else v
    let v1 : SamplerVoice E :=
      { v0 with currentlyPlayingNote := midiNoteNumber, currentlyPlayingSound := some sound,
                noteOnTime := s.lastNoteOnCounter + 1 }
    { s with lastNoteOnCounter := s.lastNoteOnCounter + 1
             voices := s.voices.set i (v1.startNote pow midiNoteNumber velocity (some sound)) }

/-- Modelled from the spec: `juce::Synthesiser::noteOn` (the pool's
`dispatchNoteOn`).  For each sound that applies to the note, the chosen voice is
started on it. -/
def Synthesiser.noteOn {E : Type} [Envelope E] (pow : ℚ → ℚ → ℚ) (s : Synthesiser E)
    (midiNoteNumber : Int) (velocity : ℚ) : Synthesiser E :=
  s.sounds.foldl (fun acc sound =>
    if 0 ≤ midiNoteNumber ∧ sound.appliesToNote midiNoteNumber.toNat = true then
      match acc.findFreeVoice with
      | some i => acc.startVoice pow i sound midiNoteNumber velocity
      | none => acc
    else acc) s

/-- Modelled from the spec: the voice that a note-off releases, "the most recently
started voice matching noteNumber": its index and its time stamp. -/
def newestMatch {E : Type} (midiNoteNumber : Int) : List (SamplerVoice E) → Option (Nat × Nat)
  | [] => none
  | v :: vs =>
    let rest := (newestMatch midiNoteNumber vs).map fun jt => (jt.1 + 1, jt.2)
    if v.isVoiceActive = true ∧ v.currentlyPlayingNote = midiNoteNumber then
      match rest with
      | some (j, t) => if v.noteOnTime < t then some (j, t) else some (0, v.noteOnTime)
      | none => some (0, v.noteOnTime)
    else rest

/-- Modelled from the spec: `juce::Synthesiser::noteOff` (the pool's
`dispatchNoteOff`): the matching voice is stopped with tail-off; "no-op if none". -/
def Synthesiser.noteOff {E : Type} [Envelope E] (s : Synthesiser E) (midiNoteNumber : Int) :
    Synthesiser E :=
  match newestMatch midiNoteNumber s.voices with
  | none => s
  | some (i, _) =>
    match s.voices[i]? with
    | none => s
    | some v => { s with voices := s.voices.set i (v.stopNote 1 true) }

/-- Modelled from the spec: `juce::Synthesiser::handleMidiEvent`, for the events
the pool dispatches; other messages leave the voices alone. -/
def Synthesiser.handleMidiEvent {E : Type} [Envelope E] (pow : ℚ → ℚ → ℚ) (s : Synthesiser E) :
    MidiMessage → Synthesiser E
  | MidiMessage.noteOn _ n vel => s.noteOn pow n vel
  | MidiMessage.noteOff _ n => s.noteOff n
  | MidiMessage.other _ => s

/-- Library method `juce::Synthesiser::renderVoices`: each voice in turn renders
the range into the same buffer. -/
def renderVoices {E : Type} [Envelope E] (startSample numSamples : Int) :
    List (SamplerVoice E) → AudioBuffer → Option (List (SamplerVoice E) × AudioBuffer)
  | [], out => some ([], out)
  | v :: vs, out =>
    match v.renderNextBlock out startSample numSamples with
    | none => none
    | some (v1, out1) =>
      match renderVoices startSample numSamples vs out1 with
      | none => none
      | some (vs1, out2) => some (v1 :: vs1, out2)

/-- Modelled from the spec: `juce::Synthesiser::renderNextBlock` in the simplified
form the spec allows for the pool's `renderBlock`: "process all events at block
start then render the whole block". -/
def Synthesiser.renderNextBlock {E : Type} [Envelope E] (pow : ℚ → ℚ → ℚ) (s : Synthesiser E)
    (outputAudio : AudioBuffer) (midiData : MidiBuffer) (startSample numSamples : Int) :
    Option (Synthesiser E × AudioBuffer) :=
  let s1 := midiData.foldl (fun acc e => acc.handleMidiEvent pow e.2) s
  match renderVoices startSample numSamples s1.voices outputAudio with
  | none => none
  | some (vs, out) => some ({ s1 with voices := vs }, out)

/-- Library method `juce::Synthesiser::setCurrentPlaybackSampleRate`: a changed
rate hard-stops every voice and is handed to every voice. -/
def Synthesiser.setCurrentPlaybackSampleRate {E : Type} [Envelope E] (s : Synthesiser E)
    (newRate : ℚ) : Synthesiser E :=
  if s.sampleRate = newRate then s
  else
    { s with sampleRate := newRate
             voices := s.voices.map fun v =>
               { v.stopNote 1 false with currentSampleRate := newRate } }

/-- Method `SimpleSamplerAudioProcessor::prepareToPlay`; the library call
`reverb.prepare` is the argument `reverbPrepare`. -/
def SimpleSamplerAudioProcessor.prepareToPlay {E R : Type} [Envelope E]
    (reverbPrepare : R → ℚ → Int → Nat → R) (p : SimpleSamplerAudioProcessor E R)
    (sampleRate : ℚ) (samplesPerBlock : Int) : SimpleSamplerAudioProcessor E R :=
  { p with synth := p.synth.setCurrentPlaybackSampleRate sampleRate
           reverb := reverbPrepare p.reverb sampleRate samplesPerBlock p.totalNumOutputChannels }

/-- A call into the processor from the host or the editor. -/
inductive ProcessorCall
  | prepareToPlay (sampleRate : ℚ) (samplesPerBlock : Int)
  | loadSample (file : File) (indeterminate : Int)
  | addNoteOn (midiNote : Int) (velocity : ℚ)
  | addNoteOff (midiNote : Int)
  | processBlock (buffer : AudioBuffer) (midiMessages : MidiBuffer)

/-- The processor after one call, with the pool of the spec as the synthesiser;
`none` when rendering leaves a buffer. -/
def SimpleSamplerAudioProcessor.call {E R : Type} [Envelope E] (pow : ℚ → ℚ → ℚ)
    (reverbPrepare : R → ℚ → Int → Nat → R)
    (reverbProcess : R → ReverbParameters → AudioBuffer → R × AudioBuffer)
    (p : SimpleSamplerAudioProcessor E R) :
    ProcessorCall → Option (SimpleSamplerAudioProcessor E R)
  | ProcessorCall.prepareToPlay rate block => some (p.prepareToPlay reverbPrepare rate block)
  | ProcessorCall.loadSample file indeterminate => some (p.loadSample file indeterminate).2
  | ProcessorCall.addNoteOn n vel => some (p.addNoteOn n vel)
  | ProcessorCall.addNoteOff n => some (p.addNoteOff n)
  | ProcessorCall.processBlock buffer midi =>
    (p.processBlock (fun s b m start n => s.renderNextBlock pow b m start n) reverbProcess
      buffer midi).map Prod.fst

/-- The processor after a sequence of calls. -/
def SimpleSamplerAudioProcessor.calls {E R : Type} [Envelope E] (pow : ℚ → ℚ → ℚ)
    (reverbPrepare : R → ℚ → Int → Nat → R)
    (reverbProcess : R → ReverbParameters → AudioBuffer → R × AudioBuffer)
    (p : SimpleSamplerAudioProcessor E R) :
    List ProcessorCall → Option (SimpleSamplerAudioProcessor E R)
  | [] => some p
  | c :: cs =>
    (p.call pow reverbPrepare reverbProcess c).bind fun p1 =>
      SimpleSamplerAudioProcessor.calls pow reverbPrepare reverbProcess p1 cs

/-- The number of voices that have a note. -/
def Synthesiser.activeVoices {E : Type} (s : Synthesiser E) : Nat :=
  (s.voices.filter fun v => v.isVoiceActive).length

/-- A pool of eight voices that all play the demo sound, on notes 60 to 67,
started in that order. -/
def fullSynth : Synthesiser ADSR :=
  { sounds := [demoSound]
    voices := (List.range 8).map fun (k : Nat) =>
      { demoVoice with currentlyPlayingNote := 60 + (k : Int), noteOnTime := k + 1 }
    lastNoteOnCounter := 8 }

/-- A mono reader at 48000 that reports `frames` frames. -/
def longReader (frames : Int) : AudioFormatReader :=
  { sampleRate := 48000, lengthInSamples := frames, numChannels := 1, samples := [[1, 2, 3]] }

/-- A file that a format opens, with three frames at 44100. -/
def goodFile : File :=
  { existsAsFile := true, createReaderFor := some (reader3 44100), getFileName := "good.wav" }

/-! ## The editor's keyboard state (`PluginEditor.cpp`) -/

/-- The state members of `SimpleSamplerAudioProcessorEditor`: the current octave
and, for each of the twelve keys, the note it is playing (`-1` for none). -/
structure SimpleSamplerAudioProcessorEditor where
  currentOctave : Int
  activeNotes : Fin 12 → Int

/-- Constructor of the editor, as far as the state goes: octave 4 from the
member initialiser and `activeNotes.fill (-1)`. -/
def SimpleSamplerAudioProcessorEditor.ctor : SimpleSamplerAudioProcessorEditor :=
  { currentOctave := 4, activeNotes := fun _ => -1 }

/-- Method `SimpleSamplerAudioProcessorEditor::octaveUpClicked`. -/
def SimpleSamplerAudioProcessorEditor.octaveUpClicked (ed : SimpleSamplerAudioProcessorEditor) :
    SimpleSamplerAudioProcessorEditor :=
  if ed.currentOctave < 8 then { ed with currentOctave := ed.currentOctave + 1 } else ed

/-- Method `SimpleSamplerAudioProcessorEditor::octaveDownClicked`. -/
def SimpleSamplerAudioProcessorEditor.octaveDownClicked (ed : SimpleSamplerAudioProcessorEditor) :
    SimpleSamplerAudioProcessorEditor :=
  if ed.currentOctave > 0 then { ed with currentOctave := ed.currentOctave - 1 } else ed

/-- Method `SimpleSamplerAudioProcessorEditor::getMidiNote`. -/
def SimpleSamplerAudioProcessorEditor.getMidiNote (ed : SimpleSamplerAudioProcessorEditor)
    (noteOffset : Int) : Int :=
  12 + (ed.currentOctave * 12) + noteOffset

/-- Method `SimpleSamplerAudioProcessorEditor::pianoKeyPressed` for one of the
twelve keys: the editor and the processor afterwards. -/
def SimpleSamplerAudioProcessorEditor.pianoKeyPressed {E R : Type}
    (ed : SimpleSamplerAudioProcessorEditor) (audioProcessor : SimpleSamplerAudioProcessor E R)
    (noteOffset : Fin 12) :
    SimpleSamplerAudioProcessorEditor × SimpleSamplerAudioProcessor E R :=
  let midiNote := ed.getMidiNote (noteOffset.val : Int)
  ({ ed with activeNotes := Function.update ed.activeNotes noteOffset midiNote },
    audioProcessor.addNoteOn midiNote (4 / 5))

/-- Method `SimpleSamplerAudioProcessorEditor::pianoKeyReleased` for one of the
twelve keys: the editor and the processor afterwards. -/
def SimpleSamplerAudioProcessorEditor.pianoKeyReleased {E R : Type}
    (ed : SimpleSamplerAudioProcessorEditor) (audioProcessor : SimpleSamplerAudioProcessor E R)
    (noteOffset : Fin 12) :
    SimpleSamplerAudioProcessorEditor × SimpleSamplerAudioProcessor E R :=
  let midiNote := ed.activeNotes noteOffset
  if midiNote ≥ 0 then
    ({ ed with activeNotes := Function.update ed.activeNotes noteOffset (-1) },
      audioProcessor.addNoteOff midiNote)
  else
    (ed, audioProcessor)

/-- A click on one of the two octave buttons. -/
inductive OctaveClick
  | up
  | down
  deriving DecidableEq, Repr

/-- The editor after one octave click. -/
def SimpleSamplerAudioProcessorEditor.octaveClick (ed : SimpleSamplerAudioProcessorEditor) :
    OctaveClick → SimpleSamplerAudioProcessorEditor
  | OctaveClick.up => ed.octaveUpClicked
  | OctaveClick.down => ed.octaveDownClicked

/-- The editor after a sequence of octave clicks. -/
def SimpleSamplerAudioProcessorEditor.octaveClicks (ed : SimpleSamplerAudioProcessorEditor)
    (clicks : List OctaveClick) : SimpleSamplerAudioProcessorEditor :=
  clicks.foldl SimpleSamplerAudioProcessorEditor.octaveClick ed

/-! ## Rendered frames -/

/-- The left value that a pass at playback position `position` reads from the
left channel: the interpolation at `(int) position`. -/
def leftValueAt (inL : List ℚ) (position : ℚ) : Option ℚ :=
  interpolate inL (toInt position) (position - toInt position)
    (1 - (position - toInt position))

/-- The right value of a pass at playback position `position`, given its left
value `l`. -/
def rightValueAt (inR : Option (List ℚ)) (position l : ℚ) : Option ℚ :=
  rightValue inR (toInt position) (position - toInt position)
    (1 - (position - toInt position)) l

/-- What a pass adds to channel `c` of an output of `numChannels` channels, from
its scaled left and right values: left and right for a stereo output, the half
sum into the one channel of a mono output. -/
def channelShare (numChannels c : Nat) (l r : ℚ) : ℚ :=
  if numChannels > 1 then (if c = 0 then l else if c = 1 then r else 0)
  else (if c = 0 then (l + r) * (1 / 2) else 0)

/-- The demo voice at the start of the demo sound with pitch ratio 1. -/
def demoVoiceAtStart : SamplerVoice ADSR :=
  { demoVoice with sourceSamplePosition := 0, pitchRatio := 1 }

/-! ## The playback position in `double` -/

/-- The integer nearest to a rational, a tie going to the even neighbour. -/
def roundHalfEven (x : ℚ) : Int :=
  if x - ⌊x⌋ < 1 / 2 then ⌊x⌋
  else if 1 / 2 < x - ⌊x⌋ then ⌊x⌋ + 1
  else if ⌊x⌋ % 2 = 0 then ⌊x⌋ else ⌊x⌋ + 1

/-- The `double` nearest to a rational, as an addition of two `double` values
rounds its exact sum: the value is scaled by a power of two into
`[2 ^ 52, 2 ^ 53)`, rounded to the nearest integer (a tie to the even one) and
scaled back, which keeps a significand of 53 bits.  The exponent range of the
format is not bounded: overflow and subnormal numbers do not occur. -/
def roundDouble (x : ℚ) : ℚ :=
  if x = 0 then 0
  else
    let e : Int := Int.log 2 |x| - 52
    (if x < 0 then -1 else 1) * ((roundHalfEven (|x| / 2 ^ e) : Int) : ℚ) * 2 ^ e

section VoiceRounded

variable {E : Type} [Envelope E]

/-- The voice after the envelope read and the position update of one pass of
the loop, the sum `sourceSamplePosition + pitchRatio` being rounded by `round`. -/
def SamplerVoice.advanceRounded (round : ℚ → ℚ) (v : SamplerVoice E) : SamplerVoice E :=
  { v with adsr := (Envelope.getNextSample v.adsr).2
           sourceSamplePosition := round (v.sourceSamplePosition + v.pitchRatio) }

/-- One pass through the body of the `while` loop of `renderNextBlock` with the
member `sourceSamplePosition` held in `double`: `round` is the rounding that
`sourceSamplePosition += pitchRatio` applies to the sum.  Everything else is
the pass of `renderFrame`; the sample values stay exact. -/
def SamplerVoice.renderFrameRounded (round : ℚ → ℚ) (playingSound : SamplerSound)
    (inL : List ℚ) (inR : Option (List ℚ)) (v : SamplerVoice E) (outputBuffer : AudioBuffer)
    (idx : Int) : Option (SamplerVoice E × AudioBuffer × Bool) :=
  let pos := toInt v.sourceSamplePosition
  let alpha := v.sourceSamplePosition - pos
  let invAlpha := 1 - alpha
  match interpolate inL pos alpha invAlpha with
  | none => none
  | some l =>
    match rightValue inR pos alpha invAlpha l with
    | none => none
    | some r =>
      let envelopeValue := (Envelope.getNextSample v.adsr).1
      let adsr := (Envelope.getNextSample v.adsr).2
      let l := l * (v.lgain * envelopeValue)
      let r := r * (v.rgain * envelopeValue)
      match writeFrame outputBuffer idx l r with
      | none => none
      | some out =>
        let v1 : SamplerVoice E :=
          { v with adsr := adsr
                   sourceSamplePosition := round (v.sourceSamplePosition + v.pitchRatio) }
        if v1.sourceSamplePosition > playingSound.length then
          some (v1.stopNote 0 false, out, true)
        else
          some (v1, out, false)

/-- The loop `while (--numSamples >= 0)` of `renderNextBlock` over the passes of
`renderFrameRounded`. -/
def SamplerVoice.renderLoopRounded (round : ℚ → ℚ) (playingSound : SamplerSound)
    (inL : List ℚ) (inR : Option (List ℚ)) :
    Nat → Int → SamplerVoice E → AudioBuffer → Option (SamplerVoice E × AudioBuffer)
  | 0, _, v, out => some (v, out)
  | n + 1, idx, v, out =>
    match SamplerVoice.renderFrameRounded round playingSound inL inR v out idx with
    | none => none
    | some (v1, out1, true) => some (v1, out1)
    | some (v1, out1, false) =>
      SamplerVoice.renderLoopRounded round playingSound inL inR n (idx + 1) v1 out1

/-- Method `SamplerVoice::renderNextBlock` with the member `sourceSamplePosition`
held in `double`: `renderNextBlock` over the loop `renderLoopRounded`.  With
`round` the rounding of `double` additions (`roundDouble`) the position takes
the values that the code computes; with the identity it is `renderNextBlock`. -/
def SamplerVoice.renderNextBlockRounded (round : ℚ → ℚ) (v : SamplerVoice E)
    (outputBuffer : AudioBuffer) (startSample numSamples : Int) :
    Option (SamplerVoice E × AudioBuffer) :=
  match v.currentlyPlayingSound with
  | none => some (v, outputBuffer)
  | some playingSound =>
    match playingSound.data with
    | none => none
    | some data =>
      let inL := data.getD 0 []
      let inR := if data.length > 1 then data[1]? else none
      SamplerVoice.renderLoopRounded round playingSound inL inR numSamples.toNat startSample v
        outputBuffer

end VoiceRounded

/-- The member `sourceSamplePosition` after `k` passes of the loop that did not
leave it, from the value `position`: each pass replaces it by the rounded sum
with the pitch ratio. -/
def positionAfter (round : ℚ → ℚ) (pitchRatio : ℚ) : ℚ → Nat → ℚ
  | position, 0 => position
  | position, k + 1 => positionAfter round pitchRatio (round (position + pitchRatio)) k

/-- A mono sound of length 1 at 4800 Hz, cut from a source of two frames of
value 1, with its four extra frames. -/
def tenthSound : SamplerSound :=
  { sourceSampleRate := 4800, midiNotes := allNotes, midiRootNote := 60, length := 1,
    data := some [[1, 1, 0, 0, 0]], params := { attack := 1 / 100, release := 1 / 10 } }

/-- A voice at the start of `tenthSound`, at its root note on a playback rate of
48000: the pitch ratio is the `double` `1.0 * 4800.0 / 48000.0`.  Gain 1/2,
envelope held at 1. -/
def tenthVoice : SamplerVoice ADSR :=
  { currentSampleRate := 48000, currentlyPlayingNote := 60,
    currentlyPlayingSound := some tenthSound,
    pitchRatio := 3602879701896397 / 36028797018963968, sourceSamplePosition := 0,
    lgain := 1 / 2, rgain := 1 / 2,
    adsr := { state := ADSRState.sustain, envelopeVal := 1, sampleRate := 4800 } }

/-- The values that the member `sourceSamplePosition` takes in `double` from 0
under repeated `+= 0.1` (the `double` nearest to 0.1): 0.1, 0.2,
0.30000000000000004, 0.4, 0.5, 0.6, 0.7, 0.7999999999999999,
0.8999999999999999, 0.9999999999999999, 1.0999999999999999. -/
def tenthPositions : List ℚ :=
  [0,
    3602879701896397 / 36028797018963968,
    3602879701896397 / 18014398509481984,
    1351079888211149 / 4503599627370496,
    3602879701896397 / 9007199254740992,
    1 / 2,
    5404319552844595 / 9007199254740992,
    3152519739159347 / 4503599627370496,
    7205759403792793 / 9007199254740992,
    2026619832316723 / 2251799813685248,
    9007199254740991 / 9007199254740992,
    4953959590107545 / 4503599627370496]

/-! ## Theorems -/

section VoiceTheorems

variable {E : Type} [Envelope E]

/-- C1: for a MIDI note `N` in 0..127, any root note and positive source and
engine sample rates, `startNote` sets
`pitchRatio = pow (2, (N - root) / 12) * sourceSampleRate / engineSampleRate`;
with `pow (2, 0) = 1`, for `N = root` the ratio is
`sourceSampleRate / engineSampleRate`. -/
theorem startNote_pitchRatio (pow : ℚ → ℚ → ℚ) (hpow : pow 2 0 = 1) (v : SamplerVoice E)
    (sound : SamplerSound) (N : Int) (velocity : ℚ) (_hN : 0 ≤ N ∧ N ≤ 127)
    (_hsrc : 0 < sound.sourceSampleRate) (_heng : 0 < v.currentSampleRate) :
    (v.startNote pow N velocity (some sound)).pitchRatio
        = pow 2 (((N : ℚ) - (sound.midiRootNote : ℚ)) / 12) * sound.sourceSampleRate
          / v.currentSampleRate
      ∧ (N = sound.midiRootNote →
          (v.startNote pow N velocity (some sound)).pitchRatio
            = sound.sourceSampleRate / v.currentSampleRate) := by
  constructor
  · simp [SamplerVoice.startNote]
  · intro h
    simp [SamplerVoice.startNote, h, hpow]

/-- Witness of C1: note 72 on the demo sound (root 60) at 48000 doubles the rate. -/
theorem startNote_pitchRatio_witness :
    (idleVoice.startNote floorPow 72 (1 / 2) (some demoSound)).pitchRatio
        = floorPow 2 ((((72 : Int) : ℚ) - (demoSound.midiRootNote : ℚ)) / 12)
          * demoSound.sourceSampleRate / idleVoice.currentSampleRate
      ∧ ((72 : Int) = demoSound.midiRootNote →
          (idleVoice.startNote floorPow 72 (1 / 2) (some demoSound)).pitchRatio
            = demoSound.sourceSampleRate / idleVoice.currentSampleRate) :=
  startNote_pitchRatio floorPow (by simp [floorPow]) idleVoice demoSound 72 (1 / 2)
    (by decide) (by norm_num [demoSound]) (by norm_num [idleVoice])

theorem toInt_of_nonneg {x : ℚ} (h : 0 ≤ x) : toInt x = ⌊x⌋ := by
  simp [toInt, h]

theorem sampleAt_addToSample {b b1 : AudioBuffer} {ch : Nat} {idx : Int} {x : ℚ}
    (h : addToSample b ch idx x = some b1) (c : Nat) (i : Int) :
    sampleAt b1 c i
      = (sampleAt b c i).map fun y => y + (if c = ch ∧ i = idx then x else 0) := by
  unfold addToSample at h
  cases hb : b[ch]? with
  | none => simp [hb] at h
  | some c0 =>
    simp only [hb] at h
    cases hy : readAt c0 idx with
    | none => simp [hy] at h
    | some y =>
      simp only [hy, Option.some.injEq] at h
      subst h
      have hlt : ch < b.length := by
        rcases List.getElem?_eq_some.mp hb with ⟨hlt, _⟩
        exact hlt
      have hidx : 0 ≤ idx := by
        by_contra hneg
        simp [readAt, hneg] at hy
      have hy2 : c0[idx.toNat]? = some y := by
        simpa [readAt, hidx] using hy
      have hlt2 : idx.toNat < c0.length := by
        rcases List.getElem?_eq_some.mp hy2 with ⟨hlt2, _⟩
        exact hlt2
      unfold sampleAt
      rw [List.getElem?_set]
      by_cases hc : ch = c
      · subst hc
        simp only [if_pos, hlt, hb, Option.bind_some, true_and]
        unfold readAt
        by_cases hi : 0 ≤ i
        · simp only [hi, if_true, Option.some_bind]
          rw [List.getElem?_set]
          by_cases hii : idx.toNat = i.toNat
          · have hie : i = idx := by
              have h1 := Int.toNat_of_nonneg hi
              have h2 := Int.toNat_of_nonneg hidx
              omega
            subst hie
            simp [hlt2, hy2]
          · have hie : ¬ i = idx := by
              intro he
              exact hii (by rw [he])
            simp [hii, hie]
        · simp [hi]
      · have hc2 : ¬ c = ch := fun he => hc he.symm
        simp [hc, hc2]

theorem addToSample_some {b : AudioBuffer} {ch : Nat} {idx : Int}
    (h : (sampleAt b ch idx).isSome) (x : ℚ) : ∃ b1, addToSample b ch idx x = some b1 := by
  unfold sampleAt at h
  unfold addToSample
  cases hb : b[ch]? with
  | none => simp [hb] at h
  | some c0 =>
    simp only [hb, Option.some_bind] at h
    cases hy : readAt c0 idx with
    | none => simp [hy] at h
    | some y => exact ⟨List.set b ch (c0.set idx.toNat (y + x)), by simp only [hb, hy]⟩

theorem sampleAt_writeFrame {out out1 : AudioBuffer} {idx : Int} {l r : ℚ}
    (h : writeFrame out idx l r = some out1) (c : Nat) (i : Int) :
    sampleAt out1 c i = (sampleAt out c i).map fun y =>
      y + (if i = idx then
            if out.length > 1 then (if c = 0 then l else if c = 1 then r else 0)
            else (if c = 0 then (l + r) * (1 / 2) else 0)
          else 0) := by
  unfold writeFrame at h
  by_cases hst : out.length > 1
  · simp only [hst, if_true] at h
    cases ho : addToSample out 0 idx l with
    | none => simp [ho] at h
    | some o =>
      simp only [ho] at h
      rw [sampleAt_addToSample h, sampleAt_addToSample ho, Option.map_map]
      congr 1
      funext y
      by_cases hi : i = idx
      · by_cases h0 : c = 0
        · simp [hi, h0, hst]
        · by_cases h1 : c = 1
          · simp [hi, h1, hst]
          · simp [hi, h0, h1, hst]
      · simp [hi]
  · simp only [hst, if_false] at h
    rw [sampleAt_addToSample h]
    congr 1
    funext y
    by_cases hi : i = idx
    · by_cases h0 : c = 0
      · simp [hi, h0, hst]
      · simp [hi, h0, hst]
    · simp [hi]

theorem writeFrame_some {out : AudioBuffer} {idx : Int}
    (ho0 : (sampleAt out 0 idx).isSome)
    (ho1 : out.length > 1 → (sampleAt out 1 idx).isSome) (l r : ℚ) :
    ∃ out1, writeFrame out idx l r = some out1 := by
  unfold writeFrame
  by_cases hst : out.length > 1
  · obtain ⟨o, ho⟩ := addToSample_some ho0 l
    have h1 : (sampleAt o 1 idx).isSome := by
      rw [sampleAt_addToSample ho]
      simpa using ho1 hst
    obtain ⟨o2, ho2⟩ := addToSample_some h1 r
    exact ⟨o2, by simp [hst, ho, ho2]⟩
  · obtain ⟨o, ho⟩ := addToSample_some ho0 ((l + r) * (1 / 2))
    exact ⟨o, by simp only [hst, if_false, ho]⟩

/-- One rendered frame.  With `p = floor (playbackPosition)` and
`a = playbackPosition - p`, the left value is `L[p] * (1 - a) + L[p + 1] * a`, the
right value is the same interpolation of `R` for a stereo source and the left
value for a mono source, each multiplied by the voice gain and the envelope's
next sample.  A stereo output gets left and right added at the frame, a mono
output gets `(l + r) * 0.5` added, and every sample of the buffer keeps its
previous content plus what was added (nothing is overwritten). -/
theorem renderFrame_accumulates (playingSound : SamplerSound) (inL : List ℚ)
    (inR : Option (List ℚ)) (v : SamplerVoice E) (out : AudioBuffer) (idx : Int)
    (l0 l1 r0 r1 : ℚ)
    (hpos : 0 ≤ v.sourceSamplePosition)
    (hl0 : readAt inL ⌊v.sourceSamplePosition⌋ = some l0)
    (hl1 : readAt inL (⌊v.sourceSamplePosition⌋ + 1) = some l1)
    (hstereo : ∀ chR, inR = some chR → readAt chR ⌊v.sourceSamplePosition⌋ = some r0
          ∧ readAt chR (⌊v.sourceSamplePosition⌋ + 1) = some r1)
    (hmono : inR = none → r0 = l0 ∧ r1 = l1)
    (ho0 : (sampleAt out 0 idx).isSome)
    (ho1 : out.length > 1 → (sampleAt out 1 idx).isSome) :
    let a : ℚ := v.sourceSamplePosition - ⌊v.sourceSamplePosition⌋
    let env : ℚ := (Envelope.getNextSample v.adsr).1
    let l : ℚ := (l0 * (1 - a) + l1 * a) * v.lgain * env
    let r : ℚ := (r0 * (1 - a) + r1 * a) * v.rgain * env
    ∃ v1 out1 stopped,
      SamplerVoice.renderFrame playingSound inL inR v out idx = some (v1, out1, stopped)
      ∧ ∀ (c : Nat) (i : Int), sampleAt out1 c i = (sampleAt out c i).map fun y =>
          y + (if i = idx then
                if out.length > 1 then (if c = 0 then l else if c = 1 then r else 0)
                else (if c = 0 then (l + r) * (1 / 2) else 0)
              else 0) := by
  intro a env l r
  have hL : interpolate inL (toInt v.sourceSamplePosition)
      (v.sourceSamplePosition - toInt v.sourceSamplePosition)
      (1 - (v.sourceSamplePosition - toInt v.sourceSamplePosition))
      = some (l0 * (1 - a) + l1 * a) := by
    rw [toInt_of_nonneg hpos]
    simp [interpolate, hl0, hl1, a]
  have hR : rightValue inR (toInt v.sourceSamplePosition)
      (v.sourceSamplePosition - toInt v.sourceSamplePosition)
      (1 - (v.sourceSamplePosition - toInt v.sourceSamplePosition)) (l0 * (1 - a) + l1 * a)
      = some (r0 * (1 - a) + r1 * a) := by
    rw [toInt_of_nonneg hpos]
    cases inR with
    | none =>
      obtain ⟨e0, e1⟩ := hmono rfl
      simp [rightValue, e0, e1]
    | some chR =>
      obtain ⟨e0, e1⟩ := hstereo chR rfl
      simp [rightValue, interpolate, e0, e1, a]
  obtain ⟨out1, hw⟩ := writeFrame_some ho0 ho1 ((l0 * (1 - a) + l1 * a) * (v.lgain * env))
    ((r0 * (1 - a) + r1 * a) * (v.rgain * env))
  have hl : (l0 * (1 - a) + l1 * a) * (v.lgain * env) = l := by
    simp only [l]; ring
  have hr : (r0 * (1 - a) + r1 * a) * (v.rgain * env) = r := by
    simp only [r]; ring
  have hsamples := sampleAt_writeFrame hw
  rw [hl, hr] at hsamples
  unfold SamplerVoice.renderFrame
  simp only [hL, hR]
  rw [hw]
  simp only
  split
  · exact ⟨_, _, _, rfl, hsamples⟩
  · exact ⟨_, _, _, rfl, hsamples⟩

theorem toInt_bounds {x : ℚ} {len : Int} (h0 : 0 ≤ x) (h1 : x ≤ len) :
    0 ≤ toInt x ∧ toInt x ≤ len := by
  rw [toInt_of_nonneg h0]
  constructor
  · exact Int.floor_nonneg.mpr h0
  · have h2 : ((⌊x⌋ : Int) : ℚ) ≤ (len : ℚ) := le_trans (Int.floor_le x) h1
    exact_mod_cast h2

theorem interpolate_some {chan : List ℚ} {pos : Int} (h0 : 0 ≤ pos)
    (h1 : pos + 1 < (chan.length : Int)) (alpha invAlpha : ℚ) :
    ∃ x, interpolate chan pos alpha invAlpha = some x := by
  have ha : pos.toNat < chan.length := by
    have := Int.toNat_of_nonneg h0
    omega
  have hb : (pos + 1).toNat < chan.length := by
    have := Int.toNat_of_nonneg (show 0 ≤ pos + 1 by omega)
    omega
  have hp1 : 0 ≤ pos + 1 := by omega
  refine ⟨chan[pos.toNat] * invAlpha + chan[(pos + 1).toNat] * alpha, ?_⟩
  simp [interpolate, readAt, h0, hp1, List.getElem?_eq_getElem ha, List.getElem?_eq_getElem hb]

theorem renderFrame_inv {ps : SamplerSound} {inL : List ℚ} {inR : Option (List ℚ)}
    {v v1 : SamplerVoice E} {out out1 : AudioBuffer} {idx : Int} {st : Bool}
    (h : SamplerVoice.renderFrame ps inL inR v out idx = some (v1, out1, st)) :
    ∃ l r,
      interpolate inL (toInt v.sourceSamplePosition)
        (v.sourceSamplePosition - toInt v.sourceSamplePosition)
        (1 - (v.sourceSamplePosition - toInt v.sourceSamplePosition)) = some l
      ∧ rightValue inR (toInt v.sourceSamplePosition)
        (v.sourceSamplePosition - toInt v.sourceSamplePosition)
        (1 - (v.sourceSamplePosition - toInt v.sourceSamplePosition)) l = some r
      ∧ writeFrame out idx (l * (v.lgain * (Envelope.getNextSample v.adsr).1))
          (r * (v.rgain * (Envelope.getNextSample v.adsr).1)) = some out1
      ∧ ((st = true ∧ v.sourceSamplePosition + v.pitchRatio > ps.length
            ∧ v1 = v.advance.stopNote 0 false)
          ∨ (st = false ∧ ¬ v.sourceSamplePosition + v.pitchRatio > ps.length
            ∧ v1 = v.advance)) := by
  unfold SamplerVoice.renderFrame at h
  simp only at h
  split at h
  · simp at h
  · rename_i l hl
    split at h
    · simp at h
    · rename_i r hr
      split at h
      · simp at h
      · rename_i o ho
        split at h
        · rename_i hgt
          simp only [Option.some.injEq, Prod.mk.injEq] at h
          obtain ⟨e1, e2, e3⟩ := h
          subst e2
          exact ⟨l, r, hl, hr, ho, Or.inl ⟨e3.symm, hgt, e1.symm⟩⟩
        · rename_i hgt
          simp only [Option.some.injEq, Prod.mk.injEq] at h
          obtain ⟨e1, e2, e3⟩ := h
          subst e2
          exact ⟨l, r, hl, hr, ho, Or.inr ⟨e3.symm, hgt, e1.symm⟩⟩

theorem renderFrame_out {ps : SamplerSound} {inL : List ℚ} {inR : Option (List ℚ)}
    {v v1 : SamplerVoice E} {out out1 : AudioBuffer} {idx : Int} {st : Bool}
    (h : SamplerVoice.renderFrame ps inL inR v out idx = some (v1, out1, st)) :
    ∃ l r,
      interpolate inL (toInt v.sourceSamplePosition)
        (v.sourceSamplePosition - toInt v.sourceSamplePosition)
        (1 - (v.sourceSamplePosition - toInt v.sourceSamplePosition)) = some l
      ∧ rightValue inR (toInt v.sourceSamplePosition)
        (v.sourceSamplePosition - toInt v.sourceSamplePosition)
        (1 - (v.sourceSamplePosition - toInt v.sourceSamplePosition)) l = some r
      ∧ writeFrame out idx (l * (v.lgain * (Envelope.getNextSample v.adsr).1))
          (r * (v.rgain * (Envelope.getNextSample v.adsr).1)) = some out1 := by
  obtain ⟨l, r, hl, hr, hw, _⟩ := renderFrame_inv h
  exact ⟨l, r, hl, hr, hw⟩

theorem renderFrame_some {ps : SamplerSound} {inL : List ℚ} {inR : Option (List ℚ)}
    {v : SamplerVoice E} {out out1 : AudioBuffer} {idx : Int} {l r : ℚ}
    (hl : interpolate inL (toInt v.sourceSamplePosition)
        (v.sourceSamplePosition - toInt v.sourceSamplePosition)
        (1 - (v.sourceSamplePosition - toInt v.sourceSamplePosition)) = some l)
    (hr : rightValue inR (toInt v.sourceSamplePosition)
        (v.sourceSamplePosition - toInt v.sourceSamplePosition)
        (1 - (v.sourceSamplePosition - toInt v.sourceSamplePosition)) l = some r)
    (hw : writeFrame out idx (l * (v.lgain * (Envelope.getNextSample v.adsr).1))
          (r * (v.rgain * (Envelope.getNextSample v.adsr).1)) = some out1) :
    SamplerVoice.renderFrame ps inL inR v out idx
      = some (if v.sourceSamplePosition + v.pitchRatio > ps.length
          then (v.advance.stopNote 0 false, out1, true) else (v.advance, out1, false)) := by
  unfold SamplerVoice.renderFrame
  simp only [hl, hr, hw]
  split
  · rfl
  · rfl

theorem writeFrame_length {out out1 : AudioBuffer} {idx : Int} {l r : ℚ}
    (h : writeFrame out idx l r = some out1) : out1.length = out.length := by
  have hadd : ∀ {b b1 : AudioBuffer} {ch : Nat} {x : ℚ},
      addToSample b ch idx x = some b1 → b1.length = b.length := by
    intro b b1 ch x hb
    unfold addToSample at hb
    split at hb
    · simp at hb
    · split at hb
      · simp at hb
      · simp only [Option.some.injEq] at hb
        subst hb
        simp
  unfold writeFrame at h
  split at h
  · split at h
    · rename_i o ho
      rw [hadd h, hadd ho]
    · simp at h
  · exact hadd h

theorem sampleAt_writeFrame_ne {out out1 : AudioBuffer} {idx : Int} {l r : ℚ}
    (h : writeFrame out idx l r = some out1) (c : Nat) {i : Int} (hne : i ≠ idx) :
    sampleAt out1 c i = sampleAt out c i := by
  rw [sampleAt_writeFrame h]
  simp [hne]

theorem sampleAt_writeFrame_isSome {out out1 : AudioBuffer} {idx : Int} {l r : ℚ}
    (h : writeFrame out idx l r = some out1) (c : Nat) (i : Int) :
    (sampleAt out1 c i).isSome = (sampleAt out c i).isSome := by
  rw [sampleAt_writeFrame h]
  simp

theorem validRange_writeFrame {out out1 : AudioBuffer} {idx : Int} {l r : ℚ} {n : Nat}
    (h : writeFrame out idx l r = some out1) (hv : ValidRange out idx ((n + 1 : Nat) : Int)) :
    ValidRange out1 (idx + 1) (n : Int) := by
  obtain ⟨hlen, hk⟩ := hv
  refine ⟨by rw [writeFrame_length h]; exact hlen, ?_⟩
  intro k hk1 hk2
  have hk3 := hk k (by omega) (by push_cast; omega)
  rw [sampleAt_writeFrame_isSome h, sampleAt_writeFrame_isSome h, writeFrame_length h]
  exact hk3

theorem rightValue_some {inR : Option (List ℚ)} {pos len : Int} (h0 : 0 ≤ pos) (h1 : pos ≤ len)
    (hR : ∀ chR, inR = some chR → len + 1 < (chR.length : Int)) (alpha invAlpha l : ℚ) :
    ∃ r, rightValue inR pos alpha invAlpha l = some r := by
  cases inR with
  | none => exact ⟨l, rfl⟩
  | some chR =>
    have := hR chR rfl
    exact interpolate_some h0 (by omega) alpha invAlpha

theorem stopNote_hard_sound (v : SamplerVoice E) (vel : ℚ) :
    (v.stopNote vel false).currentlyPlayingSound = none
      ∧ (v.stopNote vel false).currentlyPlayingNote = -1
      ∧ (v.stopNote vel false).pitchRatio = v.pitchRatio
      ∧ (v.stopNote vel false).sourceSamplePosition = v.sourceSamplePosition := by
  simp [SamplerVoice.stopNote, SamplerVoice.clearCurrentNote]

/-- The loop on a sound with two frames behind its length: it returns, touches
only its own output range, stops the voice when the position passes the length
and otherwise keeps the position inside the sound. -/
theorem renderLoop_ok (ps : SamplerSound) (inL : List ℚ) (inR : Option (List ℚ))
    (hL : ps.length + 1 < (inL.length : Int))
    (hR : ∀ chR, inR = some chR → ps.length + 1 < (chR.length : Int)) :
    ∀ (n : Nat) (idx : Int) (v : SamplerVoice E) (out : AudioBuffer),
      0 ≤ v.sourceSamplePosition → v.sourceSamplePosition ≤ ps.length → 0 ≤ v.pitchRatio →
      ValidRange out idx (n : Int) →
      ∃ v1 out1, SamplerVoice.renderLoop ps inL inR n idx v out = some (v1, out1)
        ∧ out1.length = out.length
        ∧ (∀ c i, (i < idx ∨ idx + (n : Int) ≤ i) → sampleAt out1 c i = sampleAt out c i)
        ∧ (∀ j : Nat, j < n →
            v.sourceSamplePosition + ((j : ℚ) + 1) * v.pitchRatio > ps.length →
            v1.currentlyPlayingSound = none ∧ v1.currentlyPlayingNote = -1
              ∧ ∀ c i, idx + (j : Int) < i → sampleAt out1 c i = sampleAt out c i)
        ∧ v1.pitchRatio = v.pitchRatio
        ∧ ((v1.currentlyPlayingSound = none ∧ v1.currentlyPlayingNote = -1)
          ∨ (v1.currentlyPlayingSound = v.currentlyPlayingSound
              ∧ 0 ≤ v1.sourceSamplePosition ∧ v1.sourceSamplePosition ≤ ps.length)) := by
  intro n
  induction n with
  | zero =>
    intro idx v out h0 h1 _ _
    refine ⟨v, out, rfl, rfl, fun _ _ _ => rfl, ?_, rfl, Or.inr ⟨rfl, h0, h1⟩⟩
    intro j hj
    omega
  | succ n ih =>
    intro idx v out h0 h1 hr hv
    obtain ⟨hp0, hp1⟩ := toInt_bounds h0 h1
    have hp2 : toInt v.sourceSamplePosition + 1 < (inL.length : Int) := by omega
    obtain ⟨l, hl⟩ := interpolate_some hp0 hp2
      (v.sourceSamplePosition - toInt v.sourceSamplePosition)
      (1 - (v.sourceSamplePosition - toInt v.sourceSamplePosition))
    obtain ⟨r, hrv⟩ := rightValue_some hp0 hp1 hR
      (v.sourceSamplePosition - toInt v.sourceSamplePosition)
      (1 - (v.sourceSamplePosition - toInt v.sourceSamplePosition)) l
    have hvk := hv.2 idx (le_refl _) (by push_cast; omega)
    obtain ⟨o, hw⟩ := writeFrame_some hvk.1 hvk.2
      (l * (v.lgain * (Envelope.getNextSample v.adsr).1))
      (r * (v.rgain * (Envelope.getNextSample v.adsr).1))
    have hf : SamplerVoice.renderFrame ps inL inR v out idx
        = some (if v.sourceSamplePosition + v.pitchRatio > ps.length
            then (v.advance.stopNote 0 false, o, true) else (v.advance, o, false)) :=
      renderFrame_some hl hrv hw
    have hstep : SamplerVoice.renderLoop ps inL inR (n + 1) idx v out
        = match SamplerVoice.renderFrame ps inL inR v out idx with
          | none => none
          | some (v1, out1, true) => some (v1, out1)
          | some (v1, out1, false) => SamplerVoice.renderLoop ps inL inR n (idx + 1) v1 out1 :=
      rfl
    rw [hstep, hf]
    by_cases hgt : v.sourceSamplePosition + v.pitchRatio > ps.length
    · obtain ⟨s1, s2, s3, _⟩ := stopNote_hard_sound v.advance 0
      rw [if_pos hgt]
      refine ⟨v.advance.stopNote 0 false, o, rfl,
        writeFrame_length hw, ?_, ?_, ?_, Or.inl ⟨s1, s2⟩⟩
      · intro c i hi
        exact sampleAt_writeFrame_ne hw c (by omega)
      · intro j _ _
        exact ⟨s1, s2, fun c i hi => sampleAt_writeFrame_ne hw c (by omega)⟩
      · rw [s3]; rfl
    · rw [if_neg hgt]
      have hadv0 : 0 ≤ v.advance.sourceSamplePosition := by
        show 0 ≤ v.sourceSamplePosition + v.pitchRatio
        linarith
      have hadv1 : v.advance.sourceSamplePosition ≤ ps.length := by
        show v.sourceSamplePosition + v.pitchRatio ≤ ps.length
        linarith [not_lt.mp hgt]
      have hadvr : 0 ≤ v.advance.pitchRatio := hr
      obtain ⟨v1, out1, hloop, hlen, hloc, hstop, hratio, hstate⟩ :=
        ih (idx + 1) v.advance o hadv0 hadv1 hadvr (validRange_writeFrame hw hv)
      refine ⟨v1, out1, hloop,
        by rw [hlen, writeFrame_length hw], ?_, ?_, by rw [hratio]; rfl, ?_⟩
      · intro c i hi
        rw [hloc c i (by push_cast at hi; omega)]
        exact sampleAt_writeFrame_ne hw c (by push_cast at hi; omega)
      · intro j hj hex
        cases j with
        | zero =>
          exfalso
          apply hgt
          simpa using hex
        | succ j =>
          have hex2 : v.advance.sourceSamplePosition + ((j : ℚ) + 1) * v.advance.pitchRatio
              > ps.length := by
            show v.sourceSamplePosition + v.pitchRatio + ((j : ℚ) + 1) * v.pitchRatio > ps.length
            push_cast at hex
            linarith
          obtain ⟨t1, t2, t3⟩ := hstop j (by omega) hex2
          refine ⟨t1, t2, ?_⟩
          intro c i hi
          rw [t3 c i (by push_cast at hi; omega)]
          exact sampleAt_writeFrame_ne hw c (by push_cast at hi; omega)
      · rcases hstate with hs | hs
        · exact Or.inl hs
        · exact Or.inr hs

theorem wellFormed_channels {ps : SamplerSound} {data : AudioBuffer}
    (hwf : ps.WellFormed) (hd : ps.data = some data) :
    ps.length + 1 < ((data.getD 0 []).length : Int)
      ∧ ∀ chR, (if data.length > 1 then data[1]? else none) = some chR →
          ps.length + 1 < (chR.length : Int) := by
  obtain ⟨_, _, data1, hd1, hlen, hch⟩ := hwf
  rw [hd] at hd1
  cases hd1
  constructor
  · have hmem : data.getD 0 [] ∈ data := by
      cases data with
      | nil => simp at hlen
      | cons a t => simp
    have := hch _ hmem
    omega
  · intro chR hc
    split at hc
    · have hmem : chR ∈ data := List.mem_iff_getElem?.mpr ⟨1, hc⟩
      have := hch _ hmem
      omega
    · cases hc

/-- A render call on a well-formed sound returns; the voice stays on track, the
buffer changes only inside the output range, and when the position passes the
length after frame `j` the voice is stopped and no later frame changes. -/
theorem renderNextBlock_ok {ps : SamplerSound} (hwf : ps.WellFormed) {v : SamplerVoice E}
    (ht : v.Tracks ps) {out : AudioBuffer} {s n : Int} (hv : ValidRange out s n) :
    ∃ v1 out1, v.renderNextBlock out s n = some (v1, out1)
      ∧ v1.Tracks ps
      ∧ out1.length = out.length
      ∧ (∀ c i, (i < s ∨ s + n ≤ i) → sampleAt out1 c i = sampleAt out c i)
      ∧ (∀ j : Nat, (j : Int) < n →
          v.sourceSamplePosition + ((j : ℚ) + 1) * v.pitchRatio > ps.length →
          v1.currentlyPlayingSound = none ∧ v1.currentlyPlayingNote = -1
            ∧ ∀ c i, s + (j : Int) < i → sampleAt out1 c i = sampleAt out c i) := by
  obtain ⟨hr, hstate⟩ := ht
  rcases hstate with ⟨hs, hn⟩ | ⟨hs, h0, h1⟩
  · refine ⟨v, out, by simp [SamplerVoice.renderNextBlock, hs], ⟨hr, Or.inl ⟨hs, hn⟩⟩, rfl,
      fun _ _ _ => rfl, fun _ _ _ => ⟨hs, hn, fun _ _ _ => rfl⟩⟩
  · obtain ⟨data, hd, _⟩ := hwf.2.2
    obtain ⟨hL, hR⟩ := wellFormed_channels hwf hd
    have hv2 : ValidRange out s ((n.toNat : Nat) : Int) := by
      refine ⟨hv.1, fun k hk1 hk2 => hv.2 k hk1 ?_⟩
      have := Int.toNat_of_nonneg (show 0 ≤ n by omega)
      omega
    obtain ⟨v1, out1, hloop, hlen, hloc, hstop, hratio, hst⟩ :=
      renderLoop_ok ps (data.getD 0 []) (if data.length > 1 then data[1]? else none) hL hR
        n.toNat s v out h0 h1 hr hv2
    refine ⟨v1, out1, by simp only [SamplerVoice.renderNextBlock, hs, hd]; exact hloop,
      ⟨by rw [hratio]; exact hr, ?_⟩, hlen, ?_, ?_⟩
    · rcases hst with h | ⟨e, a, b⟩
      · exact Or.inl h
      · exact Or.inr ⟨by rw [e, hs], a, b⟩
    · intro c i hi
      apply hloc
      by_cases hlt : i < s
      · exact Or.inl hlt
      · right
        omega
    · intro j hj hex
      exact hstop j (by omega) hex

theorem stopNote_tracks {ps : SamplerSound} {v : SamplerVoice E} (ht : v.Tracks ps)
    (vel : ℚ) (tail : Bool) : (v.stopNote vel tail).Tracks ps := by
  cases tail with
  | true => exact ht
  | false =>
    obtain ⟨s1, s2, s3, _⟩ := stopNote_hard_sound v vel
    exact ⟨by rw [s3]; exact ht.1, Or.inl ⟨s1, s2⟩⟩

theorem calls_ok {ps : SamplerSound} (hwf : ps.WellFormed) :
    ∀ (cs : List VoiceCall) (v : SamplerVoice E), v.Tracks ps → (∀ c ∈ cs, c.Valid) →
      ∃ v1, v.calls cs = some v1 ∧ v1.Tracks ps := by
  intro cs
  induction cs with
  | nil =>
    intro v ht _
    exact ⟨v, rfl, ht⟩
  | cons c cs ih =>
    intro v ht hvalid
    have hc : c.Valid := hvalid c (List.mem_cons_self _ _)
    have hcs : ∀ d ∈ cs, d.Valid := fun d hd => hvalid d (List.mem_cons_of_mem _ hd)
    cases c with
    | render out s n =>
      obtain ⟨v1, out1, hrender, ht1, _⟩ := renderNextBlock_ok hwf ht (show ValidRange out s n from hc)
      obtain ⟨v2, hcalls, ht2⟩ := ih v1 ht1 hcs
      exact ⟨v2, by simp [SamplerVoice.calls, SamplerVoice.call, hrender, hcalls], ht2⟩
    | stop vel tail =>
      obtain ⟨v2, hcalls, ht2⟩ := ih (v.stopNote vel tail) (stopNote_tracks ht vel tail) hcs
      exact ⟨v2, by simp [SamplerVoice.calls, SamplerVoice.call, hcalls], ht2⟩

theorem startNote_tracks {ps : SamplerSound} (hwf : ps.WellFormed) (pow : ℚ → ℚ → ℚ)
    (hpow : ∀ x, 0 < pow 2 x) {v : SamplerVoice E} (hs : v.currentlyPlayingSound = some ps)
    (heng : 0 < v.currentSampleRate) (note : Int) (velocity : ℚ) :
    (v.startNote pow note velocity (some ps)).Tracks ps := by
  refine ⟨?_, Or.inr ⟨hs, le_refl _, ?_⟩⟩
  · show 0 ≤ pow 2 (((note - ps.midiRootNote : Int) : ℚ) / 12) * ps.sourceSampleRate
      / v.currentSampleRate
    have h1 := hpow (((note - ps.midiRootNote : Int) : ℚ) / 12)
    have h2 := hwf.1
    positivity
  · show (0 : ℚ) ≤ ps.length
    exact_mod_cast hwf.2.1

theorem wrapInt32_of_lt {x : Int} (h0 : 0 ≤ x) (h1 : x < 2 ^ 31) : wrapInt32 x = x := by
  unfold wrapInt32
  have : (x + 2 ^ 31) % 2 ^ 32 = x + 2 ^ 31 := Int.emod_eq_of_lt (by omega) (by omega)
  omega

theorem read_channels (source : AudioFormatReader) (chans n : Nat) :
    (source.read chans n).length = chans ∧ ∀ ch ∈ source.read chans n, ch.length = n := by
  constructor
  · simp [AudioFormatReader.read]
  · intro ch hch
    simp only [AudioFormatReader.read, List.mem_map] at hch
    obtain ⟨c, _, rfl⟩ := hch
    simp

theorem toInt32_of_range {x : ℚ} (h0 : 0 ≤ x) (h1 : x < 2 ^ 31) : toInt32 x = ⌊x⌋ := by
  unfold toInt32
  rw [if_pos ⟨by linarith, h1⟩, toInt_of_nonneg h0]

/-- The constructor yields a well-formed sound from a source with a positive
rate, at least one channel and a positive frame count below `2 ^ 31`, when the
cap `maxSampleLengthSeconds * sourceSampleRate` is not negative and below
`2 ^ 31`. -/
theorem ctor_wellFormed (source : AudioFormatReader) (midiNotes : Nat) (root : Int)
    (attack release maxSeconds : ℚ) (indeterminate : Int)
    (hrate : 0 < source.sampleRate) (hlen : 0 < source.lengthInSamples)
    (hfit : source.lengthInSamples < 2 ^ 31) (hch : 0 < source.numChannels)
    (hmax : 0 ≤ maxSeconds) (hcap : maxSeconds * source.sampleRate < 2 ^ 31) :
    (SamplerSound.ctor source midiNotes root attack release maxSeconds indeterminate).WellFormed := by
  have hw := wrapInt32_of_lt (le_of_lt hlen) hfit
  have ht : 0 ≤ toInt32 (maxSeconds * source.sampleRate) := by
    have hnn : 0 ≤ maxSeconds * source.sampleRate := mul_nonneg hmax (le_of_lt hrate)
    rw [toInt32_of_range hnn hcap]
    exact Int.floor_nonneg.mpr hnn
  have hl : 0 ≤ min (wrapInt32 source.lengthInSamples)
      (toInt32 (maxSeconds * source.sampleRate)) := by
    rw [hw]
    exact le_min (le_of_lt hlen) ht
  unfold SamplerSound.ctor
  rw [if_pos ⟨hrate, hlen⟩]
  refine ⟨hrate, hl, _, rfl, ?_, ?_⟩
  · rw [(read_channels source _ _).1]
    omega
  · intro ch hmem
    rw [(read_channels source _ _).2 ch hmem]
    exact Int.toNat_of_nonneg (by omega)

theorem renderNextBlock_stopped {v : SamplerVoice E} (hs : v.currentlyPlayingSound = none)
    (out : AudioBuffer) (s n : Int) : v.renderNextBlock out s n = some (v, out) := by
  simp [SamplerVoice.renderNextBlock, hs]

/-- A voice started on a well-formed sound, through any sequence of
calls with output ranges inside their buffers: every call returns (no read at
`p` or `p + 1` leaves the allocated buffer), in every state that still plays the
sound `p` and `p + 1` are indices of every data channel, and when in a block the
position passes the length after frame `j`, the voice is stopped, no frame after
`j` of that block is changed and every later block is left unchanged. -/
theorem voice_reads_in_bounds_and_stops (pow : ℚ → ℚ → ℚ) (hpow : ∀ x, 0 < pow 2 x)
    (ps : SamplerSound) (hwf : ps.WellFormed) (v : SamplerVoice E)
    (hs : v.currentlyPlayingSound = some ps) (heng : 0 < v.currentSampleRate)
    (note : Int) (velocity : ℚ) (cs : List VoiceCall) (hcs : ∀ c ∈ cs, c.Valid) :
    ∃ v1, (v.startNote pow note velocity (some ps)).calls cs = some v1
      ∧ (v1.currentlyPlayingSound = some ps → ∀ data, ps.data = some data → ∀ ch ∈ data,
          0 ≤ toInt v1.sourceSamplePosition
            ∧ toInt v1.sourceSamplePosition + 1 < (ch.length : Int))
      ∧ ∀ out s n, ValidRange out s n →
          ∃ v2 out2, v1.renderNextBlock out s n = some (v2, out2)
            ∧ ∀ j : Nat, (j : Int) < n →
                v1.sourceSamplePosition + ((j : ℚ) + 1) * v1.pitchRatio > ps.length →
                v2.currentlyPlayingSound = none ∧ v2.currentlyPlayingNote = -1
                  ∧ (∀ c i, s + (j : Int) < i → sampleAt out2 c i = sampleAt out c i)
                  ∧ ∀ out3 s3 n3, v2.renderNextBlock out3 s3 n3 = some (v2, out3) := by
  obtain ⟨v1, hcalls, ht⟩ :=
    calls_ok hwf cs _ (startNote_tracks hwf pow hpow hs heng note velocity) hcs
  refine ⟨v1, hcalls, ?_, ?_⟩
  · intro hplay data hd ch hch
    rcases ht.2 with ⟨hnone, _⟩ | ⟨_, h0, h1⟩
    · rw [hnone] at hplay
      cases hplay
    · obtain ⟨hp0, hp1⟩ := toInt_bounds h0 h1
      obtain ⟨_, _, data1, hd1, _, hlen⟩ := hwf
      rw [hd] at hd1
      cases hd1
      have := hlen ch hch
      exact ⟨hp0, by omega⟩
  · intro out s n hv
    obtain ⟨v2, out2, hrender, _, _, _, hstop⟩ := renderNextBlock_ok hwf ht hv
    refine ⟨v2, out2, hrender, ?_⟩
    intro j hj hex
    obtain ⟨t1, t2, t3⟩ := hstop j hj hex
    exact ⟨t1, t2, t3, fun out3 s3 n3 => renderNextBlock_stopped t1 out3 s3 n3⟩

theorem demoSound_wellFormed : demoSound.WellFormed := by
  refine ⟨by norm_num [demoSound], by norm_num [demoSound], [[1, 2, 3, 0, 0, 0, 0]], rfl,
    by simp, ?_⟩
  intro ch hch
  simp only [List.mem_singleton] at hch
  subst hch
  rfl

theorem floorPow_pos (x : ℚ) : 0 < floorPow 2 x := by
  unfold floorPow
  positivity

theorem validRange_demo : ValidRange [[0, 0, 0, 0, 0, 0]] 0 6 := by
  refine ⟨by simp, ?_⟩
  intro k h0 h1
  have hk : k = 0 ∨ k = 1 ∨ k = 2 ∨ k = 3 ∨ k = 4 ∨ k = 5 := by omega
  rcases hk with rfl | rfl | rfl | rfl | rfl | rfl <;> simp [sampleAt, readAt]

theorem renderLoop_position (ps : SamplerSound) (inL : List ℚ) (inR : Option (List ℚ)) :
    ∀ (n : Nat) (idx : Int) (v v1 : SamplerVoice E) (out out1 : AudioBuffer),
      v.currentlyPlayingSound = some ps → v.sourceSamplePosition ≤ ps.length →
      SamplerVoice.renderLoop ps inL inR n idx v out = some (v1, out1) →
      v1.currentlyPlayingSound = none
        ∨ (v1.currentlyPlayingSound = some ps ∧ v1.sourceSamplePosition ≤ ps.length) := by
  intro n
  induction n with
  | zero =>
    intro idx v v1 out out1 hs hp h
    simp only [SamplerVoice.renderLoop, Option.some.injEq, Prod.mk.injEq] at h
    obtain ⟨rfl, _⟩ := h
    exact Or.inr ⟨hs, hp⟩
  | succ n ih =>
    intro idx v v1 out out1 hs hp h
    have hstep : SamplerVoice.renderLoop ps inL inR (n + 1) idx v out
        = match SamplerVoice.renderFrame ps inL inR v out idx with
          | none => none
          | some (v1, out1, true) => some (v1, out1)
          | some (v1, out1, false) => SamplerVoice.renderLoop ps inL inR n (idx + 1) v1 out1 :=
      rfl
    rw [hstep] at h
    cases hf : SamplerVoice.renderFrame ps inL inR v out idx with
    | none => simp [hf] at h
    | some res =>
      obtain ⟨v2, out2, st⟩ := res
      obtain ⟨_, _, _, _, _, hcase⟩ := renderFrame_inv hf
      rw [hf] at h
      rcases hcase with ⟨rfl, _, hv2⟩ | ⟨rfl, hle, hv2⟩
      · simp only [Option.some.injEq, Prod.mk.injEq] at h
        obtain ⟨rfl, _⟩ := h
        left
        rw [hv2]
        exact (stopNote_hard_sound v.advance 0).1
      · simp only at h
        subst hv2
        exact ih (idx + 1) v.advance v1 out2 out1 hs (not_lt.mp hle) h

theorem renderNextBlock_position {v v1 : SamplerVoice E} {out out1 : AudioBuffer} {s n : Int}
    (hinv : ∀ ps, v.currentlyPlayingSound = some ps → v.sourceSamplePosition ≤ ps.length)
    (h : v.renderNextBlock out s n = some (v1, out1)) :
    ∀ ps, v1.currentlyPlayingSound = some ps → v1.sourceSamplePosition ≤ ps.length := by
  unfold SamplerVoice.renderNextBlock at h
  cases hs : v.currentlyPlayingSound with
  | none =>
    simp only [hs, Option.some.injEq, Prod.mk.injEq] at h
    obtain ⟨rfl, _⟩ := h
    exact hinv
  | some ps =>
    simp only [hs] at h
    cases hd : ps.data with
    | none => simp [hd] at h
    | some data =>
      simp only [hd] at h
      intro ps1 hps1
      rcases renderLoop_position ps _ _ _ _ _ _ _ _ hs (hinv ps hs) h with hnone | ⟨hsome, hle⟩
      · rw [hnone] at hps1
        cases hps1
      · rw [hsome] at hps1
        cases hps1
        exact hle

theorem stopNote_position {v : SamplerVoice E}
    (hinv : ∀ ps, v.currentlyPlayingSound = some ps → v.sourceSamplePosition ≤ ps.length)
    (vel : ℚ) (tail : Bool) :
    ∀ ps, (v.stopNote vel tail).currentlyPlayingSound = some ps →
      (v.stopNote vel tail).sourceSamplePosition ≤ ps.length := by
  cases tail with
  | true => exact hinv
  | false =>
    intro ps hps
    rw [(stopNote_hard_sound v vel).1] at hps
    cases hps

theorem calls_position :
    ∀ (cs : List VoiceCall) (v v1 : SamplerVoice E),
      (∀ ps, v.currentlyPlayingSound = some ps → v.sourceSamplePosition ≤ ps.length) →
      v.calls cs = some v1 →
      ∀ ps, v1.currentlyPlayingSound = some ps → v1.sourceSamplePosition ≤ ps.length := by
  intro cs
  induction cs with
  | nil =>
    intro v v1 hinv h
    simp only [SamplerVoice.calls, Option.some.injEq] at h
    subst h
    exact hinv
  | cons c cs ih =>
    intro v v1 hinv h
    simp only [SamplerVoice.calls] at h
    cases hc : v.call c with
    | none => simp [hc] at h
    | some v2 =>
      rw [hc] at h
      simp only [Option.some_bind] at h
      refine ih v2 v1 ?_ h
      cases c with
      | render out s n =>
        simp only [SamplerVoice.call, Option.map_eq_some'] at hc
        obtain ⟨⟨v3, out3⟩, hr, rfl⟩ := hc
        exact renderNextBlock_position hinv hr
      | stop vel tail =>
        simp only [SamplerVoice.call, Option.some.injEq] at hc
        subst hc
        exact stopNote_position hinv vel tail

theorem renderLoop_before (ps : SamplerSound) (inL : List ℚ) (inR : Option (List ℚ)) :
    ∀ (n : Nat) (idx : Int) (v v1 : SamplerVoice E) (out out1 : AudioBuffer),
      SamplerVoice.renderLoop ps inL inR n idx v out = some (v1, out1) →
      ∀ c i, i < idx → sampleAt out1 c i = sampleAt out c i := by
  intro n
  induction n with
  | zero =>
    intro idx v v1 out out1 h c i _
    simp only [SamplerVoice.renderLoop, Option.some.injEq, Prod.mk.injEq] at h
    rw [h.2]
  | succ n ih =>
    intro idx v v1 out out1 h c i hi
    have hstep : SamplerVoice.renderLoop ps inL inR (n + 1) idx v out
        = match SamplerVoice.renderFrame ps inL inR v out idx with
          | none => none
          | some (v1, out1, true) => some (v1, out1)
          | some (v1, out1, false) => SamplerVoice.renderLoop ps inL inR n (idx + 1) v1 out1 :=
      rfl
    rw [hstep] at h
    cases hf : SamplerVoice.renderFrame ps inL inR v out idx with
    | none => simp [hf] at h
    | some res =>
      obtain ⟨v2, out2, st⟩ := res
      obtain ⟨_, _, _, _, hw⟩ := renderFrame_out hf
      rw [hf] at h
      cases st with
      | true =>
        simp only [Option.some.injEq, Prod.mk.injEq] at h
        rw [← h.2]
        exact sampleAt_writeFrame_ne hw c (by omega)
      | false =>
        simp only at h
        rw [ih (idx + 1) v2 v1 out2 out1 h c i (by omega)]
        exact sampleAt_writeFrame_ne hw c (by omega)

theorem toInt_natCast (k : Nat) : toInt (k : ℚ) = (k : Int) := by
  rw [toInt_of_nonneg (Nat.cast_nonneg k)]
  exact Int.floor_natCast k

theorem interpolate_unity {chan : List ℚ} {k : Nat} {l : ℚ}
    (h : interpolate chan (k : Int) 0 1 = some l) : l = chan.getD k 0 := by
  unfold interpolate at h
  split at h
  · rename_i x0 x1 h0 _
    simp only [Option.some.injEq] at h
    have hx : chan[k]? = some x0 := by
      simpa [readAt] using h0
    rw [← h, List.getD_eq_getElem?_getD, hx]
    simp
  · cases h

theorem sampleAt_writeFrame_same {out out1 : AudioBuffer} {idx : Int} {x : ℚ}
    (h : writeFrame out idx x x = some out1) {c : Nat} (hc : c < 2) :
    sampleAt out1 c idx = (sampleAt out c idx).map fun y => y + x := by
  rw [sampleAt_writeFrame h]
  by_cases hst : out.length > 1
  · have hc2 : c = 0 ∨ c = 1 := by omega
    rcases hc2 with rfl | rfl <;> simp [hst]
  · have hc2 : c = 0 ∨ c = 1 := by omega
    rcases hc2 with rfl | rfl
    · simp only [hst, if_true, if_false]
      congr 1
      funext y
      ring
    · have hnone : sampleAt out 1 idx = none := by
        have hlen : out.length ≤ 1 := by omega
        simp [sampleAt, List.getElem?_eq_none hlen]
      rw [hnone]
      rfl

/-- The loop at pitch ratio 1 from a whole position `k` on a mono sound: output
frame `j` receives sample `k + j` times the gain times envelope value `j`. -/
theorem renderLoop_unity (ps : SamplerSound) (chan : List ℚ) :
    ∀ (n k : Nat) (idx : Int) (v v1 : SamplerVoice E) (out out1 : AudioBuffer),
      v.sourceSamplePosition = (k : ℚ) → v.pitchRatio = 1 → v.rgain = v.lgain →
      SamplerVoice.renderLoop ps chan none n idx v out = some (v1, out1) →
      ∀ j : Nat, j < n → (k : Int) + (j : Int) ≤ ps.length → ∀ c, c < 2 →
        sampleAt out1 c (idx + (j : Int)) = (sampleAt out c (idx + (j : Int))).map fun y =>
          y + chan.getD (k + j) 0 * v.lgain * envelopeValue v.adsr j := by
  intro n
  induction n with
  | zero =>
    intro k idx v v1 out out1 _ _ _ _ j hj
    omega
  | succ n ih =>
    intro k idx v v1 out out1 hpos hratio hgain h j hj hk c hc
    have hstep : SamplerVoice.renderLoop ps chan none (n + 1) idx v out
        = match SamplerVoice.renderFrame ps chan none v out idx with
          | none => none
          | some (v1, out1, true) => some (v1, out1)
          | some (v1, out1, false) => SamplerVoice.renderLoop ps chan none n (idx + 1) v1 out1 :=
      rfl
    rw [hstep] at h
    cases hf : SamplerVoice.renderFrame ps chan none v out idx with
    | none => simp [hf] at h
    | some res =>
      obtain ⟨v2, out2, st⟩ := res
      obtain ⟨l, r, hl, hr, hw, hcase⟩ := renderFrame_inv hf
      rw [hpos, toInt_natCast] at hl hr
      simp only [Int.cast_natCast, sub_self, sub_zero] at hl hr
      have hlv : l = chan.getD k 0 := interpolate_unity hl
      have hrv : r = l := by
        simp only [rightValue, Option.some.injEq] at hr
        exact hr.symm
      rw [hrv, hgain] at hw
      have hframe := sampleAt_writeFrame_same hw hc
      rw [hf] at h
      rcases hcase with ⟨rfl, hgt, _⟩ | ⟨rfl, _, hv2⟩
      · simp only [Option.some.injEq, Prod.mk.injEq] at h
        obtain ⟨_, rfl⟩ := h
        cases j with
        | zero =>
          simp only [Nat.cast_zero, add_zero]
          rw [hframe, hlv]
          congr 1
          funext y
          simp only [envelopeValue, envelopeAfter]
          ring
        | succ j =>
          exfalso
          rw [hpos, hratio] at hgt
          have h1 : ((ps.length : Int) : ℚ) < ((k : Int) : ℚ) + 1 := by
            simpa using hgt
          have h2 : ps.length < (k : Int) + 1 := by exact_mod_cast h1
          push_cast at hk
          omega
      · simp only at h
        subst hv2
        cases j with
        | zero =>
          simp only [Nat.cast_zero, add_zero]
          rw [renderLoop_before ps chan none n (idx + 1) v.advance v1 out2 out1 h c idx
            (by omega), hframe, hlv]
          congr 1
          funext y
          simp only [envelopeValue, envelopeAfter]
          ring
        | succ j =>
          have hidx : idx + ((j + 1 : Nat) : Int) = idx + 1 + (j : Int) := by
            push_cast; ring
          have hadv : v.advance.sourceSamplePosition = ((k + 1 : Nat) : ℚ) := by
            show v.sourceSamplePosition + v.pitchRatio = ((k + 1 : Nat) : ℚ)
            rw [hpos, hratio]
            push_cast
            rfl
          have := ih (k + 1) (idx + 1) v.advance v1 out2 out1 hadv hratio hgain h j (by omega)
            (by push_cast at hk ⊢; omega) c hc
          rw [hidx, this, sampleAt_writeFrame_ne hw c (by omega)]
          congr 1
          funext y
          have hkj : k + 1 + j = k + (j + 1) := by omega
          rw [hkj]
          rfl

theorem sampleAt_zero {chans frames c : Nat} {i : Int} (hc : c < chans) (h0 : 0 ≤ i)
    (h1 : i < (frames : Int)) :
    sampleAt (List.replicate chans (List.replicate frames (0 : ℚ))) c i = some 0 := by
  have hi : i.toNat < frames := by
    have := Int.toNat_of_nonneg h0
    omega
  simp [sampleAt, readAt, List.getElem?_replicate, hc, h0, hi]

theorem validRange_zero {chans frames : Nat} (hch : 0 < chans) :
    ValidRange (List.replicate chans (List.replicate frames (0 : ℚ))) 0 (frames : Int) := by
  refine ⟨by simpa using hch, ?_⟩
  intro k h0 h1
  constructor
  · rw [sampleAt_zero hch h0 (by omega)]
    rfl
  · intro hlen
    rw [sampleAt_zero (by simpa using hlen) h0 (by omega)]
    rfl

/-- C3: a mono sound of `N` frames, started at its root note with the source
rate equal to the engine rate (pitch ratio 1) and rendered into a zeroed buffer:
for every `i < N` inside the block, output frame `i` of each output channel is
sample `i` times the velocity times envelope value `i`. -/
theorem unity_pitch_passthrough (pow : ℚ → ℚ → ℚ) (hpow : pow 2 0 = 1) (sound : SamplerSound)
    (chan : List ℚ) (hmono : sound.data = some [chan]) (hwf : sound.WellFormed)
    (v : SamplerVoice E) (hs : v.currentlyPlayingSound = some sound)
    (hrate : v.currentSampleRate = sound.sourceSampleRate) (velocity : ℚ)
    (chans frames : Nat) (hch : 0 < chans) :
    ∃ v1 out1,
      (v.startNote pow sound.midiRootNote velocity (some sound)).renderNextBlock
          (List.replicate chans (List.replicate frames 0)) 0 frames = some (v1, out1)
      ∧ ∀ i : Nat, (i : Int) < sound.length → i < frames → ∀ c, c < chans → c < 2 →
          sampleAt out1 c i = some (chan.getD i 0 * velocity
            * envelopeValue (v.startNote pow sound.midiRootNote velocity (some sound)).adsr i) := by
  have hne : sound.sourceSampleRate ≠ 0 := ne_of_gt hwf.1
  have hratio : (v.startNote pow sound.midiRootNote velocity (some sound)).pitchRatio = 1 := by
    show pow 2 (((sound.midiRootNote - sound.midiRootNote : Int) : ℚ) / 12)
      * sound.sourceSampleRate / v.currentSampleRate = 1
    rw [hrate]
    simp [hpow, hne]
  have hlen : (0 : ℚ) ≤ sound.length := by exact_mod_cast hwf.2.1
  have ht : (v.startNote pow sound.midiRootNote velocity (some sound)).Tracks sound :=
    ⟨by rw [hratio]; norm_num, Or.inr ⟨hs, le_refl _, hlen⟩⟩
  have hvalid : ValidRange (List.replicate chans (List.replicate frames (0 : ℚ))) 0
      (frames : Int) := validRange_zero hch
  obtain ⟨v1, out1, hrender, _⟩ := renderNextBlock_ok hwf ht hvalid
  refine ⟨v1, out1, hrender, ?_⟩
  intro i hi hif c hc hc2
  have hloop : SamplerVoice.renderLoop sound chan none frames 0
      (v.startNote pow sound.midiRootNote velocity (some sound))
      (List.replicate chans (List.replicate frames 0)) = some (v1, out1) := by
    have hs2 : (v.startNote pow sound.midiRootNote velocity (some sound)).currentlyPlayingSound
        = some sound := hs
    simpa [SamplerVoice.renderNextBlock, hs2, hmono] using hrender
  have hval := renderLoop_unity sound chan frames 0 0
    (v.startNote pow sound.midiRootNote velocity (some sound)) v1 _ out1
    (by simp [SamplerVoice.startNote]) hratio rfl hloop i hif (by push_cast; omega) c hc2
  simp only [zero_add] at hval
  rw [hval, sampleAt_zero hc (by omega) (by omega)]
  simp [SamplerVoice.startNote]

/-- Witness of C3: the demo sound (frames 1, 2, 3) at velocity 1/2 into a mono
block of six frames. -/
theorem unity_pitch_passthrough_witness :
    ∃ v1 out1,
      (demoAssigned.startNote floorPow demoSound.midiRootNote (1 / 2) (some demoSound)).renderNextBlock
          (List.replicate 1 (List.replicate 6 0)) 0 (6 : Nat) = some (v1, out1)
      ∧ sampleAt out1 0 (2 : Nat) = some (([1, 2, 3, 0, 0, 0, 0] : List ℚ).getD 2 0 * (1 / 2)
          * envelopeValue
            (demoAssigned.startNote floorPow demoSound.midiRootNote (1 / 2) (some demoSound)).adsr 2) := by
  obtain ⟨v1, out1, h, hv⟩ := unity_pitch_passthrough floorPow (by simp [floorPow]) demoSound
    [1, 2, 3, 0, 0, 0, 0] rfl demoSound_wellFormed demoAssigned rfl rfl (1 / 2) 1 6 (by decide)
  exact ⟨v1, out1, h, hv 2 (by decide) (by decide) 0 (by decide) (by decide)⟩

/-- Counterexample to C6: on a sound of zero length (built from a reader without
frames; no audio data) `startNote` for note 60 at velocity 1/2 changes the idle
voice: the gains go from 0 to 1/2, the pitch ratio from 0 to 1 and the envelope
from Idle to Attack. -/
theorem startNote_zero_length_counterexample :
    emptySound.length = 0 ∧ emptySound.data = none
      ∧ idleVoice.lgain = 0
      ∧ (idleVoice.startNote floorPow 60 (1 / 2) (some emptySound)).lgain = 1 / 2
      ∧ idleVoice.rgain = 0
      ∧ (idleVoice.startNote floorPow 60 (1 / 2) (some emptySound)).rgain = 1 / 2
      ∧ idleVoice.pitchRatio = 0
      ∧ (idleVoice.startNote floorPow 60 (1 / 2) (some emptySound)).pitchRatio = 1
      ∧ idleVoice.adsr.state = ADSRState.idle
      ∧ (idleVoice.startNote floorPow 60 (1 / 2) (some emptySound)).adsr.state
          = ADSRState.attack := by
  refine ⟨?_, ?_, rfl, rfl, rfl, rfl, rfl, ?_, rfl, rfl⟩
  · simp [emptySound, SamplerSound.ctor, emptyReader]
  · simp [emptySound, SamplerSound.ctor, emptyReader]
  · simp [SamplerVoice.startNote, emptySound, SamplerSound.ctor, emptyReader, idleVoice, floorPow]

/-- C6 as amended: `startNote` does not look at the length or the audio data of
the sound.  For every sound, one of zero length included, it sets the pitch
ratio from the note, the root note and the two rates, the position to 0, both
gains to the velocity, and restarts the envelope with the sound's rate and
parameters; a sound that differs only in length and data gives the same voice. -/
theorem startNote_ignores_length (pow : ℚ → ℚ → ℚ) (v : SamplerVoice E) (note : Int)
    (velocity : ℚ) (sound : SamplerSound) (len : Int) (data : Option AudioBuffer) :
    v.startNote pow note velocity (some { sound with length := len, data := data })
        = v.startNote pow note velocity (some sound)
      ∧ (v.startNote pow note velocity (some sound)).pitchRatio
          = pow 2 (((note - sound.midiRootNote : Int) : ℚ) / 12) * sound.sourceSampleRate
            / v.currentSampleRate
      ∧ (v.startNote pow note velocity (some sound)).sourceSamplePosition = 0
      ∧ (v.startNote pow note velocity (some sound)).lgain = velocity
      ∧ (v.startNote pow note velocity (some sound)).rgain = velocity
      ∧ (v.startNote pow note velocity (some sound)).adsr
          = Envelope.noteOn (Envelope.setParameters
              (Envelope.setSampleRate v.adsr sound.sourceSampleRate) sound.params) :=
  ⟨rfl, rfl, rfl, rfl, rfl, rfl⟩

theorem ctor_rate_root (source : AudioFormatReader) (midiNotes : Nat) (root : Int)
    (attack release maxSeconds : ℚ) (indeterminate : Int) :
    (SamplerSound.ctor source midiNotes root attack release maxSeconds
        indeterminate).sourceSampleRate = source.sampleRate
      ∧ (SamplerSound.ctor source midiNotes root attack release maxSeconds
        indeterminate).midiRootNote = root := by
  unfold SamplerSound.ctor
  split <;> exact ⟨rfl, rfl⟩

/-- Counterexample to C7: on a sound whose source rate is 0 `startNote` is not a
no-op (the gains change) and the voice holds the pitch ratio 0; on a sound whose
source rate is negative the voice holds a negative pitch ratio. -/
theorem startNote_degenerate_rate_counterexample :
    zeroRateSound.sourceSampleRate = 0
      ∧ idleVoice.lgain = 0
      ∧ (idleVoice.startNote floorPow 72 (1 / 2) (some zeroRateSound)).lgain = 1 / 2
      ∧ (idleVoice.startNote floorPow 72 (1 / 2) (some zeroRateSound)).pitchRatio = 0
      ∧ negativeRateSound.sourceSampleRate = -48000
      ∧ (idleVoice.startNote floorPow 72 (1 / 2) (some negativeRateSound)).lgain = 1 / 2
      ∧ (idleVoice.startNote floorPow 72 (1 / 2) (some negativeRateSound)).pitchRatio = -2 := by
  refine ⟨?_, rfl, rfl, ?_, ?_, rfl, ?_⟩
  · exact (ctor_rate_root _ _ _ _ _ _ _).1
  · simp [SamplerVoice.startNote, zeroRateSound, (ctor_rate_root _ _ _ _ _ _ _).1, reader3]
  · exact (ctor_rate_root _ _ _ _ _ _ _).1
  · simp [SamplerVoice.startNote, negativeRateSound, (ctor_rate_root _ _ _ _ _ _ _).1,
      (ctor_rate_root _ _ _ _ _ _ _).2, reader3, idleVoice, floorPow]
    norm_num

/-- C7 as amended: `startNote` does not check either sample rate.  For every
note, velocity and sound and every engine rate other than 0 it starts the note
(position 0, both gains the velocity) and sets
`pitchRatio = pow (2, (N - root) / 12) * sourceSampleRate / engineSampleRate`,
which with positive powers of two is 0 for a source rate of 0 and negative when
the two rates have opposite signs. -/
theorem startNote_ignores_rates (pow : ℚ → ℚ → ℚ) (hpow : ∀ x, 0 < pow 2 x)
    (v : SamplerVoice E) (_heng : v.currentSampleRate ≠ 0) (note : Int) (velocity : ℚ)
    (sound : SamplerSound) :
    (v.startNote pow note velocity (some sound)).sourceSamplePosition = 0
      ∧ (v.startNote pow note velocity (some sound)).lgain = velocity
      ∧ (v.startNote pow note velocity (some sound)).rgain = velocity
      ∧ (v.startNote pow note velocity (some sound)).pitchRatio
          = pow 2 (((note : ℚ) - (sound.midiRootNote : ℚ)) / 12) * sound.sourceSampleRate
            / v.currentSampleRate
      ∧ (sound.sourceSampleRate = 0 →
          (v.startNote pow note velocity (some sound)).pitchRatio = 0)
      ∧ (sound.sourceSampleRate / v.currentSampleRate < 0 →
          (v.startNote pow note velocity (some sound)).pitchRatio < 0) := by
  have hr : (v.startNote pow note velocity (some sound)).pitchRatio
      = pow 2 (((note : ℚ) - (sound.midiRootNote : ℚ)) / 12) * sound.sourceSampleRate
        / v.currentSampleRate := by
    simp [SamplerVoice.startNote]
  refine ⟨rfl, rfl, rfl, hr, ?_, ?_⟩
  · intro h0
    rw [hr, h0]
    simp
  · intro hneg
    rw [hr, mul_div_assoc]
    exact mul_neg_of_pos_of_neg (hpow _) hneg

/-- Witness of C7 as amended: the idle voice at 48000 on the sound with the
negative source rate. -/
theorem startNote_ignores_rates_witness :
    (idleVoice.startNote floorPow 72 (1 / 2) (some negativeRateSound)).lgain = 1 / 2
      ∧ (negativeRateSound.sourceSampleRate / idleVoice.currentSampleRate < 0 →
          (idleVoice.startNote floorPow 72 (1 / 2) (some negativeRateSound)).pitchRatio < 0) :=
  ⟨(startNote_ignores_rates floorPow floorPow_pos idleVoice (by norm_num [idleVoice]) 72 (1 / 2)
      negativeRateSound).2.1,
    (startNote_ignores_rates floorPow floorPow_pos idleVoice (by norm_num [idleVoice]) 72 (1 / 2)
      negativeRateSound).2.2.2.2.2⟩

end VoiceTheorems

/-! ### Sample loading and the virtual keyboard -/

section ProcessorTheorems

variable {E R : Type}

/-- C8: when the file does not exist, or no format opens it, `loadSample` returns
false and the processor (installed sounds, voices, loaded file name and all
other members) is exactly what it was. -/
theorem loadSample_failure_keeps_state (p : SimpleSamplerAudioProcessor E R) (file : File)
    (indeterminate : Int)
    (h : file.existsAsFile = false ∨ file.createReaderFor = none) :
    p.loadSample file indeterminate = (false, p) := by
  unfold SimpleSamplerAudioProcessor.loadSample
  rcases h with h | h
  · simp [h]
  · cases hex : file.existsAsFile <;> simp [h]

/-- Witness of C8: the demo processor with a missing file and with a file that
no format opens. -/
theorem loadSample_failure_keeps_state_witness :
    demoProcessor.loadSample missingFile 0 = (false, demoProcessor)
      ∧ demoProcessor.loadSample unreadableFile 0 = (false, demoProcessor) :=
  ⟨loadSample_failure_keeps_state demoProcessor missingFile 0 (Or.inl rfl),
    loadSample_failure_keeps_state demoProcessor unreadableFile 0 (Or.inr rfl)⟩

/-- C9, the code at the failing input: for a file that a format opens and that
decodes to no frames, `loadSample` returns true, the previously installed demo
sound is gone, the installed sound has no audio data, the file name is
replaced, and a voice that is assigned the new sound cannot render. -/
theorem loadSample_zero_frames_reports_success :
    emptyReader.lengthInSamples = 0
      ∧ (demoProcessor.loadSample emptyFile 0).1 = true
      ∧ demoProcessor.synth.sounds = [demoSound]
      ∧ (demoProcessor.loadSample emptyFile 0).2.synth.sounds = [emptySound]
      ∧ demoSound ∉ (demoProcessor.loadSample emptyFile 0).2.synth.sounds
      ∧ emptySound.data = none
      ∧ (demoProcessor.loadSample emptyFile 0).2.loadedFileName = "empty.wav"
      ∧ (emptyAssigned.startNote floorPow 60 (1 / 2) (some emptySound)).renderNextBlock
          [[0, 0], [0, 0]] 0 2 = none := by
  have hd : emptySound.data = none := by
    simp [emptySound, SamplerSound.ctor, emptyReader]
  have hsounds : (demoProcessor.loadSample emptyFile 0).2.synth.sounds = [emptySound] := by
    simp [SimpleSamplerAudioProcessor.loadSample, emptyFile, Synthesiser.addSound,
      Synthesiser.clearSounds, emptySound]
  refine ⟨rfl, ?_, rfl, hsounds, ?_, hd, ?_, ?_⟩
  · simp [SimpleSamplerAudioProcessor.loadSample, emptyFile]
  · rw [hsounds]
    intro hmem
    simp only [List.mem_singleton] at hmem
    have := congrArg SamplerSound.data hmem
    rw [hd] at this
    simp [demoSound] at this
  · simp [SimpleSamplerAudioProcessor.loadSample, emptyFile]
  · have hs : (emptyAssigned.startNote floorPow 60 (1 / 2) (some emptySound)).currentlyPlayingSound
        = some emptySound := rfl
    unfold SamplerVoice.renderNextBlock
    rw [hs]
    simp only [hd]

theorem addEvent_perm (b : MidiBuffer) (m : MidiMessage) (pos : Int) :
    (MidiBuffer.addEvent b m pos).Perm ((pos, m) :: b) := by
  unfold MidiBuffer.addEvent
  refine List.perm_middle.trans ?_
  rw [List.takeWhile_append_dropWhile]

theorem dropWhile_none {α : Type} (q : α → Bool) :
    ∀ l : List α, (∀ e ∈ l, q e = false) → l.dropWhile q = l
  | [], _ => rfl
  | a :: l, h => by
    have ha := h a (List.mem_cons_self _ _)
    simp [List.dropWhile, ha]

theorem takeWhile_all {α : Type} (q : α → Bool) :
    ∀ l : List α, (∀ e ∈ l, q e = true) → l.takeWhile q = l
  | [], _ => rfl
  | a :: l, h => by
    have ha := h a (List.mem_cons_self _ _)
    have ht := takeWhile_all q l (fun e he => h e (List.mem_cons_of_mem _ he))
    simp [List.takeWhile, ha, ht]

theorem foldl_addEvent_perm :
    ∀ (other b : MidiBuffer),
      (other.foldl (fun acc e => MidiBuffer.addEvent acc e.2 (e.1 + 0)) b).Perm (b ++ other)
  | [], b => by simp
  | e :: other, b => by
    simp only [List.foldl_cons]
    refine (foldl_addEvent_perm other _).trans ?_
    have h1 : (MidiBuffer.addEvent b e.2 (e.1 + 0)).Perm (e :: b) := by
      rw [add_zero]
      exact addEvent_perm b e.2 e.1
    refine (List.Perm.append_right other h1).trans ?_
    simp only [List.cons_append]
    exact List.perm_middle.symm

/-- For a block of at least one frame and a pending buffer whose events all sit
at position 0, the merged stream holds the host's events and every pending
event once each, and the pending buffer is empty afterwards. -/
theorem merge_positive_frames (queue midi : MidiBuffer) (numSamples : Int)
    (hpos : 0 < numSamples) (hq : ∀ e ∈ queue, e.1 = 0) :
    (mergeVirtualKeyboardMidi queue midi numSamples).1.Perm (midi ++ queue)
      ∧ (mergeVirtualKeyboardMidi queue midi numSamples).2 = [] := by
  unfold mergeVirtualKeyboardMidi
  cases queue with
  | nil => simp
  | cons a t =>
    have hdrop : (a :: t).dropWhile (fun e => decide (e.1 < 0)) = a :: t :=
      dropWhile_none _ _ (fun e he => by simp [hq e he])
    have htake : (a :: t).takeWhile
        (fun e => !(decide (e.1 ≥ 0 + numSamples) && decide (numSamples ≥ 0))) = a :: t :=
      takeWhile_all _ _ (fun e he => by
        have h0 := hq e he
        have : ¬ (numSamples ≤ e.1) := by omega
        simp [this])
    have hne : (!(a :: t).isEmpty) = true := rfl
    rw [if_pos hne]
    refine ⟨?_, rfl⟩
    show (MidiBuffer.addEvents midi (a :: t) 0 numSamples 0).Perm (midi ++ a :: t)
    unfold MidiBuffer.addEvents
    rw [hdrop, htake]
    exact foldl_addEvent_perm (a :: t) midi

theorem addEvent_at_end (b : MidiBuffer) (m : MidiMessage) (h : ∀ e ∈ b, e.1 = 0) :
    MidiBuffer.addEvent b m 0 = b ++ [(0, m)] := by
  unfold MidiBuffer.addEvent
  have ht : b.takeWhile (fun e => decide (e.1 ≤ 0)) = b :=
    takeWhile_all _ _ (fun e he => by simp [h e he])
  have hd : b.dropWhile (fun e => decide (e.1 ≤ 0)) = [] := by
    have := List.takeWhile_append_dropWhile (fun e => decide (e.1 ≤ 0)) b
    rw [ht] at this
    exact List.append_right_eq_self.mp this
  rw [ht, hd]

theorem keyboardCall_queue {E R : Type} (p : SimpleSamplerAudioProcessor E R) (c : KeyboardCall)
    (h : ∀ e ∈ p.virtualKeyboardMidi, e.1 = 0) :
    (p.keyboardCall c).virtualKeyboardMidi = p.virtualKeyboardMidi ++ [(0, c.message)] := by
  cases c with
  | noteOn n vel => exact addEvent_at_end p.virtualKeyboardMidi _ h
  | noteOff n => exact addEvent_at_end p.virtualKeyboardMidi _ h

/-- The pending buffer after a sequence of keyboard calls holds, behind what it
held before, the message of each call once, in call order, at position 0. -/
theorem keyboardCalls_queue {E R : Type} :
    ∀ (cs : List KeyboardCall) (p : SimpleSamplerAudioProcessor E R),
      (∀ e ∈ p.virtualKeyboardMidi, e.1 = 0) →
      (p.keyboardCalls cs).virtualKeyboardMidi
        = p.virtualKeyboardMidi ++ cs.map fun c => ((0 : Int), c.message) := by
  intro cs
  induction cs with
  | nil => intro p _; simp [SimpleSamplerAudioProcessor.keyboardCalls]
  | cons c cs ih =>
    intro p h
    have hq := keyboardCall_queue p c h
    have hstep : ∀ e ∈ (p.keyboardCall c).virtualKeyboardMidi, e.1 = 0 := by
      intro e he
      rw [hq] at he
      rcases List.mem_append.mp he with hmem | hmem
      · exact h e hmem
      · simp only [List.mem_singleton] at hmem
        rw [hmem]
    have := ih (p.keyboardCall c) hstep
    rw [hq] at this
    simpa [SimpleSamplerAudioProcessor.keyboardCalls] using this

/-- For a block of at least one frame: after any sequence of `addNoteOn` and
`addNoteOff` calls on an empty pending buffer, the stream handed on holds the
host's events and the message of each call once each, and the pending buffer
is empty afterwards. -/
theorem merge_after_calls_positive_frames {E R : Type} (p : SimpleSamplerAudioProcessor E R)
    (hempty : p.virtualKeyboardMidi = []) (cs : List KeyboardCall) (midi : MidiBuffer)
    (numSamples : Int) (hpos : 0 < numSamples) :
    (mergeVirtualKeyboardMidi (p.keyboardCalls cs).virtualKeyboardMidi midi numSamples).1.Perm
        (midi ++ cs.map fun c => ((0 : Int), c.message))
      ∧ (mergeVirtualKeyboardMidi (p.keyboardCalls cs).virtualKeyboardMidi midi numSamples).2
          = [] := by
  have hq := keyboardCalls_queue cs p (by rw [hempty]; simp)
  rw [hempty, List.nil_append] at hq
  rw [hq]
  apply merge_positive_frames _ _ _ hpos
  intro e he
  simp only [List.mem_map] at he
  obtain ⟨c, _, rfl⟩ := he
  rfl

/-- C10, the code at the failing input: after `addNoteOn (60, 0.8)` the pending
buffer holds the note-on; `processBlock` on a stereo buffer of zero frames hands
the synthesiser an event stream without it (the host's stream was empty and
stays empty) and leaves the pending buffer empty, whatever the synthesiser and
the reverb do: the note-on is lost. -/
theorem processBlock_zero_frames_loses_events :
    (demoProcessor.addNoteOn 60 (4 / 5)).virtualKeyboardMidi
        = [(0, MidiMessage.noteOn 1 60 (4 / 5))]
      ∧ getNumSamples [[], []] = 0
      ∧ mergeVirtualKeyboardMidi (demoProcessor.addNoteOn 60 (4 / 5)).virtualKeyboardMidi []
          (getNumSamples [[], []]) = ([], [])
      ∧ ∀ (synthRender : Synthesiser ADSR → AudioBuffer → MidiBuffer → Int → Int →
            Option (Synthesiser ADSR × AudioBuffer))
          (reverbProcess : Unit → ReverbParameters → AudioBuffer → Unit × AudioBuffer),
          match (demoProcessor.addNoteOn 60 (4 / 5)).processBlock synthRender reverbProcess
              [[], []] [] with
          | none => True
          | some (p1, _, midi) => midi = [] ∧ p1.virtualKeyboardMidi = [] := by
  have hq : (demoProcessor.addNoteOn 60 (4 / 5)).virtualKeyboardMidi
      = [(0, MidiMessage.noteOn 1 60 (4 / 5))] := by
    simp [SimpleSamplerAudioProcessor.addNoteOn, MidiBuffer.addEvent, demoProcessor]
  have hn : getNumSamples [[], []] = 0 := by
    simp [getNumSamples]
  have hm : mergeVirtualKeyboardMidi (demoProcessor.addNoteOn 60 (4 / 5)).virtualKeyboardMidi []
      (getNumSamples [[], []]) = ([], []) := by
    rw [hq, hn]
    simp [mergeVirtualKeyboardMidi, MidiBuffer.addEvents]
  refine ⟨hq, hn, hm, ?_⟩
  intro synthRender reverbProcess
  unfold SimpleSamplerAudioProcessor.processBlock
  simp only [hm]
  split
  · trivial
  · rename_i p1 buf midi heq
    split at heq
    · cases heq
    · split at heq
      · simp only [Option.some.injEq, Prod.mk.injEq] at heq
        obtain ⟨rfl, _, rfl⟩ := heq
        exact ⟨rfl, rfl⟩
      · simp only [Option.some.injEq, Prod.mk.injEq] at heq
        obtain ⟨rfl, _, rfl⟩ := heq
        exact ⟨rfl, rfl⟩

end ProcessorTheorems

/-! ### Mix bus, stop, pool, asset and editor -/

section MixTheorems

variable {E R : Type}

theorem sampleAt_applyGain (b : AudioBuffer) (gain : ℚ) (c : Nat) (i : Int) :
    sampleAt (applyGain b gain) c i = (sampleAt b c i).map fun x => x * gain := by
  unfold sampleAt applyGain
  rw [List.getElem?_map]
  cases b[c]? with
  | none => rfl
  | some ch =>
    simp only [Option.map_some', Option.some_bind]
    unfold readAt
    split
    · rw [List.getElem?_map]
    · rfl

/-- C11: when the synthesiser has rendered the block (the summed voice output
`voiceSum`), `processBlock` returns; its output is `voiceSum` times the volume,
passed through the reverb exactly when `reverbMix > 0.01`, with room size 0.5,
damping 0.5, wet level `reverbMix`, dry level `1 - reverbMix`, width 1 (freeze
mode 0); otherwise the output is `voiceSum` times the volume, sample by sample,
and the reverb is not touched. -/
theorem processBlock_gain_then_reverb
    (synthRender : Synthesiser E → AudioBuffer → MidiBuffer → Int → Int →
      Option (Synthesiser E × AudioBuffer))
    (reverbProcess : R → ReverbParameters → AudioBuffer → R × AudioBuffer)
    (p : SimpleSamplerAudioProcessor E R) (buffer : AudioBuffer) (midiMessages : MidiBuffer)
    (synth1 : Synthesiser E) (voiceSum : AudioBuffer)
    (hsynth : synthRender p.synth
        (((List.range p.totalNumOutputChannels).filter
          (fun i => decide (p.totalNumInputChannels ≤ i))).foldl clearChannel buffer)
        (mergeVirtualKeyboardMidi p.virtualKeyboardMidi midiMessages (getNumSamples buffer)).1
        0 (getNumSamples buffer) = some (synth1, voiceSum)) :
    ∃ p1 out midi1,
      p.processBlock synthRender reverbProcess buffer midiMessages = some (p1, out, midi1)
      ∧ (p.reverbParameter > 1 / 100 →
          out = (reverbProcess p.reverb
              { roomSize := 1 / 2, damping := 1 / 2, wetLevel := p.reverbParameter,
                dryLevel := 1 - p.reverbParameter, width := 1, freezeMode := 0 }
              (applyGain voiceSum p.volumeParameter)).2)
      ∧ (p.reverbParameter ≤ 1 / 100 →
          out = applyGain voiceSum p.volumeParameter ∧ p1.reverb = p.reverb
            ∧ ∀ c i, sampleAt out c i
                = (sampleAt voiceSum c i).map fun x => x * p.volumeParameter) := by
  unfold SimpleSamplerAudioProcessor.processBlock
  simp only [hsynth]
  by_cases hmix : p.reverbParameter > 1 / 100
  · rw [if_pos hmix]
    refine ⟨_, _, _, rfl, fun _ => rfl, ?_⟩
    intro hle
    exact absurd hmix (not_lt.mpr hle)
  · rw [if_neg hmix]
    refine ⟨_, _, _, rfl, fun h => absurd h hmix, ?_⟩
    intro _
    exact ⟨rfl, rfl, fun c i => sampleAt_applyGain voiceSum p.volumeParameter c i⟩

/-- Witness of C11: the demo processor (volume 0.7, reverb mix 0) on a stereo
block of two frames, with a synthesiser that adds nothing. -/
theorem processBlock_gain_then_reverb_witness :
    ∃ p1 out midi1,
      demoProcessor.processBlock (fun s b _ _ _ => some (s, b)) (fun r _ b => (r, b))
          [[1, 2], [3, 4]] [] = some (p1, out, midi1)
      ∧ out = applyGain [[0, 0], [0, 0]] (7 / 10) := by
  obtain ⟨p1, out, midi1, h, _, hdry⟩ :=
    processBlock_gain_then_reverb (fun s b _ _ _ => some (s, b)) (fun r _ b => (r, b))
      demoProcessor [[1, 2], [3, 4]] [] demoProcessor.synth [[0, 0], [0, 0]] (by
        simp [demoProcessor, clearChannel, List.range, List.range.loop, List.modify])
  exact ⟨p1, out, midi1, h, (hdry (by norm_num [demoProcessor])).1⟩

end MixTheorems

section StopTheorems

/-- C12: `stopNote` with `allowTailOff = true` only calls the envelope's
`noteOff`: note, sound, position, pitch ratio and gains stay, so the voice goes
on rendering through the release.  With `allowTailOff = false` the note is
cleared (`-1`, no sound) and the envelope is reset to Idle with level 0. -/
theorem stopNote_tailOff_or_hard (v : SamplerVoice ADSR) (velocity : ℚ) :
    v.stopNote velocity true = { v with adsr := ADSR.noteOff v.adsr }
      ∧ (v.stopNote velocity true).currentlyPlayingNote = v.currentlyPlayingNote
      ∧ (v.stopNote velocity true).currentlyPlayingSound = v.currentlyPlayingSound
      ∧ v.stopNote velocity false
          = { v with currentlyPlayingNote := -1, currentlyPlayingSound := none,
                     adsr := ADSR.reset v.adsr }
      ∧ (v.stopNote velocity false).currentlyPlayingNote = -1
      ∧ (v.stopNote velocity false).currentlyPlayingSound = none
      ∧ (v.stopNote velocity false).adsr.state = ADSRState.idle
      ∧ (v.stopNote velocity false).adsr.envelopeVal = 0 :=
  ⟨rfl, rfl, rfl, rfl, rfl, rfl, rfl, rfl⟩

theorem noteOff_idle (e : ADSR) (h : e.state = ADSRState.idle) : ADSR.noteOff e = e := by
  unfold ADSR.noteOff
  rw [h]

/-- C16: on a voice whose envelope is Idle, `stopNote` with `allowTailOff = true`
changes nothing (note, sound, pitch ratio, position, gains, envelope stage and
level); applied twice it gives what it gives applied once. -/
theorem stopNote_idle_noop (v : SamplerVoice ADSR) (velocity : ℚ)
    (hidle : v.adsr.state = ADSRState.idle) :
    v.stopNote velocity true = v
      ∧ (v.stopNote velocity true).stopNote velocity true = v.stopNote velocity true := by
  have h1 : v.stopNote velocity true = v := by
    show { v with adsr := ADSR.noteOff v.adsr } = v
    rw [noteOff_idle v.adsr hidle]
  exact ⟨h1, by rw [h1, h1]⟩

/-- Witness of C16: the idle voice. -/
theorem stopNote_idle_noop_witness :
    idleVoice.stopNote 0 true = idleVoice
      ∧ (idleVoice.stopNote 0 true).stopNote 0 true = idleVoice.stopNote 0 true :=
  stopNote_idle_noop idleVoice 0 rfl

end StopTheorems

section PoolTheorems

variable {E R : Type}

theorem processBlock_synth
    (synthRender : Synthesiser E → AudioBuffer → MidiBuffer → Int → Int →
      Option (Synthesiser E × AudioBuffer))
    (reverbProcess : R → ReverbParameters → AudioBuffer → R × AudioBuffer)
    (p p1 : SimpleSamplerAudioProcessor E R) (buffer out : AudioBuffer) (midi midi1 : MidiBuffer)
    (h : p.processBlock synthRender reverbProcess buffer midi = some (p1, out, midi1)) :
    ∃ b m out2 start n, synthRender p.synth b m start n = some (p1.synth, out2) := by
  unfold SimpleSamplerAudioProcessor.processBlock at h
  simp only at h
  split at h
  · cases h
  · rename_i synth1 buffer2 hs
    split at h
    · simp only [Option.some.injEq, Prod.mk.injEq] at h
      rw [← h.1]
      exact ⟨_, _, _, _, _, hs⟩
    · simp only [Option.some.injEq, Prod.mk.injEq] at h
      rw [← h.1]
      exact ⟨_, _, _, _, _, hs⟩

theorem ctor_voices (adsr : E) (reverb : R) :
    ((SimpleSamplerAudioProcessor.ctor adsr reverb :
      SimpleSamplerAudioProcessor E R)).synth.voices.length = 8 := by
  rfl

variable [Envelope E]

theorem startVoice_length (pow : ℚ → ℚ → ℚ) (s : Synthesiser E) (i : Nat)
    (sound : SamplerSound) (note : Int) (velocity : ℚ) :
    (s.startVoice pow i sound note velocity).voices.length = s.voices.length := by
  unfold Synthesiser.startVoice
  split
  · rfl
  · simp

theorem noteOn_length (pow : ℚ → ℚ → ℚ) (s : Synthesiser E) (note : Int) (velocity : ℚ) :
    (s.noteOn pow note velocity).voices.length = s.voices.length := by
  unfold Synthesiser.noteOn
  generalize s.sounds = sounds
  induction sounds generalizing s with
  | nil => rfl
  | cons sound rest ih =>
    simp only [List.foldl_cons]
    rw [ih]
    split
    · split
      · exact startVoice_length pow s _ sound note velocity
      · rfl
    · rfl

theorem noteOff_length (s : Synthesiser E) (note : Int) :
    (s.noteOff note).voices.length = s.voices.length := by
  unfold Synthesiser.noteOff
  split
  · rfl
  · split
    · rfl
    · simp

theorem handleMidiEvent_length (pow : ℚ → ℚ → ℚ) (s : Synthesiser E) (m : MidiMessage) :
    (s.handleMidiEvent pow m).voices.length = s.voices.length := by
  cases m with
  | noteOn ch n vel => exact noteOn_length pow s n vel
  | noteOff ch n => exact noteOff_length s n
  | other b => rfl

theorem handleMidiEvents_length (pow : ℚ → ℚ → ℚ) (midi : MidiBuffer) :
    ∀ s : Synthesiser E,
      (midi.foldl (fun acc e => acc.handleMidiEvent pow e.2) s).voices.length
        = s.voices.length := by
  induction midi with
  | nil => intro s; rfl
  | cons e rest ih =>
    intro s
    simp only [List.foldl_cons]
    rw [ih, handleMidiEvent_length]

theorem renderVoices_length (startSample numSamples : Int) :
    ∀ (vs vs1 : List (SamplerVoice E)) (out out1 : AudioBuffer),
      renderVoices startSample numSamples vs out = some (vs1, out1) → vs1.length = vs.length := by
  intro vs
  induction vs with
  | nil =>
    intro vs1 out out1 h
    simp only [renderVoices, Option.some.injEq, Prod.mk.injEq] at h
    rw [← h.1]
  | cons v vs ih =>
    intro vs1 out out1 h
    unfold renderVoices at h
    split at h
    · cases h
    · split at h
      · cases h
      · rename_i vs2 out2 hrest
        simp only [Option.some.injEq, Prod.mk.injEq] at h
        rw [← h.1]
        simp [ih _ _ _ hrest]

theorem synth_renderNextBlock_length (pow : ℚ → ℚ → ℚ) (s s1 : Synthesiser E)
    (out out1 : AudioBuffer) (midi : MidiBuffer) (startSample numSamples : Int)
    (h : s.renderNextBlock pow out midi startSample numSamples = some (s1, out1)) :
    s1.voices.length = s.voices.length := by
  unfold Synthesiser.renderNextBlock at h
  simp only at h
  split at h
  · cases h
  · rename_i vs out2 hv
    simp only [Option.some.injEq, Prod.mk.injEq] at h
    rw [← h.1]
    show vs.length = s.voices.length
    rw [renderVoices_length _ _ _ _ _ _ hv, handleMidiEvents_length]

theorem call_voices_length (pow : ℚ → ℚ → ℚ) (reverbPrepare : R → ℚ → Int → Nat → R)
    (reverbProcess : R → ReverbParameters → AudioBuffer → R × AudioBuffer)
    (p p1 : SimpleSamplerAudioProcessor E R) (c : ProcessorCall)
    (h : p.call pow reverbPrepare reverbProcess c = some p1) :
    p1.synth.voices.length = p.synth.voices.length := by
  cases c with
  | prepareToPlay rate block =>
    simp only [SimpleSamplerAudioProcessor.call, Option.some.injEq] at h
    rw [← h]
    show (p.synth.setCurrentPlaybackSampleRate rate).voices.length = _
    unfold Synthesiser.setCurrentPlaybackSampleRate
    split
    · rfl
    · simp
  | loadSample file indeterminate =>
    simp only [SimpleSamplerAudioProcessor.call, Option.some.injEq] at h
    rw [← h]
    unfold SimpleSamplerAudioProcessor.loadSample
    split
    · rfl
    · split
      · rfl
      · rfl
  | addNoteOn n vel =>
    simp only [SimpleSamplerAudioProcessor.call, Option.some.injEq] at h
    rw [← h]
    rfl
  | addNoteOff n =>
    simp only [SimpleSamplerAudioProcessor.call, Option.some.injEq] at h
    rw [← h]
    rfl
  | processBlock buffer midi =>
    simp only [SimpleSamplerAudioProcessor.call, Option.map_eq_some'] at h
    obtain ⟨⟨p2, out, midi1⟩, hp, rfl⟩ := h
    obtain ⟨b, m, out2, start, n, hs⟩ := processBlock_synth _ reverbProcess p p2 buffer out midi
      midi1 hp
    exact synth_renderNextBlock_length pow p.synth p2.synth b out2 m start n hs

theorem calls_voices_length (pow : ℚ → ℚ → ℚ) (reverbPrepare : R → ℚ → Int → Nat → R)
    (reverbProcess : R → ReverbParameters → AudioBuffer → R × AudioBuffer) :
    ∀ (cs : List ProcessorCall) (p p1 : SimpleSamplerAudioProcessor E R),
      p.calls pow reverbPrepare reverbProcess cs = some p1 →
      p1.synth.voices.length = p.synth.voices.length := by
  intro cs
  induction cs with
  | nil =>
    intro p p1 h
    simp only [SimpleSamplerAudioProcessor.calls, Option.some.injEq] at h
    rw [h]
  | cons c cs ih =>
    intro p p1 h
    simp only [SimpleSamplerAudioProcessor.calls] at h
    cases hc : p.call pow reverbPrepare reverbProcess c with
    | none => simp [hc] at h
    | some p2 =>
      rw [hc] at h
      simp only [Option.some_bind] at h
      rw [ih p2 p1 h, call_voices_length pow reverbPrepare reverbProcess p p2 c hc]

end PoolTheorems

section StealTheorems

variable {E R : Type}

theorem firstFree_none :
    ∀ vs : List (SamplerVoice E), (∀ v ∈ vs, v.isVoiceActive = true) → firstFree vs = none
  | [], _ => rfl
  | v :: vs, h => by
    have hv := h v (List.mem_cons_self _ _)
    have hrest := firstFree_none vs (fun w hw => h w (List.mem_cons_of_mem _ hw))
    simp [firstFree, hv, hrest]

theorem oldestVoice_some :
    ∀ vs : List (SamplerVoice E), vs ≠ [] →
      ∃ i t, oldestVoice vs = some (i, t) ∧ i < vs.length
  | [], h => absurd rfl h
  | v :: vs, _ => by
    unfold oldestVoice
    cases hrest : oldestVoice vs with
    | none => exact ⟨0, v.noteOnTime, rfl, by simp⟩
    | some jt =>
      obtain ⟨j, t⟩ := jt
      have hj : j < vs.length := by
        cases vs with
        | nil => simp [oldestVoice] at hrest
        | cons w ws =>
          obtain ⟨i2, t2, h2, hlt⟩ := oldestVoice_some (w :: ws) (by simp)
          rw [hrest] at h2
          simp only [Option.some.injEq, Prod.mk.injEq] at h2
          rw [h2.1]
          exact hlt
      simp only
      split
      · exact ⟨0, v.noteOnTime, rfl, by simp⟩
      · exact ⟨j + 1, t, rfl, by simpa using hj⟩

variable [Envelope E]

/-- A note-on into a pool whose voices all play, with one sound that applies to
the note: the voice at one index is restarted on the note, every other voice is
what it was. -/
theorem noteOn_steals_one (pow : ℚ → ℚ → ℚ) (s : Synthesiser E) (sound : SamplerSound)
    (note : Int) (velocity : ℚ) (hne : s.voices ≠ [])
    (hactive : ∀ v ∈ s.voices, v.isVoiceActive = true) (hsounds : s.sounds = [sound])
    (hnote : 0 ≤ note) (happlies : sound.appliesToNote note.toNat = true) :
    ∃ i, i < s.voices.length
      ∧ (s.noteOn pow note velocity).voices.length = s.voices.length
      ∧ ((s.noteOn pow note velocity).voices[i]?).map (fun v => v.currentlyPlayingNote)
          = some note
      ∧ ((s.noteOn pow note velocity).voices[i]?).map (fun v => v.currentlyPlayingSound)
          = some (some sound)
      ∧ ∀ j, j ≠ i → (s.noteOn pow note velocity).voices[j]? = s.voices[j]? := by
  obtain ⟨i, t, hold, hi⟩ := oldestVoice_some s.voices hne
  have hfree : s.findFreeVoice = some i := by
    simp [Synthesiser.findFreeVoice, firstFree_none s.voices hactive, hold]
  have hon : s.noteOn pow note velocity = s.startVoice pow i sound note velocity := by
    unfold Synthesiser.noteOn
    rw [hsounds]
    simp only [List.foldl_cons, List.foldl_nil]
    rw [if_pos ⟨hnote, happlies⟩, hfree]
  obtain ⟨v, hv⟩ : ∃ v, s.voices[i]? = some v := ⟨s.voices[i], List.getElem?_eq_getElem hi⟩
  have hstart : (s.startVoice pow i sound note velocity).voices
      = s.voices.set i (({ (if v.currentlyPlayingSound.isSome then v.stopNote 0 false else v) with
          currentlyPlayingNote := note, currentlyPlayingSound := some sound,
          noteOnTime := s.lastNoteOnCounter + 1 } : SamplerVoice E).startNote pow note velocity
            (some sound)) := by
    unfold Synthesiser.startVoice
    rw [hv]
  refine ⟨i, hi, ?_, ?_, ?_, ?_⟩
  · rw [hon, startVoice_length]
  · rw [hon, hstart, List.getElem?_set_self hi]
    rfl
  · rw [hon, hstart, List.getElem?_set_self hi]
    rfl
  · intro j hj
    rw [hon, hstart, List.getElem?_set_ne (fun h => hj h.symm)]

/-- C13: the constructed processor holds eight voices; after every sequence of
calls (prepareToPlay, loadSample, addNoteOn, addNoteOff, processBlock) it still
holds eight, so at most eight are active; and a note-on into a pool of eight
active voices, with the one installed sound applying to the note, restarts the
voice at one index on the new note and leaves the other seven as they were. -/
theorem voice_pool_holds_eight (pow : ℚ → ℚ → ℚ) (reverbPrepare : R → ℚ → Int → Nat → R)
    (reverbProcess : R → ReverbParameters → AudioBuffer → R × AudioBuffer)
    (adsr : E) (reverb : R) :
    ((SimpleSamplerAudioProcessor.ctor adsr reverb :
        SimpleSamplerAudioProcessor E R)).synth.voices.length = 8
      ∧ (∀ (cs : List ProcessorCall) (p : SimpleSamplerAudioProcessor E R),
          (SimpleSamplerAudioProcessor.ctor adsr reverb).calls pow reverbPrepare reverbProcess cs
            = some p →
          p.synth.voices.length = 8 ∧ p.synth.activeVoices ≤ 8)
      ∧ (∀ (s : Synthesiser E) (sound : SamplerSound) (note : Int) (velocity : ℚ),
          s.voices.length = 8 → s.activeVoices = 8 → s.sounds = [sound] → 0 ≤ note →
          sound.appliesToNote note.toNat = true →
          ∃ i, i < 8
            ∧ (s.noteOn pow note velocity).voices.length = 8
            ∧ ((s.noteOn pow note velocity).voices[i]?).map (fun v => v.currentlyPlayingNote)
                = some note
            ∧ ∀ j, j ≠ i → (s.noteOn pow note velocity).voices[j]? = s.voices[j]?) := by
  refine ⟨ctor_voices adsr reverb, ?_, ?_⟩
  · intro cs p h
    have hlen := calls_voices_length pow reverbPrepare reverbProcess cs _ p h
    rw [ctor_voices] at hlen
    refine ⟨hlen, ?_⟩
    unfold Synthesiser.activeVoices
    rw [← hlen]
    exact List.length_filter_le _ _
  · intro s sound note velocity hlen hact hsounds hnote happlies
    have hne : s.voices ≠ [] := by
      intro h
      rw [h] at hlen
      simp at hlen
    have hall : ∀ v ∈ s.voices, v.isVoiceActive = true := by
      have hf : (s.voices.filter fun v => v.isVoiceActive).length = s.voices.length := by
        rw [hlen]
        exact hact
      have := List.filter_length_eq_length.mp hf
      intro v hv
      exact this v hv
    obtain ⟨i, hi, h1, h2, _, h4⟩ :=
      noteOn_steals_one pow s sound note velocity hne hall hsounds hnote happlies
    exact ⟨i, by omega, by rw [h1, hlen], h2, h4⟩

end StealTheorems

/-- Witness of C13: note 72 into the full pool of eight voices on notes 60 to 67. -/
theorem voice_pool_holds_eight_witness :
    ∃ i, i < 8
      ∧ (fullSynth.noteOn floorPow 72 (4 / 5)).voices.length = 8
      ∧ ((fullSynth.noteOn floorPow 72 (4 / 5)).voices[i]?).map (fun v => v.currentlyPlayingNote)
          = some 72
      ∧ ∀ j, j ≠ i → (fullSynth.noteOn floorPow 72 (4 / 5)).voices[j]? = fullSynth.voices[j]? :=
  (voice_pool_holds_eight floorPow (fun (r : Unit) _ _ _ => r) (fun (r : Unit) _ b => (r, b))
    ({} : ADSR) ()).2.2 fullSynth demoSound 72 (4 / 5) (by rfl) (by decide) (by rfl)
    (by decide) (by decide)

section AssetTheorems

/-- For a source with a positive rate and a positive frame count below `2 ^ 31`
and a cap `maxSampleLengthSeconds * sourceSampleRate` that is not negative and
below `2 ^ 31`, the constructed length is the smaller of the frame count and
the floor of the cap, and every channel of the data holds `length + 4` frames. -/
theorem ctor_length_in_range (source : AudioFormatReader) (midiNotes : Nat) (root : Int)
    (attack release maxSeconds : ℚ) (indeterminate : Int)
    (hrate : 0 < source.sampleRate) (hlen : 0 < source.lengthInSamples)
    (hfit : source.lengthInSamples < 2 ^ 31) (hmax : 0 ≤ maxSeconds)
    (hcap : maxSeconds * source.sampleRate < 2 ^ 31) :
    (SamplerSound.ctor source midiNotes root attack release maxSeconds indeterminate).length
        = min source.lengthInSamples ⌊maxSeconds * source.sampleRate⌋
      ∧ ∃ data,
          (SamplerSound.ctor source midiNotes root attack release maxSeconds indeterminate).data
            = some data
          ∧ ∀ ch ∈ data, (ch.length : Int)
              = (SamplerSound.ctor source midiNotes root attack release maxSeconds
                  indeterminate).length + 4 := by
  have hw := wrapInt32_of_lt (le_of_lt hlen) hfit
  have hnn : 0 ≤ maxSeconds * source.sampleRate := mul_nonneg hmax (le_of_lt hrate)
  have ht := toInt32_of_range hnn hcap
  have hfl : 0 ≤ ⌊maxSeconds * source.sampleRate⌋ := Int.floor_nonneg.mpr hnn
  unfold SamplerSound.ctor
  rw [if_pos ⟨hrate, hlen⟩, hw, ht]
  refine ⟨rfl, _, rfl, ?_⟩
  intro ch hmem
  rw [(read_channels source _ _).2 ch hmem]
  have : 0 ≤ min source.lengthInSamples ⌊maxSeconds * source.sampleRate⌋ :=
    le_min (le_of_lt hlen) hfl
  exact Int.toNat_of_nonneg (by omega)

/-- C14, the code at the failing inputs: for a source at 48000 with `2 ^ 31`
frames the constructed length is `-2 ^ 31`, and with `2 ^ 32 + 5` frames it is 5,
where the smaller of the frame count and `floor (10 * 48000)` is 480000 both
times: the frame count is narrowed to `int` before the minimum is taken. -/
theorem ctor_length_narrowed :
    0 < (longReader (2 ^ 31)).sampleRate ∧ 0 < (longReader (2 ^ 31)).lengthInSamples
      ∧ (SamplerSound.ctor (longReader (2 ^ 31)) allNotes 60 (1 / 100) (1 / 10) 10 0).length
          = -2 ^ 31
      ∧ min (longReader (2 ^ 31)).lengthInSamples ⌊(10 : ℚ) * (longReader (2 ^ 31)).sampleRate⌋
          = 480000
      ∧ (SamplerSound.ctor (longReader (2 ^ 32 + 5)) allNotes 60 (1 / 100) (1 / 10) 10 0).length
          = 5
      ∧ min (longReader (2 ^ 32 + 5)).lengthInSamples
          ⌊(10 : ℚ) * (longReader (2 ^ 32 + 5)).sampleRate⌋ = 480000 := by
  have hfloor : ⌊(10 : ℚ) * 48000⌋ = 480000 := by norm_num
  have htoInt : toInt32 ((10 : ℚ) * 48000) = 480000 := by
    rw [toInt32_of_range (by norm_num) (by norm_num)]
    exact hfloor
  refine ⟨by norm_num [longReader], by norm_num [longReader], ?_, ?_, ?_, ?_⟩
  · unfold SamplerSound.ctor
    rw [if_pos (by norm_num [longReader])]
    show min (wrapInt32 (2 ^ 31)) (toInt32 ((10 : ℚ) * 48000)) = -2 ^ 31
    rw [htoInt]
    decide
  · show min ((2 : Int) ^ 31) ⌊(10 : ℚ) * 48000⌋ = 480000
    rw [hfloor]
    decide
  · unfold SamplerSound.ctor
    rw [if_pos (by norm_num [longReader])]
    show min (wrapInt32 (2 ^ 32 + 5)) (toInt32 ((10 : ℚ) * 48000)) = 5
    rw [htoInt]
    decide
  · show min ((2 : Int) ^ 32 + 5) ⌊(10 : ℚ) * 48000⌋ = 480000
    rw [hfloor]
    decide

end AssetTheorems

section SwapTheorems

variable {E R : Type}

/-- Counterexample to C15: the demo processor has one voice that plays note 48 on
the demo sound.  Loading the good file succeeds and installs the new sound, and
the voice is untouched: it still has its note and still refers to the demo
sound, which is no longer among the synthesiser's sounds. -/
theorem loadSample_keeps_voices_counterexample :
    (demoProcessor.loadSample goodFile 0).1 = true
      ∧ demoProcessor.synth.voices = [demoVoice]
      ∧ (demoProcessor.loadSample goodFile 0).2.synth.voices = [demoVoice]
      ∧ demoVoice.currentlyPlayingNote = 48
      ∧ demoVoice.isVoiceActive = true
      ∧ demoVoice.currentlyPlayingSound = some demoSound
      ∧ (demoProcessor.loadSample goodFile 0).2.synth.sounds
          = [SamplerSound.ctor (reader3 44100) allNotes 60 (1 / 100) (1 / 10) 10 0]
      ∧ demoSound ∉ (demoProcessor.loadSample goodFile 0).2.synth.sounds := by
  have hsounds : (demoProcessor.loadSample goodFile 0).2.synth.sounds
      = [SamplerSound.ctor (reader3 44100) allNotes 60 (1 / 100) (1 / 10) 10 0] := by
    simp [SimpleSamplerAudioProcessor.loadSample, goodFile, Synthesiser.addSound,
      Synthesiser.clearSounds]
  refine ⟨?_, rfl, ?_, rfl, by decide, rfl, hsounds, ?_⟩
  · simp [SimpleSamplerAudioProcessor.loadSample, goodFile]
  · simp [SimpleSamplerAudioProcessor.loadSample, goodFile, Synthesiser.addSound,
      Synthesiser.clearSounds, demoProcessor]
  · rw [hsounds]
    intro hmem
    simp only [List.mem_singleton] at hmem
    have hrate := congrArg (fun s => s.sourceSampleRate) hmem
    simp only [(ctor_rate_root _ _ _ _ _ _ _).1] at hrate
    norm_num [demoSound, reader3] at hrate

/-- C15 as amended: a successful `loadSample` replaces the synthesiser's sound
list by the one new sound and the loaded file name by the file's name, and
leaves every voice exactly as it was: a voice that plays keeps its note and its
reference to the sound it plays. -/
theorem loadSample_success_keeps_voices (p : SimpleSamplerAudioProcessor E R) (file : File)
    (indeterminate : Int) (reader : AudioFormatReader)
    (hexists : file.existsAsFile = true) (hreader : file.createReaderFor = some reader) :
    (p.loadSample file indeterminate).1 = true
      ∧ (p.loadSample file indeterminate).2.synth.voices = p.synth.voices
      ∧ (p.loadSample file indeterminate).2.synth.sounds
          = [SamplerSound.ctor reader allNotes 60 (1 / 100) (1 / 10) 10 indeterminate]
      ∧ (p.loadSample file indeterminate).2.loadedFileName = file.getFileName := by
  simp [SimpleSamplerAudioProcessor.loadSample, hexists, hreader, Synthesiser.addSound,
    Synthesiser.clearSounds]

/-- Witness of C15 as amended: the demo processor and the good file. -/
theorem loadSample_success_keeps_voices_witness :
    (demoProcessor.loadSample goodFile 0).1 = true
      ∧ (demoProcessor.loadSample goodFile 0).2.synth.voices = demoProcessor.synth.voices
      ∧ (demoProcessor.loadSample goodFile 0).2.synth.sounds
          = [SamplerSound.ctor (reader3 44100) allNotes 60 (1 / 100) (1 / 10) 10 0]
      ∧ (demoProcessor.loadSample goodFile 0).2.loadedFileName = goodFile.getFileName :=
  loadSample_success_keeps_voices demoProcessor goodFile 0 (reader3 44100) rfl rfl

end SwapTheorems

section EditorTheorems

variable {E R : Type}

theorem octaveClick_range (ed : SimpleSamplerAudioProcessorEditor) (c : OctaveClick)
    (h : 0 ≤ ed.currentOctave ∧ ed.currentOctave ≤ 8) :
    0 ≤ (ed.octaveClick c).currentOctave ∧ (ed.octaveClick c).currentOctave ≤ 8 := by
  cases c with
  | up =>
    show 0 ≤ ed.octaveUpClicked.currentOctave ∧ ed.octaveUpClicked.currentOctave ≤ 8
    unfold SimpleSamplerAudioProcessorEditor.octaveUpClicked
    split
    · constructor <;> simp only <;> omega
    · exact h
  | down =>
    show 0 ≤ ed.octaveDownClicked.currentOctave ∧ ed.octaveDownClicked.currentOctave ≤ 8
    unfold SimpleSamplerAudioProcessorEditor.octaveDownClicked
    split
    · constructor <;> simp only <;> omega
    · exact h

theorem octaveClicks_range :
    ∀ (clicks : List OctaveClick) (ed : SimpleSamplerAudioProcessorEditor),
      0 ≤ ed.currentOctave ∧ ed.currentOctave ≤ 8 →
      0 ≤ (ed.octaveClicks clicks).currentOctave ∧ (ed.octaveClicks clicks).currentOctave ≤ 8 := by
  intro clicks
  induction clicks with
  | nil => intro ed h; exact h
  | cons c cs ih =>
    intro ed h
    exact ih (ed.octaveClick c) (octaveClick_range ed c h)

theorem octaveClick_activeNotes (ed : SimpleSamplerAudioProcessorEditor) (c : OctaveClick) :
    (ed.octaveClick c).activeNotes = ed.activeNotes := by
  cases c with
  | up =>
    show ed.octaveUpClicked.activeNotes = ed.activeNotes
    unfold SimpleSamplerAudioProcessorEditor.octaveUpClicked
    split <;> rfl
  | down =>
    show ed.octaveDownClicked.activeNotes = ed.activeNotes
    unfold SimpleSamplerAudioProcessorEditor.octaveDownClicked
    split <;> rfl

theorem octaveClicks_activeNotes :
    ∀ (clicks : List OctaveClick) (ed : SimpleSamplerAudioProcessorEditor),
      (ed.octaveClicks clicks).activeNotes = ed.activeNotes := by
  intro clicks
  induction clicks with
  | nil => intro ed; rfl
  | cons c cs ih =>
    intro ed
    exact (ih (ed.octaveClick c)).trans (octaveClick_activeNotes ed c)

/-- C17: from the editor's initial octave 4, after every sequence of octave-up
and octave-down clicks the octave is within 0..8; the key with offset 0..11 then
sends the note `12 + 12 * octave + offset`, which is within 0..127; at octave 4
and offset 0 this is 60. -/
theorem octave_and_note_in_range (clicks : List OctaveClick) (noteOffset : Fin 12)
    (p : SimpleSamplerAudioProcessor E R) :
    0 ≤ (SimpleSamplerAudioProcessorEditor.ctor.octaveClicks clicks).currentOctave
      ∧ (SimpleSamplerAudioProcessorEditor.ctor.octaveClicks clicks).currentOctave ≤ 8
      ∧ (SimpleSamplerAudioProcessorEditor.ctor.octaveClicks clicks).getMidiNote noteOffset.val
          = 12 + 12 * (SimpleSamplerAudioProcessorEditor.ctor.octaveClicks clicks).currentOctave
            + noteOffset.val
      ∧ 0 ≤ (SimpleSamplerAudioProcessorEditor.ctor.octaveClicks clicks).getMidiNote
          noteOffset.val
      ∧ (SimpleSamplerAudioProcessorEditor.ctor.octaveClicks clicks).getMidiNote noteOffset.val
          ≤ 127
      ∧ ((SimpleSamplerAudioProcessorEditor.ctor.octaveClicks clicks).pianoKeyPressed p
          noteOffset).2
          = p.addNoteOn (12 + 12
              * (SimpleSamplerAudioProcessorEditor.ctor.octaveClicks clicks).currentOctave
              + noteOffset.val) (4 / 5)
      ∧ SimpleSamplerAudioProcessorEditor.ctor.currentOctave = 4
      ∧ SimpleSamplerAudioProcessorEditor.ctor.getMidiNote 0 = 60 := by
  obtain ⟨h0, h8⟩ := octaveClicks_range clicks SimpleSamplerAudioProcessorEditor.ctor
    (by decide)
  have hoff : (noteOffset.val : Int) < 12 := by exact_mod_cast noteOffset.isLt
  have hoff0 : (0 : Int) ≤ noteOffset.val := Int.natCast_nonneg _
  have hnote : (SimpleSamplerAudioProcessorEditor.ctor.octaveClicks clicks).getMidiNote
      noteOffset.val
      = 12 + 12 * (SimpleSamplerAudioProcessorEditor.ctor.octaveClicks clicks).currentOctave
        + noteOffset.val := by
    unfold SimpleSamplerAudioProcessorEditor.getMidiNote
    ring
  refine ⟨h0, h8, hnote, ?_, ?_, ?_, rfl, by decide⟩
  · rw [hnote]; omega
  · rw [hnote]; omega
  · show p.addNoteOn ((SimpleSamplerAudioProcessorEditor.ctor.octaveClicks clicks).getMidiNote
      noteOffset.val) (4 / 5) = _
    rw [hnote]

/-- C18: a key pressed at an octave within 0..8 sends the note-on for
`getMidiNote` at that time; after any octave clicks, and whatever the processor
has become, its release sends the note-off for that same note and clears the
key's record; a release of a key whose record is `-1` leaves the processor as
it is (no note-off). -/
theorem release_matches_press (ed : SimpleSamplerAudioProcessorEditor)
    (hoct : 0 ≤ ed.currentOctave ∧ ed.currentOctave ≤ 8) (noteOffset : Fin 12)
    (p p2 : SimpleSamplerAudioProcessor E R) (clicks : List OctaveClick) :
    (ed.pianoKeyPressed p noteOffset).2 = p.addNoteOn (ed.getMidiNote noteOffset.val) (4 / 5)
      ∧ ((((ed.pianoKeyPressed p noteOffset).1.octaveClicks clicks).pianoKeyReleased p2
          noteOffset).2 = p2.addNoteOff (ed.getMidiNote noteOffset.val))
      ∧ ((((ed.pianoKeyPressed p noteOffset).1.octaveClicks clicks).pianoKeyReleased p2
          noteOffset).1.activeNotes noteOffset = -1)
      ∧ ∀ (ed0 : SimpleSamplerAudioProcessorEditor), ed0.activeNotes noteOffset = -1 →
          (ed0.pianoKeyReleased p2 noteOffset).2 = p2
            ∧ (ed0.pianoKeyReleased p2 noteOffset).1 = ed0 := by
  have hnote : 0 ≤ ed.getMidiNote noteOffset.val := by
    unfold SimpleSamplerAudioProcessorEditor.getMidiNote
    have hoff0 : (0 : Int) ≤ noteOffset.val := Int.natCast_nonneg _
    omega
  have hrec : ((ed.pianoKeyPressed p noteOffset).1.octaveClicks clicks).activeNotes noteOffset
      = ed.getMidiNote noteOffset.val := by
    rw [octaveClicks_activeNotes]
    simp [SimpleSamplerAudioProcessorEditor.pianoKeyPressed]
  refine ⟨rfl, ?_, ?_, ?_⟩
  · unfold SimpleSamplerAudioProcessorEditor.pianoKeyReleased
    simp only [hrec]
    rw [if_pos hnote]
  · unfold SimpleSamplerAudioProcessorEditor.pianoKeyReleased
    simp only [hrec]
    rw [if_pos hnote]
    simp
  · intro ed0 h0
    unfold SimpleSamplerAudioProcessorEditor.pianoKeyReleased
    simp only [h0]
    exact ⟨rfl, rfl⟩

/-- Witness of C18: key C pressed on the fresh editor at octave 4, the octave
raised twice, the key released: note-on 60, then note-off 60. -/
theorem release_matches_press_witness :
    (SimpleSamplerAudioProcessorEditor.ctor.pianoKeyPressed demoProcessor 0).2
        = demoProcessor.addNoteOn 60 (4 / 5)
      ∧ (((SimpleSamplerAudioProcessorEditor.ctor.pianoKeyPressed demoProcessor 0).1.octaveClicks
          [OctaveClick.up, OctaveClick.up]).pianoKeyReleased demoProcessor 0).2
          = demoProcessor.addNoteOff 60 :=
  ⟨(release_matches_press SimpleSamplerAudioProcessorEditor.ctor (by decide) 0 demoProcessor
      demoProcessor [OctaveClick.up, OctaveClick.up]).1,
    (release_matches_press SimpleSamplerAudioProcessorEditor.ctor (by decide) 0 demoProcessor
      demoProcessor [OctaveClick.up, OctaveClick.up]).2.1⟩

end EditorTheorems

section SplitTheorems

variable {E : Type} [Envelope E]

theorem renderLoop_succ (ps : SamplerSound) (inL : List ℚ) (inR : Option (List ℚ)) (n : Nat)
    (idx : Int) (v : SamplerVoice E) (out : AudioBuffer) :
    SamplerVoice.renderLoop ps inL inR (n + 1) idx v out
      = match SamplerVoice.renderFrame ps inL inR v out idx with
        | none => none
        | some (v1, out1, true) => some (v1, out1)
        | some (v1, out1, false) => SamplerVoice.renderLoop ps inL inR n (idx + 1) v1 out1 :=
  rfl

theorem renderLoop_sound (ps : SamplerSound) (inL : List ℚ) (inR : Option (List ℚ)) :
    ∀ (n : Nat) (idx : Int) (v v1 : SamplerVoice E) (out out1 : AudioBuffer),
      SamplerVoice.renderLoop ps inL inR n idx v out = some (v1, out1) →
      v1.currentlyPlayingSound = none ∨ v1.currentlyPlayingSound = v.currentlyPlayingSound := by
  intro n
  induction n with
  | zero =>
    intro idx v v1 out out1 h
    simp only [SamplerVoice.renderLoop, Option.some.injEq, Prod.mk.injEq] at h
    rw [h.1]
    exact Or.inr rfl
  | succ n ih =>
    intro idx v v1 out out1 h
    rw [renderLoop_succ] at h
    cases hf : SamplerVoice.renderFrame ps inL inR v out idx with
    | none => simp [hf] at h
    | some res =>
      obtain ⟨v2, out2, st⟩ := res
      obtain ⟨_, _, _, _, _, hcase⟩ := renderFrame_inv hf
      rw [hf] at h
      rcases hcase with ⟨rfl, _, hv2⟩ | ⟨rfl, _, hv2⟩
      · simp only [Option.some.injEq, Prod.mk.injEq] at h
        rw [← h.1, hv2]
        exact Or.inl (stopNote_hard_sound v.advance 0).1
      · simp only at h
        subst hv2
        exact ih (idx + 1) v.advance v1 out2 out1 h

/-- The loop over `n + m` passes is the loop over `n` passes followed, unless the
voice was stopped, by the loop over `m` passes from output frame `idx + n`. -/
theorem renderLoop_add (ps : SamplerSound) (inL : List ℚ) (inR : Option (List ℚ)) (m : Nat) :
    ∀ (n : Nat) (idx : Int) (v : SamplerVoice E) (out : AudioBuffer),
      v.currentlyPlayingSound = some ps →
      SamplerVoice.renderLoop ps inL inR (n + m) idx v out
        = (SamplerVoice.renderLoop ps inL inR n idx v out).bind fun r =>
            match r.1.currentlyPlayingSound with
            | none => some r
            | some _ => SamplerVoice.renderLoop ps inL inR m (idx + (n : Int)) r.1 r.2 := by
  intro n
  induction n with
  | zero =>
    intro idx v out hs
    simp only [Nat.zero_add, SamplerVoice.renderLoop, Option.some_bind, hs, Nat.cast_zero,
      add_zero]
  | succ n ih =>
    intro idx v out hs
    have hnm : n + 1 + m = (n + m) + 1 := by omega
    rw [hnm, renderLoop_succ, renderLoop_succ]
    cases hf : SamplerVoice.renderFrame ps inL inR v out idx with
    | none => rfl
    | some res =>
      obtain ⟨v2, out2, st⟩ := res
      obtain ⟨_, _, _, _, _, hcase⟩ := renderFrame_inv hf
      rcases hcase with ⟨rfl, _, hv2⟩ | ⟨rfl, _, hv2⟩
      · have hnone : v2.currentlyPlayingSound = none := by
          rw [hv2]
          exact (stopNote_hard_sound v.advance 0).1
        simp only [Option.some_bind, hnone]
      · subst hv2
        simp only
        rw [ih (idx + 1) v.advance out2 hs]
        have hidx : idx + 1 + (n : Int) = idx + ((n + 1 : Nat) : Int) := by
          push_cast; ring
        rw [hidx]

/-- C19: for every voice, output buffer, start frame `s` and frame counts `n` and
`m`, one block of `n + m` frames at `s` gives the same result (voice state and
output buffer, or the same failure) as a block of `n` frames at `s` followed by
a block of `m` frames at `s + n`; this includes a voice that is stopped at the
end of the sample in either part. -/
theorem renderNextBlock_split (v : SamplerVoice E) (out : AudioBuffer) (s : Int) (n m : Nat) :
    v.renderNextBlock out s ((n + m : Nat) : Int)
      = (v.renderNextBlock out s (n : Int)).bind fun r =>
          r.1.renderNextBlock r.2 (s + (n : Int)) (m : Int) := by
  unfold SamplerVoice.renderNextBlock
  cases hs : v.currentlyPlayingSound with
  | none => simp [hs]
  | some ps =>
    simp only
    cases hd : ps.data with
    | none => rfl
    | some data =>
      simp only [Int.toNat_ofNat]
      rw [renderLoop_add ps _ _ m n s v out hs]
      cases hloop : SamplerVoice.renderLoop ps (data.getD 0 [])
          (if data.length > 1 then data[1]? else none) n s v out with
      | none => rfl
      | some r =>
        obtain ⟨v1, out1⟩ := r
        simp only [Option.some_bind]
        rcases renderLoop_sound ps _ _ n s v v1 out out1 hloop with hnone | hsame
        · simp only [hnone]
        · rw [hs] at hsame
          simp only [hsame, hd]

end SplitTheorems

section CountTheorems

variable {E : Type} [Envelope E]

theorem sampleAt_writeFrame_share {out out1 : AudioBuffer} {idx : Int} {l r : ℚ}
    (h : writeFrame out idx l r = some out1) (c : Nat) :
    sampleAt out1 c idx
      = (sampleAt out c idx).map fun y => y + channelShare out.length c l r := by
  rw [sampleAt_writeFrame h]
  simp [channelShare]

/-- The values of the loop: as long as the position has not passed the length,
output frame `j` receives the values read at position `position + j * ratio`,
scaled by the gains and by envelope value `j`. -/
theorem renderLoop_values (ps : SamplerSound) (inL : List ℚ) (inR : Option (List ℚ)) :
    ∀ (n : Nat) (idx : Int) (v v1 : SamplerVoice E) (out out1 : AudioBuffer),
      0 ≤ v.pitchRatio →
      SamplerVoice.renderLoop ps inL inR n idx v out = some (v1, out1) →
      ∀ j : Nat, j < n → v.sourceSamplePosition + (j : ℚ) * v.pitchRatio ≤ ps.length →
        ∃ l r, leftValueAt inL (v.sourceSamplePosition + (j : ℚ) * v.pitchRatio) = some l
          ∧ rightValueAt inR (v.sourceSamplePosition + (j : ℚ) * v.pitchRatio) l = some r
          ∧ ∀ c, sampleAt out1 c (idx + (j : Int))
              = (sampleAt out c (idx + (j : Int))).map fun y =>
                  y + channelShare out.length c (l * (v.lgain * envelopeValue v.adsr j))
                    (r * (v.rgain * envelopeValue v.adsr j)) := by
  intro n
  induction n with
  | zero =>
    intro idx v v1 out out1 _ _ j hj
    omega
  | succ n ih =>
    intro idx v v1 out out1 hratio h j hj hle
    rw [renderLoop_succ] at h
    cases hf : SamplerVoice.renderFrame ps inL inR v out idx with
    | none => simp [hf] at h
    | some res =>
      obtain ⟨v2, out2, st⟩ := res
      obtain ⟨l, r, hl, hr, hw, hcase⟩ := renderFrame_inv hf
      rw [hf] at h
      cases j with
      | zero =>
        refine ⟨l, r, by simpa [leftValueAt] using hl, by simpa [rightValueAt] using hr, ?_⟩
        intro c
        have hframe := sampleAt_writeFrame_share hw c
        simp only [Nat.cast_zero, add_zero]
        rcases hcase with ⟨rfl, _, _⟩ | ⟨rfl, _, hv2⟩
        · simp only [Option.some.injEq, Prod.mk.injEq] at h
          rw [← h.2]
          exact hframe
        · simp only at h
          rw [renderLoop_before ps inL inR n (idx + 1) v2 v1 out2 out1 h c idx (by omega)]
          exact hframe
      | succ j =>
        rcases hcase with ⟨rfl, hgt, _⟩ | ⟨rfl, _, hv2⟩
        · exfalso
          have h1 : v.sourceSamplePosition + v.pitchRatio
              ≤ v.sourceSamplePosition + ((j + 1 : Nat) : ℚ) * v.pitchRatio := by
            have hj0 : (0 : ℚ) ≤ (j : ℚ) := Nat.cast_nonneg j
            push_cast
            nlinarith
          linarith
        · simp only at h
          subst hv2
          have hpos : v.advance.sourceSamplePosition + (j : ℚ) * v.advance.pitchRatio
              = v.sourceSamplePosition + ((j + 1 : Nat) : ℚ) * v.pitchRatio := by
            show v.sourceSamplePosition + v.pitchRatio + (j : ℚ) * v.pitchRatio = _
            push_cast
            ring
          have hidx : idx + ((j + 1 : Nat) : Int) = idx + 1 + (j : Int) := by
            push_cast; ring
          obtain ⟨l2, r2, hl2, hr2, hval⟩ := ih (idx + 1) v.advance v1 out2 out1 hratio h j
            (by omega) (by rw [hpos]; exact hle)
          rw [hpos] at hl2 hr2
          refine ⟨l2, r2, hl2, hr2, ?_⟩
          intro c
          rw [hidx, hval c, sampleAt_writeFrame_ne hw c (by omega), writeFrame_length hw]
          rfl

/-- The envelope behind the stop: when the position passes the length after
frame `j` and not before, the envelope has been read `j + 1` times and then
reset. -/
theorem renderLoop_stop_envelope (ps : SamplerSound) (inL : List ℚ) (inR : Option (List ℚ)) :
    ∀ (n : Nat) (idx : Int) (v v1 : SamplerVoice E) (out out1 : AudioBuffer),
      0 ≤ v.pitchRatio →
      SamplerVoice.renderLoop ps inL inR n idx v out = some (v1, out1) →
      ∀ j : Nat, j < n → v.sourceSamplePosition + (j : ℚ) * v.pitchRatio ≤ ps.length →
        v.sourceSamplePosition + ((j : ℚ) + 1) * v.pitchRatio > ps.length →
        v1.adsr = Envelope.reset (envelopeAfter v.adsr (j + 1)) := by
  intro n
  induction n with
  | zero =>
    intro idx v v1 out out1 _ _ j hj
    omega
  | succ n ih =>
    intro idx v v1 out out1 hratio h j hj hle hgt
    rw [renderLoop_succ] at h
    cases hf : SamplerVoice.renderFrame ps inL inR v out idx with
    | none => simp [hf] at h
    | some res =>
      obtain ⟨v2, out2, st⟩ := res
      obtain ⟨_, _, _, _, _, hcase⟩ := renderFrame_inv hf
      rw [hf] at h
      have hj0 : (0 : ℚ) ≤ (j : ℚ) := Nat.cast_nonneg j
      rcases hcase with ⟨rfl, hstop, hv2⟩ | ⟨rfl, hcont, hv2⟩
      · simp only [Option.some.injEq, Prod.mk.injEq] at h
        cases j with
        | zero =>
          rw [← h.1, hv2]
          rfl
        | succ j =>
          exfalso
          have hj1 : (0 : ℚ) ≤ (j : ℚ) := Nat.cast_nonneg j
          push_cast at hle
          nlinarith
      · simp only at h
        subst hv2
        cases j with
        | zero =>
          exfalso
          apply hcont
          simpa using hgt
        | succ j =>
          have hpos : v.advance.sourceSamplePosition + (j : ℚ) * v.advance.pitchRatio
              = v.sourceSamplePosition + ((j + 1 : Nat) : ℚ) * v.pitchRatio := by
            show v.sourceSamplePosition + v.pitchRatio + (j : ℚ) * v.pitchRatio = _
            push_cast
            ring
          have hpos2 : v.advance.sourceSamplePosition + ((j : ℚ) + 1) * v.advance.pitchRatio
              = v.sourceSamplePosition + (((j + 1 : Nat) : ℚ) + 1) * v.pitchRatio := by
            show v.sourceSamplePosition + v.pitchRatio + ((j : ℚ) + 1) * v.pitchRatio = _
            push_cast
            ring
          have := ih (idx + 1) v.advance v1 out2 out1 hratio h j (by omega)
            (by rw [hpos]; exact hle) (by rw [hpos2]; exact hgt)
          rw [this]
          rfl

end CountTheorems

section FrameCountTheorems

variable {E : Type} [Envelope E]

theorem floor_div_bounds {len : Int} {r : ℚ} (hlen : 0 ≤ len) (hr : 0 < r) :
    0 ≤ ⌊(len : ℚ) / r⌋
      ∧ ((⌊(len : ℚ) / r⌋ : Int) : ℚ) * r ≤ len
      ∧ (len : ℚ) < (((⌊(len : ℚ) / r⌋ : Int) : ℚ) + 1) * r
      ∧ ∀ k : Nat, (k : ℚ) * r ≤ len ↔ (k : Int) < ⌊(len : ℚ) / r⌋ + 1 := by
  have hl : (0 : ℚ) ≤ len := by exact_mod_cast hlen
  refine ⟨Int.floor_nonneg.mpr (div_nonneg hl (le_of_lt hr)), ?_, ?_, ?_⟩
  · exact (le_div_iff₀ hr).mp (Int.floor_le _)
  · exact (div_lt_iff₀ hr).mp (Int.lt_floor_add_one _)
  · intro k
    rw [Int.lt_add_one_iff, Int.le_floor, ← le_div_iff₀ hr]
    simp

/-- The frame count with the exact position: a voice at position 0 with pitch
ratio `r > 0` on a well-formed sound of length `L`, rendered by
`renderNextBlock` without a note-off into a block of at least
`floor (L / r) + 1` frames.  The call returns with the voice hard-stopped and
its note cleared; the envelope has been read exactly `floor (L / r) + 1` times;
frame `k` is rendered, from the values at position `k * r`, for every `k` with
`k * r ≤ L`, which are the `k < floor (L / r) + 1`; no frame behind them is
changed.  At ratio 1 these are `L + 1` frames and the left value of the last one
is the data frame at index `L`. -/
theorem frames_rendered_until_stop (ps : SamplerSound) (hwf : ps.WellFormed)
    (data : AudioBuffer) (hd : ps.data = some data) (v : SamplerVoice E)
    (hs : v.currentlyPlayingSound = some ps) (hpos : v.sourceSamplePosition = 0)
    (hr : 0 < v.pitchRatio) (out : AudioBuffer) (s : Int) (numSamples : Nat)
    (hv : ValidRange out s (numSamples : Int))
    (henough : ⌊(ps.length : ℚ) / v.pitchRatio⌋ + 1 ≤ (numSamples : Int)) :
    ∃ v1 out1, v.renderNextBlock out s (numSamples : Int) = some (v1, out1)
      ∧ v1.currentlyPlayingNote = -1 ∧ v1.currentlyPlayingSound = none
      ∧ v1.adsr = Envelope.reset
          (envelopeAfter v.adsr (⌊(ps.length : ℚ) / v.pitchRatio⌋ + 1).toNat)
      ∧ (∀ k : Nat, (k : ℚ) * v.pitchRatio ≤ ps.length
          ↔ (k : Int) < ⌊(ps.length : ℚ) / v.pitchRatio⌋ + 1)
      ∧ (∀ k : Nat, (k : ℚ) * v.pitchRatio ≤ ps.length →
          ∃ l r, leftValueAt (data.getD 0 []) ((k : ℚ) * v.pitchRatio) = some l
            ∧ rightValueAt (if data.length > 1 then data[1]? else none)
                ((k : ℚ) * v.pitchRatio) l = some r
            ∧ ∀ c, sampleAt out1 c (s + (k : Int))
                = (sampleAt out c (s + (k : Int))).map fun y =>
                    y + channelShare out.length c (l * (v.lgain * envelopeValue v.adsr k))
                      (r * (v.rgain * envelopeValue v.adsr k)))
      ∧ (∀ c i, (i < s ∨ s + ⌊(ps.length : ℚ) / v.pitchRatio⌋ < i) →
          sampleAt out1 c i = sampleAt out c i)
      ∧ (v.pitchRatio = 1 →
          ⌊(ps.length : ℚ) / v.pitchRatio⌋ + 1 = ps.length + 1
            ∧ leftValueAt (data.getD 0 []) (ps.length : ℚ)
                = some ((data.getD 0 []).getD ps.length.toNat 0)) := by
  obtain ⟨hq0, hq1, hq2, hiff⟩ := floor_div_bounds hwf.2.1 hr
  have hlen : (0 : ℚ) ≤ ps.length := by exact_mod_cast hwf.2.1
  have ht : v.Tracks ps := ⟨le_of_lt hr, Or.inr ⟨hs, by rw [hpos], by rw [hpos]; exact hlen⟩⟩
  obtain ⟨v1, out1, hrender, _, _, hloc, hstop⟩ := renderNextBlock_ok hwf ht hv
  have hj0 : ((⌊(ps.length : ℚ) / v.pitchRatio⌋.toNat : Nat) : Int)
      = ⌊(ps.length : ℚ) / v.pitchRatio⌋ := Int.toNat_of_nonneg hq0
  have hj0q : ((⌊(ps.length : ℚ) / v.pitchRatio⌋.toNat : Nat) : ℚ)
      = ((⌊(ps.length : ℚ) / v.pitchRatio⌋ : Int) : ℚ) := by
    have h := congrArg (fun z : Int => (z : ℚ)) hj0
    simp only [Int.cast_natCast] at h
    exact h
  have hlt : ⌊(ps.length : ℚ) / v.pitchRatio⌋.toNat < numSamples := by omega
  have hloop : SamplerVoice.renderLoop ps (data.getD 0 [])
      (if data.length > 1 then data[1]? else none) numSamples s v out = some (v1, out1) := by
    simpa [SamplerVoice.renderNextBlock, hs, hd] using hrender
  obtain ⟨t1, t2, t3⟩ := hstop ⌊(ps.length : ℚ) / v.pitchRatio⌋.toNat (by omega)
    (by rw [hpos, hj0q, zero_add]; exact hq2)
  have henv := renderLoop_stop_envelope ps _ _ numSamples s v v1 out out1 (le_of_lt hr) hloop
    ⌊(ps.length : ℚ) / v.pitchRatio⌋.toNat hlt (by rw [hpos, hj0q, zero_add]; exact hq1)
    (by rw [hpos, hj0q, zero_add]; exact hq2)
  have hcount : (⌊(ps.length : ℚ) / v.pitchRatio⌋ + 1).toNat
      = ⌊(ps.length : ℚ) / v.pitchRatio⌋.toNat + 1 := by omega
  refine ⟨v1, out1, hrender, t2, t1, by rw [hcount]; exact henv, hiff, ?_, ?_, ?_⟩
  · intro k hk
    have hk2 : k < numSamples := by
      have := (hiff k).mp hk
      omega
    have := renderLoop_values ps _ _ numSamples s v v1 out out1 (le_of_lt hr) hloop k hk2
      (by rw [hpos, zero_add]; exact hk)
    rw [hpos, zero_add] at this
    exact this
  · intro c i hi
    rcases hi with hi | hi
    · exact hloc c i (Or.inl hi)
    · exact t3 c i (by omega)
  · intro hone
    constructor
    · rw [hone, div_one, Int.floor_intCast]
    · obtain ⟨hL, _⟩ := wellFormed_channels hwf hd
      have hnat : ((ps.length.toNat : Nat) : Int) = ps.length := Int.toNat_of_nonneg hwf.2.1
      have hcast : (ps.length : ℚ) = ((ps.length.toNat : Nat) : ℚ) := by
        have h := congrArg (fun z : Int => (z : ℚ)) hnat
        simp only [Int.cast_natCast] at h
        exact h.symm
      have hnn : (0 : Int) ≤ (ps.length.toNat : Nat) := Int.natCast_nonneg _
      have hin : ((ps.length.toNat : Nat) : Int) + 1 < ((data.getD 0 []).length : Int) := by
        omega
      obtain ⟨x, hx⟩ := interpolate_some hnn hin 0 1
      unfold leftValueAt
      rw [hcast, toInt_natCast]
      simp only [Int.cast_natCast, sub_self, sub_zero]
      rw [hx, interpolate_unity hx]

end FrameCountTheorems

/-! ### The loop with a rounded position -/

section RoundedTheorems

variable {E : Type} [Envelope E]

theorem roundHalfEven_of_near {y : ℚ} {m : Int} (h : |y - m| < 1 / 2) : roundHalfEven y = m := by
  have h1 := Int.floor_le y
  have h2 := Int.lt_floor_add_one y
  rw [abs_lt] at h
  obtain ⟨ha, hb⟩ := h
  unfold roundHalfEven
  split
  · rename_i hlt
    have e1 : ((⌊y⌋ : Int) : ℚ) < (m : ℚ) + 1 := by linarith
    have e2 : (m : ℚ) < ((⌊y⌋ : Int) : ℚ) + 1 := by linarith
    have e3 : ⌊y⌋ < m + 1 := by exact_mod_cast e1
    have e4 : m < ⌊y⌋ + 1 := by exact_mod_cast e2
    omega
  · rename_i hge
    split
    · rename_i hgt
      have e1 : ((⌊y⌋ : Int) : ℚ) + 1 < (m : ℚ) + 1 := by linarith
      have e2 : (m : ℚ) < ((⌊y⌋ : Int) : ℚ) + 1 + 1 := by linarith
      have e3 : ⌊y⌋ + 1 < m + 1 := by exact_mod_cast e1
      have e4 : m < ⌊y⌋ + 1 + 1 := by exact_mod_cast e2
      omega
    · rename_i hle
      exfalso
      have heq : y - ⌊y⌋ = 1 / 2 := le_antisymm (not_lt.mp hle) (not_lt.mp hge)
      have e1 : ((⌊y⌋ : Int) : ℚ) < (m : ℚ) := by linarith
      have e2 : (m : ℚ) < ((⌊y⌋ : Int) : ℚ) + 1 := by linarith
      have e3 : ⌊y⌋ < m := by exact_mod_cast e1
      have e4 : m < ⌊y⌋ + 1 := by exact_mod_cast e2
      omega

theorem roundHalfEven_of_tie {y : ℚ} {m : Int} (h : |y - m| = 1 / 2) (hm : m % 2 = 0) :
    roundHalfEven y = m := by
  rcases (abs_eq (by norm_num : (0 : ℚ) ≤ 1 / 2)).mp h with h1 | h1
  · have hf : ⌊y⌋ = m := by
      rw [Int.floor_eq_iff]
      constructor <;> linarith
    unfold roundHalfEven
    rw [hf]
    have e1 : ¬ y - (m : ℚ) < 1 / 2 := by linarith
    have e2 : ¬ 1 / 2 < y - (m : ℚ) := by linarith
    rw [if_neg e1, if_neg e2, if_pos hm]
  · have hf : ⌊y⌋ = m - 1 := by
      rw [Int.floor_eq_iff]
      push_cast
      constructor <;> linarith
    unfold roundHalfEven
    rw [hf]
    have e1 : ¬ y - ((m - 1 : Int) : ℚ) < 1 / 2 := by push_cast; linarith
    have e2 : ¬ 1 / 2 < y - ((m - 1 : Int) : ℚ) := by push_cast; linarith
    have e3 : ¬ (m - 1) % 2 = 0 := by omega
    rw [if_neg e1, if_neg e2, if_neg e3]
    ring

/-- A rational in the binade of exponent `e` is rounded on the grid of the
multiples of `2 ^ e`. -/
theorem roundDouble_scaled {x : ℚ} (e : Int) (hlo : 2 ^ 52 * (2 : ℚ) ^ e ≤ x)
    (hhi : x < 2 ^ 53 * (2 : ℚ) ^ e) :
    roundDouble x = ((roundHalfEven (x / (2 : ℚ) ^ e) : Int) : ℚ) * (2 : ℚ) ^ e := by
  have hpe : (0 : ℚ) < (2 : ℚ) ^ e := by positivity
  have hx : 0 < x := lt_of_lt_of_le (by positivity) hlo
  have habs : |x| = x := abs_of_pos hx
  have hlog : Int.log 2 x = e + 52 := by
    apply le_antisymm
    · have : Int.log 2 x < e + 52 + 1 := by
        rw [← Int.lt_zpow_iff_log_lt (by norm_num) hx]
        have : ((2 : ℕ) : ℚ) ^ (e + 52 + 1) = 2 ^ 53 * (2 : ℚ) ^ e := by
          rw [show e + 52 + 1 = 53 + e by ring, zpow_add₀ (by norm_num)]
          norm_num
        rw [this]
        exact hhi
      omega
    · rw [← Int.zpow_le_iff_le_log (by norm_num) hx]
      have : ((2 : ℕ) : ℚ) ^ (e + 52) = 2 ^ 52 * (2 : ℚ) ^ e := by
        rw [show e + 52 = 52 + e by ring, zpow_add₀ (by norm_num)]
        norm_num
      rw [this]
      exact hlo
  unfold roundDouble
  rw [if_neg (ne_of_gt hx)]
  simp only [habs, hlog, if_neg (not_lt.mpr (le_of_lt hx))]
  rw [show e + 52 - 52 = e by ring]
  ring

theorem abs_scaled_sub (x : ℚ) (m e : Int) :
    |x / (2 : ℚ) ^ e - m| = |x - m * (2 : ℚ) ^ e| / (2 : ℚ) ^ e := by
  have hpe : (0 : ℚ) < (2 : ℚ) ^ e := by positivity
  have : x / (2 : ℚ) ^ e - m = (x - m * (2 : ℚ) ^ e) / (2 : ℚ) ^ e := by
    field_simp
    ring
  rw [this, abs_div, abs_of_pos hpe]

/-- The value of `roundDouble`: a rational in the binade of exponent `e` that is
nearer than half a unit in the last place to `m * 2 ^ e` rounds to it. -/
theorem roundDouble_eq {x : ℚ} (m e : Int) (hlo : 2 ^ 52 * (2 : ℚ) ^ e ≤ x)
    (hhi : x < 2 ^ 53 * (2 : ℚ) ^ e) (hnear : |x - m * (2 : ℚ) ^ e| < (2 : ℚ) ^ e / 2) :
    roundDouble x = m * (2 : ℚ) ^ e := by
  have hpe : (0 : ℚ) < (2 : ℚ) ^ e := by positivity
  have h2 : |x / (2 : ℚ) ^ e - m| < 1 / 2 := by
    rw [abs_scaled_sub, div_lt_iff₀ hpe]
    linarith
  rw [roundDouble_scaled e hlo hhi, roundHalfEven_of_near h2]

/-- The value of `roundDouble` on a tie: a rational in the binade of exponent
`e` that lies half a unit in the last place from `m * 2 ^ e` with `m` even
rounds to it. -/
theorem roundDouble_tie {x : ℚ} (m e : Int) (hlo : 2 ^ 52 * (2 : ℚ) ^ e ≤ x)
    (hhi : x < 2 ^ 53 * (2 : ℚ) ^ e) (htie : |x - m * (2 : ℚ) ^ e| = (2 : ℚ) ^ e / 2)
    (hm : m % 2 = 0) :
    roundDouble x = m * (2 : ℚ) ^ e := by
  have hpe : (0 : ℚ) < (2 : ℚ) ^ e := by positivity
  have h2 : |x / (2 : ℚ) ^ e - m| = 1 / 2 := by
    rw [abs_scaled_sub, htie]
    field_simp
    ring
  rw [roundDouble_scaled e hlo hhi, roundHalfEven_of_tie h2 hm]

theorem positionAfter_succ (round : ℚ → ℚ) (r : ℚ) : ∀ (k : Nat) (pos : ℚ),
    positionAfter round r pos (k + 1) = round (positionAfter round r pos k + r) := by
  intro k
  induction k with
  | zero =>
    intro pos
    rfl
  | succ k ih =>
    intro pos
    show positionAfter round r (round (pos + r)) (k + 1) = _
    rw [ih]
    rfl

theorem renderFrameRounded_id (ps : SamplerSound) (inL : List ℚ) (inR : Option (List ℚ))
    (v : SamplerVoice E) (out : AudioBuffer) (idx : Int) :
    SamplerVoice.renderFrameRounded id ps inL inR v out idx
      = SamplerVoice.renderFrame ps inL inR v out idx :=
  rfl

theorem renderLoopRounded_succ (round : ℚ → ℚ) (ps : SamplerSound) (inL : List ℚ)
    (inR : Option (List ℚ)) (n : Nat) (idx : Int) (v : SamplerVoice E) (out : AudioBuffer) :
    SamplerVoice.renderLoopRounded round ps inL inR (n + 1) idx v out
      = match SamplerVoice.renderFrameRounded round ps inL inR v out idx with
        | none => none
        | some (v1, out1, true) => some (v1, out1)
        | some (v1, out1, false) =>
          SamplerVoice.renderLoopRounded round ps inL inR n (idx + 1) v1 out1 :=
  rfl

theorem renderLoopRounded_id (ps : SamplerSound) (inL : List ℚ) (inR : Option (List ℚ)) :
    ∀ (n : Nat) (idx : Int) (v : SamplerVoice E) (out : AudioBuffer),
      SamplerVoice.renderLoopRounded id ps inL inR n idx v out
        = SamplerVoice.renderLoop ps inL inR n idx v out := by
  intro n
  induction n with
  | zero =>
    intro idx v out
    rfl
  | succ n ih =>
    intro idx v out
    rw [renderLoopRounded_succ, renderLoop_succ, renderFrameRounded_id]
    cases hf : SamplerVoice.renderFrame ps inL inR v out idx with
    | none => rfl
    | some res =>
      obtain ⟨v2, out2, st⟩ := res
      cases st with
      | true => rfl
      | false => exact ih (idx + 1) v2 out2

theorem renderNextBlockRounded_id (v : SamplerVoice E) (out : AudioBuffer) (s n : Int) :
    v.renderNextBlockRounded id out s n = v.renderNextBlock out s n := by
  unfold SamplerVoice.renderNextBlockRounded SamplerVoice.renderNextBlock
  cases v.currentlyPlayingSound with
  | none => rfl
  | some ps =>
    simp only
    cases ps.data with
    | none => rfl
    | some data => exact renderLoopRounded_id ps _ _ _ _ _ _

theorem renderFrameRounded_inv {round : ℚ → ℚ} {ps : SamplerSound} {inL : List ℚ}
    {inR : Option (List ℚ)} {v v1 : SamplerVoice E} {out out1 : AudioBuffer} {idx : Int}
    {st : Bool}
    (h : SamplerVoice.renderFrameRounded round ps inL inR v out idx = some (v1, out1, st)) :
    ∃ l r,
      interpolate inL (toInt v.sourceSamplePosition)
        (v.sourceSamplePosition - toInt v.sourceSamplePosition)
        (1 - (v.sourceSamplePosition - toInt v.sourceSamplePosition)) = some l
      ∧ rightValue inR (toInt v.sourceSamplePosition)
        (v.sourceSamplePosition - toInt v.sourceSamplePosition)
        (1 - (v.sourceSamplePosition - toInt v.sourceSamplePosition)) l = some r
      ∧ writeFrame out idx (l * (v.lgain * (Envelope.getNextSample v.adsr).1))
          (r * (v.rgain * (Envelope.getNextSample v.adsr).1)) = some out1
      ∧ ((st = true ∧ round (v.sourceSamplePosition + v.pitchRatio) > ps.length
            ∧ v1 = (v.advanceRounded round).stopNote 0 false)
          ∨ (st = false ∧ ¬ round (v.sourceSamplePosition + v.pitchRatio) > ps.length
            ∧ v1 = v.advanceRounded round)) := by
  unfold SamplerVoice.renderFrameRounded at h
  simp only at h
  split at h
  · simp at h
  · rename_i l hl
    split at h
    · simp at h
    · rename_i r hr
      split at h
      · simp at h
      · rename_i o ho
        split at h
        · rename_i hgt
          simp only [Option.some.injEq, Prod.mk.injEq] at h
          obtain ⟨e1, e2, e3⟩ := h
          subst e2
          exact ⟨l, r, hl, hr, ho, Or.inl ⟨e3.symm, hgt, e1.symm⟩⟩
        · rename_i hgt
          simp only [Option.some.injEq, Prod.mk.injEq] at h
          obtain ⟨e1, e2, e3⟩ := h
          subst e2
          exact ⟨l, r, hl, hr, ho, Or.inr ⟨e3.symm, hgt, e1.symm⟩⟩

theorem renderFrameRounded_some {round : ℚ → ℚ} {ps : SamplerSound} {inL : List ℚ}
    {inR : Option (List ℚ)} {v : SamplerVoice E} {out out1 : AudioBuffer} {idx : Int} {l r : ℚ}
    (hl : interpolate inL (toInt v.sourceSamplePosition)
        (v.sourceSamplePosition - toInt v.sourceSamplePosition)
        (1 - (v.sourceSamplePosition - toInt v.sourceSamplePosition)) = some l)
    (hr : rightValue inR (toInt v.sourceSamplePosition)
        (v.sourceSamplePosition - toInt v.sourceSamplePosition)
        (1 - (v.sourceSamplePosition - toInt v.sourceSamplePosition)) l = some r)
    (hw : writeFrame out idx (l * (v.lgain * (Envelope.getNextSample v.adsr).1))
          (r * (v.rgain * (Envelope.getNextSample v.adsr).1)) = some out1) :
    SamplerVoice.renderFrameRounded round ps inL inR v out idx
      = some (if round (v.sourceSamplePosition + v.pitchRatio) > ps.length
          then ((v.advanceRounded round).stopNote 0 false, out1, true)
          else (v.advanceRounded round, out1, false)) := by
  unfold SamplerVoice.renderFrameRounded
  simp only [hl, hr, hw]
  split
  · rfl
  · rfl

end RoundedTheorems

section RoundedLoopTheorems

variable {E : Type} [Envelope E]

theorem renderLoopRounded_before (round : ℚ → ℚ) (ps : SamplerSound) (inL : List ℚ)
    (inR : Option (List ℚ)) :
    ∀ (n : Nat) (idx : Int) (v v1 : SamplerVoice E) (out out1 : AudioBuffer),
      SamplerVoice.renderLoopRounded round ps inL inR n idx v out = some (v1, out1) →
      out1.length = out.length ∧ ∀ c i, i < idx → sampleAt out1 c i = sampleAt out c i := by
  intro n
  induction n with
  | zero =>
    intro idx v v1 out out1 h
    simp only [SamplerVoice.renderLoopRounded, Option.some.injEq, Prod.mk.injEq] at h
    rw [h.2]
    exact ⟨rfl, fun _ _ _ => rfl⟩
  | succ n ih =>
    intro idx v v1 out out1 h
    rw [renderLoopRounded_succ] at h
    cases hf : SamplerVoice.renderFrameRounded round ps inL inR v out idx with
    | none => simp [hf] at h
    | some res =>
      obtain ⟨v2, out2, st⟩ := res
      obtain ⟨_, _, _, _, hw, _⟩ := renderFrameRounded_inv hf
      rw [hf] at h
      cases st with
      | true =>
        simp only [Option.some.injEq, Prod.mk.injEq] at h
        rw [← h.2]
        exact ⟨writeFrame_length hw, fun c i hi => sampleAt_writeFrame_ne hw c (by omega)⟩
      | false =>
        simp only at h
        obtain ⟨hlen, hbefore⟩ := ih (idx + 1) v2 v1 out2 out1 h
        refine ⟨by rw [hlen, writeFrame_length hw], ?_⟩
        intro c i hi
        rw [hbefore c i (by omega)]
        exact sampleAt_writeFrame_ne hw c (by omega)

/-- The values of the loop: a frame `j` of the block before which the position
has not passed the length receives the values read at the position after `j`
passes, scaled by the gains and by envelope value `j`. -/
theorem renderLoopRounded_values (round : ℚ → ℚ) (ps : SamplerSound) (inL : List ℚ)
    (inR : Option (List ℚ)) :
    ∀ (n : Nat) (idx : Int) (v v1 : SamplerVoice E) (out out1 : AudioBuffer),
      SamplerVoice.renderLoopRounded round ps inL inR n idx v out = some (v1, out1) →
      ∀ j : Nat, j < n →
        (∀ i : Nat, i < j →
          positionAfter round v.pitchRatio v.sourceSamplePosition (i + 1) ≤ ps.length) →
        ∃ l r,
          leftValueAt inL (positionAfter round v.pitchRatio v.sourceSamplePosition j) = some l
          ∧ rightValueAt inR (positionAfter round v.pitchRatio v.sourceSamplePosition j) l
              = some r
          ∧ ∀ c, sampleAt out1 c (idx + (j : Int))
              = (sampleAt out c (idx + (j : Int))).map fun y =>
                  y + channelShare out.length c (l * (v.lgain * envelopeValue v.adsr j))
                    (r * (v.rgain * envelopeValue v.adsr j)) := by
  intro n
  induction n with
  | zero =>
    intro idx v v1 out out1 _ j hj
    omega
  | succ n ih =>
    intro idx v v1 out out1 h j hj hle
    rw [renderLoopRounded_succ] at h
    cases hf : SamplerVoice.renderFrameRounded round ps inL inR v out idx with
    | none => simp [hf] at h
    | some res =>
      obtain ⟨v2, out2, st⟩ := res
      obtain ⟨l, r, hl, hr, hw, hcase⟩ := renderFrameRounded_inv hf
      rw [hf] at h
      cases j with
      | zero =>
        refine ⟨l, r, hl, hr, ?_⟩
        intro c
        have hframe := sampleAt_writeFrame_share hw c
        simp only [Nat.cast_zero, add_zero]
        rcases hcase with ⟨rfl, _, _⟩ | ⟨rfl, _, hv2⟩
        · simp only [Option.some.injEq, Prod.mk.injEq] at h
          rw [← h.2]
          exact hframe
        · simp only at h
          rw [(renderLoopRounded_before round ps inL inR n (idx + 1) v2 v1 out2 out1 h).2 c idx
            (by omega)]
          exact hframe
      | succ j =>
        rcases hcase with ⟨rfl, hgt, _⟩ | ⟨rfl, _, hv2⟩
        · exfalso
          have h1 := hle 0 (by omega)
          have h2 : positionAfter round v.pitchRatio v.sourceSamplePosition (0 + 1)
              = round (v.sourceSamplePosition + v.pitchRatio) := rfl
          rw [h2] at h1
          exact absurd hgt (not_lt.mpr h1)
        · simp only at h
          subst hv2
          have hidx : idx + ((j + 1 : Nat) : Int) = idx + 1 + (j : Int) := by
            push_cast; ring
          obtain ⟨l2, r2, hl2, hr2, hval⟩ := ih (idx + 1) (v.advanceRounded round) v1 out2 out1 h j
            (by omega) (fun i hi => hle (i + 1) (by omega))
          refine ⟨l2, r2, hl2, hr2, ?_⟩
          intro c
          rw [hidx, hval c, sampleAt_writeFrame_ne hw c (by omega), writeFrame_length hw]
          rfl

/-- Nothing behind the block changes, and nothing behind a frame after which the
position has passed the length. -/
theorem renderLoopRounded_after (round : ℚ → ℚ) (ps : SamplerSound) (inL : List ℚ)
    (inR : Option (List ℚ)) :
    ∀ (n : Nat) (idx : Int) (v v1 : SamplerVoice E) (out out1 : AudioBuffer),
      SamplerVoice.renderLoopRounded round ps inL inR n idx v out = some (v1, out1) →
      ∀ c i, (idx + (n : Int) ≤ i
          ∨ ∃ j : Nat, positionAfter round v.pitchRatio v.sourceSamplePosition (j + 1) > ps.length
              ∧ idx + (j : Int) < i) →
        sampleAt out1 c i = sampleAt out c i := by
  intro n
  induction n with
  | zero =>
    intro idx v v1 out out1 h c i _
    simp only [SamplerVoice.renderLoopRounded, Option.some.injEq, Prod.mk.injEq] at h
    rw [h.2]
  | succ n ih =>
    intro idx v v1 out out1 h c i hi
    rw [renderLoopRounded_succ] at h
    cases hf : SamplerVoice.renderFrameRounded round ps inL inR v out idx with
    | none => simp [hf] at h
    | some res =>
      obtain ⟨v2, out2, st⟩ := res
      obtain ⟨_, _, _, _, hw, hcase⟩ := renderFrameRounded_inv hf
      rw [hf] at h
      have hne : i ≠ idx := by
        rcases hi with hi | ⟨j, _, hi⟩
        · push_cast at hi
          omega
        · omega
      rcases hcase with ⟨rfl, _, _⟩ | ⟨rfl, hcont, hv2⟩
      · simp only [Option.some.injEq, Prod.mk.injEq] at h
        rw [← h.2]
        exact sampleAt_writeFrame_ne hw c hne
      · simp only at h
        subst hv2
        rw [ih (idx + 1) (v.advanceRounded round) v1 out2 out1 h c i ?_]
        · exact sampleAt_writeFrame_ne hw c hne
        · rcases hi with hi | ⟨j, hgt, hi⟩
          · left
            push_cast at hi
            omega
          · right
            cases j with
            | zero => exact absurd hgt hcont
            | succ j => exact ⟨j, hgt, by push_cast at hi; omega⟩

/-- The voice behind the stop: when the position passes the length after frame
`j` and not before, the voice has lost its sound and its note, its position
member holds the value that passed the length, and its envelope has been read
`j + 1` times and then reset. -/
theorem renderLoopRounded_stop (round : ℚ → ℚ) (ps : SamplerSound) (inL : List ℚ)
    (inR : Option (List ℚ)) :
    ∀ (n : Nat) (idx : Int) (v v1 : SamplerVoice E) (out out1 : AudioBuffer),
      SamplerVoice.renderLoopRounded round ps inL inR n idx v out = some (v1, out1) →
      ∀ j : Nat, j < n →
        (∀ i : Nat, i < j →
          positionAfter round v.pitchRatio v.sourceSamplePosition (i + 1) ≤ ps.length) →
        positionAfter round v.pitchRatio v.sourceSamplePosition (j + 1) > ps.length →
        v1.currentlyPlayingSound = none ∧ v1.currentlyPlayingNote = -1
          ∧ v1.sourceSamplePosition
              = positionAfter round v.pitchRatio v.sourceSamplePosition (j + 1)
          ∧ v1.pitchRatio = v.pitchRatio
          ∧ v1.adsr = Envelope.reset (envelopeAfter v.adsr (j + 1)) := by
  intro n
  induction n with
  | zero =>
    intro idx v v1 out out1 _ j hj
    omega
  | succ n ih =>
    intro idx v v1 out out1 h j hj hle hgt
    rw [renderLoopRounded_succ] at h
    cases hf : SamplerVoice.renderFrameRounded round ps inL inR v out idx with
    | none => simp [hf] at h
    | some res =>
      obtain ⟨v2, out2, st⟩ := res
      obtain ⟨_, _, _, _, _, hcase⟩ := renderFrameRounded_inv hf
      rw [hf] at h
      rcases hcase with ⟨rfl, hstop, hv2⟩ | ⟨rfl, hcont, hv2⟩
      · simp only [Option.some.injEq, Prod.mk.injEq] at h
        cases j with
        | zero =>
          rw [← h.1, hv2]
          exact ⟨rfl, rfl, rfl, rfl, rfl⟩
        | succ j =>
          exfalso
          exact absurd hstop (not_lt.mpr (hle 0 (by omega)))
      · simp only at h
        subst hv2
        cases j with
        | zero => exact absurd hgt hcont
        | succ j =>
          exact ih (idx + 1) (v.advanceRounded round) v1 out2 out1 h j (by omega)
            (fun i hi => hle (i + 1) (by omega)) hgt

/-- The loop returns on a sound with two frames behind its length, as long as
the positions are not negative and the output range lies in the buffer. -/
theorem renderLoopRounded_ok (round : ℚ → ℚ) (ps : SamplerSound) (inL : List ℚ)
    (inR : Option (List ℚ)) (hL : ps.length + 1 < (inL.length : Int))
    (hR : ∀ chR, inR = some chR → ps.length + 1 < (chR.length : Int)) :
    ∀ (n : Nat) (idx : Int) (v : SamplerVoice E) (out : AudioBuffer),
      v.sourceSamplePosition ≤ ps.length →
      (∀ j : Nat, j < n → 0 ≤ positionAfter round v.pitchRatio v.sourceSamplePosition j) →
      ValidRange out idx (n : Int) →
      ∃ v1 out1, SamplerVoice.renderLoopRounded round ps inL inR n idx v out
        = some (v1, out1) := by
  intro n
  induction n with
  | zero =>
    intro idx v out _ _ _
    exact ⟨v, out, rfl⟩
  | succ n ih =>
    intro idx v out h1 hnn hv
    have h0 : 0 ≤ v.sourceSamplePosition := hnn 0 (by omega)
    obtain ⟨hp0, hp1⟩ := toInt_bounds h0 h1
    have hp2 : toInt v.sourceSamplePosition + 1 < (inL.length : Int) := by omega
    obtain ⟨l, hl⟩ := interpolate_some hp0 hp2
      (v.sourceSamplePosition - toInt v.sourceSamplePosition)
      (1 - (v.sourceSamplePosition - toInt v.sourceSamplePosition))
    obtain ⟨r, hrv⟩ := rightValue_some hp0 hp1 hR
      (v.sourceSamplePosition - toInt v.sourceSamplePosition)
      (1 - (v.sourceSamplePosition - toInt v.sourceSamplePosition)) l
    have hvk := hv.2 idx (le_refl _) (by push_cast; omega)
    obtain ⟨o, hw⟩ := writeFrame_some hvk.1 hvk.2
      (l * (v.lgain * (Envelope.getNextSample v.adsr).1))
      (r * (v.rgain * (Envelope.getNextSample v.adsr).1))
    rw [renderLoopRounded_succ, renderFrameRounded_some hl hrv hw]
    by_cases hgt : round (v.sourceSamplePosition + v.pitchRatio) > ps.length
    · rw [if_pos hgt]
      exact ⟨_, _, rfl⟩
    · rw [if_neg hgt]
      exact ih (idx + 1) (v.advanceRounded round) o (not_lt.mp hgt)
        (fun j hj => hnn (j + 1) (by omega)) (validRange_writeFrame hw hv)

/-- Where the sums of the position with the pitch ratio are not rounded, the
loop with the rounded position is the loop with the exact one. -/
theorem renderLoopRounded_exact (round : ℚ → ℚ) (ps : SamplerSound) (inL : List ℚ)
    (inR : Option (List ℚ)) :
    ∀ (n : Nat) (idx : Int) (v : SamplerVoice E) (out : AudioBuffer),
      v.sourceSamplePosition ≤ ps.length →
      (∀ j : Nat, j < n → v.sourceSamplePosition + (j : ℚ) * v.pitchRatio ≤ ps.length →
        round (v.sourceSamplePosition + (j : ℚ) * v.pitchRatio + v.pitchRatio)
          = v.sourceSamplePosition + (j : ℚ) * v.pitchRatio + v.pitchRatio) →
      SamplerVoice.renderLoopRounded round ps inL inR n idx v out
        = SamplerVoice.renderLoop ps inL inR n idx v out := by
  intro n
  induction n with
  | zero =>
    intro idx v out _ _
    rfl
  | succ n ih =>
    intro idx v out hpos hex
    have h0 : round (v.sourceSamplePosition + v.pitchRatio)
        = v.sourceSamplePosition + v.pitchRatio := by
      have := hex 0 (by omega) (by simpa using hpos)
      simpa using this
    have hframe : SamplerVoice.renderFrameRounded round ps inL inR v out idx
        = SamplerVoice.renderFrame ps inL inR v out idx := by
      unfold SamplerVoice.renderFrameRounded SamplerVoice.renderFrame
      simp only [h0]
    rw [renderLoopRounded_succ, renderLoop_succ, hframe]
    cases hf : SamplerVoice.renderFrame ps inL inR v out idx with
    | none => rfl
    | some res =>
      obtain ⟨v2, out2, st⟩ := res
      obtain ⟨_, _, _, _, _, hcase⟩ := renderFrame_inv hf
      rcases hcase with ⟨rfl, _, _⟩ | ⟨rfl, hcont, hv2⟩
      · rfl
      · subst hv2
        have hadv : v.advance.sourceSamplePosition = v.sourceSamplePosition + v.pitchRatio := rfl
        have hrat : v.advance.pitchRatio = v.pitchRatio := rfl
        refine ih (idx + 1) v.advance out2 (by rw [hadv]; exact not_lt.mp hcont) ?_
        intro j hj hle
        rw [hadv, hrat] at hle ⊢
        have e : v.sourceSamplePosition + v.pitchRatio + (j : ℚ) * v.pitchRatio
            = v.sourceSamplePosition + ((j + 1 : Nat) : ℚ) * v.pitchRatio := by
          push_cast
          ring
        rw [e] at hle ⊢
        exact hex (j + 1) (by omega) hle

end RoundedLoopTheorems

section AccumulateTheorems

variable {E : Type} [Envelope E]

end AccumulateTheorems

section AccumulateWitness

end AccumulateWitness

section BoundTheorems

variable {E : Type} [Envelope E]

end BoundTheorems

section DoubleTheorems

/-- The positions of `tenthVoice` in `double`: the sums of the `double` nearest
to 0.1, each rounded to the nearest `double`. -/
theorem tenth_positions : ∀ k : Nat, k ≤ 11 →
    positionAfter roundDouble (3602879701896397 / 36028797018963968) 0 k = tenthPositions.getD k 0 := by
  have p0 : positionAfter roundDouble (3602879701896397 / 36028797018963968) 0 0 = 0 := rfl
  have p1 : positionAfter roundDouble (3602879701896397 / 36028797018963968) 0 1
      = 3602879701896397 / 36028797018963968 := by
    rw [positionAfter_succ, p0]
    rw [roundDouble_eq 7205759403792794 (-56) (by norm_num) (by norm_num)
      (by rw [abs_lt]; constructor <;> norm_num)]
    norm_num
  have p2 : positionAfter roundDouble (3602879701896397 / 36028797018963968) 0 2
      = 3602879701896397 / 18014398509481984 := by
    rw [positionAfter_succ, p1]
    rw [roundDouble_eq 7205759403792794 (-55) (by norm_num) (by norm_num)
      (by rw [abs_lt]; constructor <;> norm_num)]
    norm_num
  have p3 : positionAfter roundDouble (3602879701896397 / 36028797018963968) 0 3
      = 1351079888211149 / 4503599627370496 := by
    rw [positionAfter_succ, p2]
    rw [roundDouble_tie 5404319552844596 (-54) (by norm_num) (by norm_num) (by norm_num) (by decide)]
    norm_num
  have p4 : positionAfter roundDouble (3602879701896397 / 36028797018963968) 0 4
      = 3602879701896397 / 9007199254740992 := by
    rw [positionAfter_succ, p3]
    rw [roundDouble_tie 7205759403792794 (-54) (by norm_num) (by norm_num) (by norm_num) (by decide)]
    norm_num
  have p5 : positionAfter roundDouble (3602879701896397 / 36028797018963968) 0 5
      = 1 / 2 := by
    rw [positionAfter_succ, p4]
    rw [roundDouble_eq 4503599627370496 (-53) (by norm_num) (by norm_num)
      (by rw [abs_lt]; constructor <;> norm_num)]
    norm_num
  have p6 : positionAfter roundDouble (3602879701896397 / 36028797018963968) 0 6
      = 5404319552844595 / 9007199254740992 := by
    rw [positionAfter_succ, p5]
    rw [roundDouble_eq 5404319552844595 (-53) (by norm_num) (by norm_num)
      (by rw [abs_lt]; constructor <;> norm_num)]
    norm_num
  have p7 : positionAfter roundDouble (3602879701896397 / 36028797018963968) 0 7
      = 3152519739159347 / 4503599627370496 := by
    rw [positionAfter_succ, p6]
    rw [roundDouble_eq 6305039478318694 (-53) (by norm_num) (by norm_num)
      (by rw [abs_lt]; constructor <;> norm_num)]
    norm_num
  have p8 : positionAfter roundDouble (3602879701896397 / 36028797018963968) 0 8
      = 7205759403792793 / 9007199254740992 := by
    rw [positionAfter_succ, p7]
    rw [roundDouble_eq 7205759403792793 (-53) (by norm_num) (by norm_num)
      (by rw [abs_lt]; constructor <;> norm_num)]
    norm_num
  have p9 : positionAfter roundDouble (3602879701896397 / 36028797018963968) 0 9
      = 2026619832316723 / 2251799813685248 := by
    rw [positionAfter_succ, p8]
    rw [roundDouble_eq 8106479329266892 (-53) (by norm_num) (by norm_num)
      (by rw [abs_lt]; constructor <;> norm_num)]
    norm_num
  have p10 : positionAfter roundDouble (3602879701896397 / 36028797018963968) 0 10
      = 9007199254740991 / 9007199254740992 := by
    rw [positionAfter_succ, p9]
    rw [roundDouble_eq 9007199254740991 (-53) (by norm_num) (by norm_num)
      (by rw [abs_lt]; constructor <;> norm_num)]
    norm_num
  have p11 : positionAfter roundDouble (3602879701896397 / 36028797018963968) 0 11
      = 4953959590107545 / 4503599627370496 := by
    rw [positionAfter_succ, p10]
    rw [roundDouble_eq 4953959590107545 (-52) (by norm_num) (by norm_num)
      (by rw [abs_lt]; constructor <;> norm_num)]
    norm_num
  intro k hk
  interval_cases k
  · exact p0
  · exact p1
  · exact p2
  · exact p3
  · exact p4
  · exact p5
  · exact p6
  · exact p7
  · exact p8
  · exact p9
  · exact p10
  · exact p11

end DoubleTheorems

section FrameCountDoubleTheorems

variable {E : Type} [Envelope E]

theorem getNextSample_sustain (e : ADSR) (hs : e.state = ADSRState.sustain)
    (hv : e.envelopeVal = 1) : ADSR.getNextSample e = (1, e) := by
  cases e
  simp only at hs hv
  subst hs hv
  rfl

theorem envelopeValue_sustain (e : ADSR) (hs : e.state = ADSRState.sustain)
    (hv : e.envelopeVal = 1) : ∀ k : Nat, envelopeAfter e k = e ∧ envelopeValue e k = 1 := by
  have hnext : Envelope.getNextSample e = (1, e) := getNextSample_sustain e hs hv
  intro k
  induction k with
  | zero =>
    refine ⟨rfl, ?_⟩
    show (Envelope.getNextSample e).1 = 1
    rw [hnext]
  | succ k ih =>
    have h1 : envelopeAfter e (k + 1) = envelopeAfter (Envelope.getNextSample e).2 k := rfl
    rw [hnext] at h1
    refine ⟨by rw [h1]; exact ih.1, ?_⟩
    show (Envelope.getNextSample (envelopeAfter e (k + 1))).1 = 1
    rw [h1, ih.1, hnext]

theorem tenthSound_wellFormed : tenthSound.WellFormed := by
  refine ⟨by norm_num [tenthSound], by norm_num [tenthSound], [[1, 1, 0, 0, 0]], rfl,
    by simp, ?_⟩
  intro ch hch
  simp only [List.mem_singleton] at hch
  subst hch
  rfl

theorem roundDouble_small (k : Nat) (h1 : 1 ≤ k) (h4 : k ≤ 4) : roundDouble (k : ℚ) = k := by
  interval_cases k
  · rw [roundDouble_eq 4503599627370496 (-52) (by norm_num) (by norm_num)
      (by rw [abs_lt]; constructor <;> norm_num)]
    norm_num
  · rw [roundDouble_eq 4503599627370496 (-51) (by norm_num) (by norm_num)
      (by rw [abs_lt]; constructor <;> norm_num)]
    norm_num
  · rw [roundDouble_eq 6755399441055744 (-51) (by norm_num) (by norm_num)
      (by rw [abs_lt]; constructor <;> norm_num)]
    norm_num
  · rw [roundDouble_eq 4503599627370496 (-50) (by norm_num) (by norm_num)
      (by rw [abs_lt]; constructor <;> norm_num)]
    norm_num

/-- Counterexample to C20: a sound of length `L = 1` and a voice at position 0
whose pitch ratio `r` is the `double` `1.0 * 4800.0 / 48000.0`, so that
`floor (L / r) + 1 = 10` and `10 * r > L`.  Rendered with the position summed in
`double` into a block of 12 frames, the voice adds its value `1/2` to the 11
frames 0 to 10: the position before the pass for frame 10 is the `double`
0.9999999999999999, not above the length.  Frame 11 is left alone and the voice
is stopped with its note cleared. -/
theorem frame_count_rounding_counterexample :
    tenthVoice.pitchRatio = roundDouble (1 * 4800 / 48000)
      ∧ tenthVoice.sourceSamplePosition = 0
      ∧ tenthVoice.currentlyPlayingSound = some tenthSound
      ∧ tenthSound.length = 1
      ∧ ⌊(tenthSound.length : ℚ) / tenthVoice.pitchRatio⌋ + 1 = 10
      ∧ ¬ (10 : ℚ) * tenthVoice.pitchRatio ≤ tenthSound.length
      ∧ positionAfter roundDouble tenthVoice.pitchRatio 0 10
          = 9007199254740991 / 9007199254740992
      ∧ ∃ v1 out1,
          tenthVoice.renderNextBlockRounded roundDouble
              (List.replicate 1 (List.replicate 12 0)) 0 12 = some (v1, out1)
          ∧ (∀ k : Nat, k ≤ 10 → sampleAt out1 0 k = some (1 / 2))
          ∧ sampleAt out1 0 11 = some 0
          ∧ v1.currentlyPlayingNote = -1 ∧ v1.currentlyPlayingSound = none := by
  have hratio : tenthVoice.pitchRatio = 3602879701896397 / 36028797018963968 := rfl
  have hpos0 : tenthVoice.sourceSamplePosition = 0 := rfl
  have hlen : tenthSound.length = 1 := rfl
  have hP : ∀ k : Nat, k ≤ 11 →
      positionAfter roundDouble tenthVoice.pitchRatio tenthVoice.sourceSamplePosition k
        = tenthPositions.getD k 0 := by
    intro k hk
    rw [hratio, hpos0]
    exact tenth_positions k hk
  have hin : ∀ k : Nat, k ≤ 10 →
      0 ≤ tenthPositions.getD k 0 ∧ tenthPositions.getD k 0 < 1 := by
    intro k hk
    interval_cases k <;> norm_num [tenthPositions]
  have hover : tenthPositions.getD 11 0 > 1 := by
    norm_num [tenthPositions]
  have hnn : ∀ k : Nat, k ≤ 11 → 0 ≤ tenthPositions.getD k 0 := by
    intro k hk
    interval_cases k <;> norm_num [tenthPositions]
  have hvalid : ValidRange (List.replicate 1 (List.replicate 12 (0 : ℚ))) 0 ((12 : Nat) : Int) :=
    validRange_zero (by decide)
  obtain ⟨hL, hR⟩ := wellFormed_channels tenthSound_wellFormed
    (show tenthSound.data = some [[1, 1, 0, 0, 0]] from rfl)
  obtain ⟨v1, out1, hloop⟩ := renderLoopRounded_ok roundDouble tenthSound _ _ hL hR 12 0
    tenthVoice _ (by rw [hpos0, hlen]; norm_num)
    (by
      intro j hj
      rw [hP j (by omega)]
      exact hnn j (by omega))
    hvalid
  have hnostop : ∀ k : Nat, k ≤ 10 → ∀ i : Nat, i < k →
      positionAfter roundDouble tenthVoice.pitchRatio tenthVoice.sourceSamplePosition (i + 1)
        ≤ tenthSound.length := by
    intro k hk i hi
    rw [hP (i + 1) (by omega), hlen]
    have := (hin (i + 1) (by omega)).2
    push_cast
    linarith
  have hleft : ∀ x : ℚ, 0 ≤ x → x < 1 →
      leftValueAt [1, 1, 0, 0, 0] x = some 1 := by
    intro x h0 h1
    have hfl : toInt x = 0 := by
      rw [toInt_of_nonneg h0, Int.floor_eq_zero_iff]
      exact ⟨h0, h1⟩
    unfold leftValueAt
    rw [hfl]
    simp [interpolate, readAt]
  refine ⟨?_, rfl, rfl, rfl, ?_, ?_, ?_, v1, out1, ?_, ?_, ?_, ?_, ?_⟩
  · rw [hratio]
    rw [roundDouble_eq 7205759403792794 (-56) (by norm_num) (by norm_num)
      (by rw [abs_lt]; constructor <;> norm_num)]
    norm_num
  · rw [hratio, hlen]
    norm_num
  · rw [hratio, hlen]
    norm_num
  · have := hP 10 (by decide)
    rw [hpos0] at this
    rw [this]
    rfl
  · show SamplerVoice.renderLoopRounded roundDouble tenthSound _ _ 12 0 tenthVoice _
      = some (v1, out1)
    exact hloop
  · intro k hk
    obtain ⟨l, r, hl, hr, hval⟩ := renderLoopRounded_values roundDouble tenthSound _ _ 12 0
      tenthVoice v1 _ out1 hloop k (by omega) (hnostop k hk)
    rw [hP k (by omega)] at hl hr
    have hl1 : l = 1 := by
      have h2 := hleft _ (hin k hk).1 (hin k hk).2
      have h3 : ([[1, 1, 0, 0, 0]] : AudioBuffer).getD 0 [] = [1, 1, 0, 0, 0] := rfl
      rw [h3, h2] at hl
      exact (Option.some.inj hl).symm
    have hr1 : r = l := by
      have h3 : (if ([[1, 1, 0, 0, 0]] : AudioBuffer).length > 1
          then ([[1, 1, 0, 0, 0]] : AudioBuffer)[1]? else none) = none := rfl
      rw [h3] at hr
      exact (Option.some.inj hr).symm
    have henv := (envelopeValue_sustain tenthVoice.adsr rfl rfl k).2
    have hv := hval 0
    rw [zero_add] at hv
    rw [hv, sampleAt_zero (by decide) (by omega) (by omega), hr1, hl1, henv]
    norm_num [channelShare, tenthVoice]
  · rw [renderLoopRounded_after roundDouble tenthSound _ _ 12 0 tenthVoice v1 _ out1 hloop 0 11
      (Or.inr ⟨10, by rw [hP 11 (by decide), hlen]; exact_mod_cast hover, by decide⟩)]
    exact sampleAt_zero (by decide) (by decide) (by decide)
  · exact (renderLoopRounded_stop roundDouble tenthSound _ _ 12 0 tenthVoice v1 _ out1 hloop 10
      (by decide) (hnostop 10 (le_refl _))
      (by rw [hP 11 (by decide), hlen]; exact_mod_cast hover)).2.1
  · exact (renderLoopRounded_stop roundDouble tenthSound _ _ 12 0 tenthVoice v1 _ out1 hloop 10
      (by decide) (hnostop 10 (le_refl _))
      (by rw [hP 11 (by decide), hlen]; exact_mod_cast hover)).1

theorem roundHalfEven_nonneg {y : ℚ} (h : 0 ≤ y) : 0 ≤ roundHalfEven y := by
  have hf : 0 ≤ ⌊y⌋ := Int.floor_nonneg.mpr h
  unfold roundHalfEven
  split
  · exact hf
  · split
    · omega
    · split
      · exact hf
      · omega

theorem roundDouble_nonneg {x : ℚ} (h : 0 ≤ x) : 0 ≤ roundDouble x := by
  unfold roundDouble
  split
  · exact le_refl _
  · rw [if_neg (not_lt.mpr h)]
    have h1 : (0 : ℚ) ≤ |x| / 2 ^ (Int.log 2 |x| - 52) := by positivity
    have h2 : (0 : ℚ) ≤ ((roundHalfEven (|x| / 2 ^ (Int.log 2 |x| - 52)) : Int) : ℚ) := by
      exact_mod_cast roundHalfEven_nonneg h1
    have h3 : (0 : ℚ) < (2 : ℚ) ^ (Int.log 2 |x| - 52) := by positivity
    simp only [one_mul]
    exact mul_nonneg h2 (le_of_lt h3)

theorem positionAfter_nonneg {r : ℚ} (hr : 0 ≤ r) : ∀ (k : Nat) (pos : ℚ), 0 ≤ pos →
    0 ≤ positionAfter roundDouble r pos k := by
  intro k
  induction k with
  | zero =>
    intro pos h
    exact h
  | succ k ih =>
    intro pos h
    exact ih (roundDouble (pos + r)) (roundDouble_nonneg (by linarith))

/-- Where the sums are not rounded, the positions are the multiples of the
pitch ratio. -/
theorem positionAfter_exact {r : ℚ} {len : Int} {N : Nat}
    (hbelow : ∀ k : Nat, k ≤ N → positionAfter roundDouble r 0 k ≤ len)
    (hexact : ∀ k : Nat, (k : ℚ) * r ≤ len →
      roundDouble ((k : ℚ) * r + r) = (k : ℚ) * r + r) :
    ∀ k : Nat, k ≤ N + 1 → positionAfter roundDouble r 0 k = (k : ℚ) * r := by
  intro k
  induction k with
  | zero =>
    intro _
    simp [positionAfter]
  | succ k ih =>
    intro hk
    have hPk := ih (by omega)
    have hle := hbelow k (by omega)
    rw [hPk] at hle
    rw [positionAfter_succ, hPk, hexact k hle]
    push_cast
    ring

/-- C20 as amended: a voice at position 0 with pitch ratio `r > 0` on a
well-formed sound of length `L`, rendered with the position summed in `double`
and without a note-off.  Let `p 0 = 0` and `p (k + 1) = double (p k + r)` be the
positions as the code accumulates them, and let `N` be such that `p 0 .. p N`
are not above `L` and `p (N + 1)` is; the block has more than `N` frames.  The
call returns with the voice hard-stopped and its note cleared; the envelope has
been read exactly `N + 1` times; the frames `0 .. N` are rendered, frame `k`
from the values at position `p k`; no frame behind them is changed.  Where no
sum `k * r + r` with `k * r ≤ L` is rounded, `p k = k * r`, the count `N + 1` is
`floor (L / r) + 1`, and frame `k` is rendered if and only if `k * r ≤ L`; at
ratio 1 these are `L + 1` frames and the left value of the last one is the data
frame at index `L`. -/
theorem frames_rendered_until_position_passes (ps : SamplerSound) (hwf : ps.WellFormed)
    (data : AudioBuffer) (hd : ps.data = some data) (v : SamplerVoice E)
    (hs : v.currentlyPlayingSound = some ps) (hpos : v.sourceSamplePosition = 0)
    (hr : 0 < v.pitchRatio) (out : AudioBuffer) (s : Int) (numSamples : Nat)
    (hv : ValidRange out s (numSamples : Int)) (N : Nat) (henough : N < numSamples)
    (hbelow : ∀ k : Nat, k ≤ N → positionAfter roundDouble v.pitchRatio 0 k ≤ ps.length)
    (habove : positionAfter roundDouble v.pitchRatio 0 (N + 1) > ps.length) :
    ∃ v1 out1, v.renderNextBlockRounded roundDouble out s (numSamples : Int) = some (v1, out1)
      ∧ v1.currentlyPlayingNote = -1 ∧ v1.currentlyPlayingSound = none
      ∧ v1.adsr = Envelope.reset (envelopeAfter v.adsr (N + 1))
      ∧ (∀ k : Nat, k ≤ N →
          ∃ l r, leftValueAt (data.getD 0 []) (positionAfter roundDouble v.pitchRatio 0 k)
              = some l
            ∧ rightValueAt (if data.length > 1 then data[1]? else none)
                (positionAfter roundDouble v.pitchRatio 0 k) l = some r
            ∧ ∀ c, sampleAt out1 c (s + (k : Int))
                = (sampleAt out c (s + (k : Int))).map fun y =>
                    y + channelShare out.length c (l * (v.lgain * envelopeValue v.adsr k))
                      (r * (v.rgain * envelopeValue v.adsr k)))
      ∧ (∀ c i, (i < s ∨ s + (N : Int) < i) → sampleAt out1 c i = sampleAt out c i)
      ∧ ((∀ k : Nat, (k : ℚ) * v.pitchRatio ≤ ps.length →
            roundDouble ((k : ℚ) * v.pitchRatio + v.pitchRatio)
              = (k : ℚ) * v.pitchRatio + v.pitchRatio) →
          (N : Int) + 1 = ⌊(ps.length : ℚ) / v.pitchRatio⌋ + 1
            ∧ (∀ k : Nat, k ≤ N + 1 →
                positionAfter roundDouble v.pitchRatio 0 k = (k : ℚ) * v.pitchRatio)
            ∧ (∀ k : Nat, (k : ℚ) * v.pitchRatio ≤ ps.length ↔ k ≤ N)
            ∧ (v.pitchRatio = 1 →
                (N : Int) + 1 = ps.length + 1
                  ∧ leftValueAt (data.getD 0 []) (ps.length : ℚ)
                      = some ((data.getD 0 []).getD ps.length.toNat 0))) := by
  have hlen : (0 : ℚ) ≤ ps.length := by exact_mod_cast hwf.2.1
  obtain ⟨hL, hR⟩ := wellFormed_channels hwf hd
  have hnn : ∀ j : Nat, j < numSamples →
      0 ≤ positionAfter roundDouble v.pitchRatio v.sourceSamplePosition j := by
    intro j _
    rw [hpos]
    exact positionAfter_nonneg (le_of_lt hr) j 0 (le_refl _)
  obtain ⟨v1, out1, hloop⟩ := renderLoopRounded_ok roundDouble ps _ _ hL hR numSamples s v out
    (by rw [hpos]; exact hlen) hnn hv
  have hnostop : ∀ k : Nat, k ≤ N → ∀ i : Nat, i < k →
      positionAfter roundDouble v.pitchRatio v.sourceSamplePosition (i + 1) ≤ ps.length := by
    intro k hk i hi
    rw [hpos]
    exact hbelow (i + 1) (by omega)
  have habove2 : positionAfter roundDouble v.pitchRatio v.sourceSamplePosition (N + 1)
      > ps.length := by
    rw [hpos]
    exact habove
  obtain ⟨t1, t2, _, _, t5⟩ := renderLoopRounded_stop roundDouble ps _ _ numSamples s v v1 out
    out1 hloop N henough (hnostop N (le_refl _)) habove2
  have hrender : v.renderNextBlockRounded roundDouble out s (numSamples : Int)
      = some (v1, out1) := by
    unfold SamplerVoice.renderNextBlockRounded
    simp only [hs, hd, Int.toNat_ofNat]
    exact hloop
  refine ⟨v1, out1, hrender, t2, t1, t5, ?_, ?_, ?_⟩
  · intro k hk
    have := renderLoopRounded_values roundDouble ps _ _ numSamples s v v1 out out1 hloop k
      (by omega) (hnostop k hk)
    rw [hpos] at this
    exact this
  · intro c i hi
    rcases hi with hi | hi
    · exact (renderLoopRounded_before roundDouble ps _ _ numSamples s v v1 out out1 hloop).2
        c i hi
    · exact renderLoopRounded_after roundDouble ps _ _ numSamples s v v1 out out1 hloop c i
        (Or.inr ⟨N, habove2, hi⟩)
  · intro hexact
    have hP := positionAfter_exact hbelow hexact
    have hN1 : (N : ℚ) * v.pitchRatio ≤ ps.length := by
      rw [← hP N (by omega)]
      exact hbelow N (le_refl _)
    have hN2 : (ps.length : ℚ) < ((N : ℚ) + 1) * v.pitchRatio := by
      have := habove
      rw [hP (N + 1) (le_refl _)] at this
      push_cast at this
      exact this
    have hfloor : ⌊(ps.length : ℚ) / v.pitchRatio⌋ = (N : Int) := by
      rw [Int.floor_eq_iff]
      constructor
      · rw [le_div_iff₀ hr]
        exact_mod_cast hN1
      · rw [div_lt_iff₀ hr]
        exact_mod_cast hN2
    refine ⟨by rw [hfloor], hP, ?_, ?_⟩
    · intro k
      constructor
      · intro hk
        by_contra hcon
        have hk2 : (N : ℚ) + 1 ≤ (k : ℚ) := by
          have : N + 1 ≤ k := by omega
          exact_mod_cast this
        have : ((N : ℚ) + 1) * v.pitchRatio ≤ (k : ℚ) * v.pitchRatio :=
          mul_le_mul_of_nonneg_right hk2 (le_of_lt hr)
        linarith
      · intro hk
        have hk2 : (k : ℚ) ≤ (N : ℚ) := by exact_mod_cast hk
        have : (k : ℚ) * v.pitchRatio ≤ (N : ℚ) * v.pitchRatio :=
          mul_le_mul_of_nonneg_right hk2 (le_of_lt hr)
        linarith
    · intro hone
      have hvN : ValidRange out s ((N + 1 : Nat) : Int) := by
        refine ⟨hv.1, fun k hk1 hk2 => hv.2 k hk1 ?_⟩
        push_cast at hk2 ⊢
        omega
      obtain ⟨_, _, _, _, _, _, _, _, _, hlast⟩ :=
        frames_rendered_until_stop ps hwf data hd v hs hpos hr out s (N + 1) hvN
          (by rw [hfloor]; push_cast; omega)
      obtain ⟨h1, h2⟩ := hlast hone
      exact ⟨by rw [← h1, hfloor], h2⟩

theorem positionAfter_unit : ∀ k : Nat, k ≤ 4 →
    positionAfter roundDouble 1 0 k = (k : ℚ) := by
  intro k
  induction k with
  | zero =>
    intro _
    simp [positionAfter]
  | succ k ih =>
    intro hk
    rw [positionAfter_succ, ih (by omega)]
    have := roundDouble_small (k + 1) (by omega) hk
    push_cast at this ⊢
    exact this

/-- Witness of C20 as amended: the demo sound (length 3) at ratio 1 from position 0 into a
mono block of six frames: the positions are 0, 1, 2, 3 and then 4, four frames
are rendered, then the voice is stopped; the sums are not rounded and
`floor (3 / 1) + 1 = 4`. -/
theorem frames_rendered_until_position_passes_witness :
    ∃ v1 out1, demoVoiceAtStart.renderNextBlockRounded roundDouble [[0, 0, 0, 0, 0, 0]] 0
        ((6 : Nat) : Int) = some (v1, out1)
      ∧ v1.currentlyPlayingNote = -1 ∧ v1.currentlyPlayingSound = none
      ∧ v1.adsr = Envelope.reset (envelopeAfter demoVoiceAtStart.adsr 4)
      ∧ (∀ c i, (i < 0 ∨ 3 < i) → sampleAt out1 c i = sampleAt [[0, 0, 0, 0, 0, 0]] c i)
      ∧ ((3 : Nat) : Int) + 1 = ⌊((demoSound.length : Int) : ℚ) / demoVoiceAtStart.pitchRatio⌋ + 1 := by
  have hone : demoVoiceAtStart.pitchRatio = 1 := rfl
  have hlen : demoSound.length = 3 := rfl
  obtain ⟨v1, out1, h, h1, h2, h3, _, h5, h6⟩ :=
    frames_rendered_until_position_passes demoSound demoSound_wellFormed
      [[1, 2, 3, 0, 0, 0, 0]] rfl demoVoiceAtStart rfl rfl (by norm_num [demoVoiceAtStart])
      [[0, 0, 0, 0, 0, 0]] 0 6 validRange_demo 3 (by decide)
      (by
        intro k hk
        rw [hone, positionAfter_unit k (by omega), hlen]
        exact_mod_cast hk)
      (by
        rw [hone, positionAfter_unit 4 (le_refl _), hlen]
        norm_num)
  have hexact : ∀ k : Nat, (k : ℚ) * demoVoiceAtStart.pitchRatio ≤ demoSound.length →
      roundDouble ((k : ℚ) * demoVoiceAtStart.pitchRatio + demoVoiceAtStart.pitchRatio)
        = (k : ℚ) * demoVoiceAtStart.pitchRatio + demoVoiceAtStart.pitchRatio := by
    intro k hk
    rw [hone, hlen] at hk
    rw [hone]
    have hk3 : k ≤ 3 := by
      have : (k : ℚ) ≤ 3 := by simpa using hk
      exact_mod_cast this
    have := roundDouble_small (k + 1) (by omega) (by omega)
    push_cast at this
    simpa using this
  exact ⟨v1, out1, h, h1, h2, h3, h5, (h6 hexact).1⟩

end FrameCountDoubleTheorems

section AssetReadTheorems

/-- C4, the code at the failing input: `loadSample` on a file that a format
opens and that holds no frames reports success and installs an asset without
audio data.  For a voice that is assigned this asset and started on it, at any
note and velocity, a render call cannot read the asset, whatever its output
range, and neither can a sequence of calls that begins with one. -/
theorem loaded_asset_without_data_read_fails :
    (demoProcessor.loadSample emptyFile 0).1 = true
      ∧ (demoProcessor.loadSample emptyFile 0).2.synth.sounds = [emptySound]
      ∧ emptySound.data = none
      ∧ ∀ (note : Int) (velocity : ℚ) (out : AudioBuffer) (s n : Int) (cs : List VoiceCall),
          (emptyAssigned.startNote floorPow note velocity (some emptySound)).renderNextBlock
              out s n = none
            ∧ (emptyAssigned.startNote floorPow note velocity (some emptySound)).calls
                (VoiceCall.render out s n :: cs) = none := by
  have hd : emptySound.data = none := by
    simp [emptySound, SamplerSound.ctor, emptyReader]
  refine ⟨?_, ?_, hd, ?_⟩
  · simp [SimpleSamplerAudioProcessor.loadSample, emptyFile]
  · simp [SimpleSamplerAudioProcessor.loadSample, emptyFile, Synthesiser.addSound,
      Synthesiser.clearSounds, emptySound]
  · intro note velocity out s n cs
    have hs : (emptyAssigned.startNote floorPow note velocity (some emptySound)).currentlyPlayingSound
        = some emptySound := rfl
    have hrender : (emptyAssigned.startNote floorPow note velocity (some emptySound)).renderNextBlock
        out s n = none := by
      unfold SamplerVoice.renderNextBlock
      rw [hs]
      simp only [hd]
    refine ⟨hrender, ?_⟩
    simp only [SamplerVoice.calls, SamplerVoice.call, hrender, Option.map_none',
      Option.none_bind]

end AssetReadTheorems

end SimpleSampler
